import Mathlib

/-!
# Bhojpur EMS: the in-flight priority queue and name validation

A shallow embedding of `pkg/engine/in_flight_pqueue.go` and of the name
validation of `pkg/client/protocol.go`, followed by the properties proved
about them.

Conventions of the embedding

* A `*Message` is an address (`MsgRef`); the Go heap is a `Memory`, a map from
  addresses to `Message` records.  Two slots of a queue may hold the same
  address, exactly as two slots of a Go slice may hold the same pointer.
* A Go slice is its visible elements (`items`) together with its capacity
  (`cap`).  The part of the backing array beyond `len` is never read by the
  code before it is overwritten, so it is not represented.
* A run-time panic (index or slice bound out of range) is the result `none`.
* Slice indices, lengths and capacities are Go `int`s.  A slice of pointers has
  fewer than `2^60` elements, so `2*i + 1`, `n + 1` and `c*2` never overflow for
  an index `i`, a length `n` and a capacity `c` of such a slice; they are natural
  numbers, and the parent `(j - 1) / 2` of Go (division truncating towards zero,
  so that the parent of `0` is `0`) is the truncated natural number expression
  `(j - 1) / 2`.
* Priorities are `int64`; they are integers, and the one arithmetic operation
  on them, the subtraction of `PeekAndShift`, wraps around explicitly.
-/

namespace engine

/-- Modelled from the spec: the `Message` struct, whose declaration (message.go)
is not among the sources.  Only the run-time fields that the queue and its tests
touch are kept: the owning client, the priority (`pri`, an int64 deadline) and
the heap index (`index`, a Go int). -/
structure Message where
  clientID : Int
  pri : Int
  index : Int
deriving DecidableEq, Repr

/-- The address of a message: a non-nil `*Message`. -/
abbrev MsgRef := Nat

/-- The Go heap, as far as messages are concerned. -/
abbrev Memory := MsgRef → Message

/-- The assignment `p.index = i`. -/
def setIndex (mem : Memory) (p : MsgRef) (i : Int) : Memory :=
  fun q => if q = p then { mem q with index := i } else mem q

/-- The value of an int64 expression whose mathematical value is `x`. -/
def wrapInt64 (x : Int) : Int := (x + 2 ^ 63) % 2 ^ 64 - 2 ^ 63

/-- The type `inFlightPqueue []*Message`: the visible elements of the slice and
its capacity. -/
structure inFlightPqueue where
  items : List MsgRef
  cap : Nat
deriving DecidableEq, Repr

/-- The function `newInFlightPqueue`: `make(inFlightPqueue, 0, capacity)`. -/
def newInFlightPqueue (capacity : Nat) : inFlightPqueue :=
  { items := [], cap := capacity }

/-- The method `Swap`: exchange the slots `i` and `j`, then write the two index
fields through the new contents of the slots.  It does not change the slice
header, so it acts on the element list. -/
def Swap (mem : Memory) (pq : List MsgRef) (i j : Nat) : Option (Memory × List MsgRef) := do
  let a ← pq[i]?
  let b ← pq[j]?
  let pq1 := (pq.set i b).set j a
  let x ← pq1[i]?
  let mem1 := setIndex mem x i
  let y ← pq1[j]?
  let mem2 := setIndex mem1 y j
  pure (mem2, pq1)

/-- The loop of the method `up`, one iteration per unit of fuel. -/
def upLoop : Nat → Memory → List MsgRef → Nat → Option (Memory × List MsgRef)
  | 0, _, _, _ => none
  | fuel + 1, mem, pq, j =>
    let i := (j - 1) / 2
    if i = j then some (mem, pq)
    else do
      let xj ← pq[j]?
      let xi ← pq[i]?
      if (mem xj).pri ≥ (mem xi).pri then some (mem, pq)
      else do
        let (mem1, pq1) ← Swap mem pq i j
        upLoop fuel mem1 pq1 i

/-- The method `up`.  Every iteration but the last moves `j` to a strictly
smaller index, so `j + 1` iterations always suffice. -/
def up (mem : Memory) (pq : List MsgRef) (j : Nat) : Option (Memory × List MsgRef) :=
  upLoop (j + 1) mem pq j

/-- The loop of the method `down`, one iteration per unit of fuel. -/
def downLoop : Nat → Memory → List MsgRef → Nat → Nat → Option (Memory × List MsgRef)
  | 0, _, _, _, _ => none
  | fuel + 1, mem, pq, i, n =>
    let j1 := 2 * i + 1
    if j1 ≥ n then some (mem, pq)
    else do
      let j ← (if j1 + 1 < n then do
                  let x1 ← pq[j1]?
                  let x2 ← pq[j1 + 1]?
                  pure (if (mem x1).pri ≥ (mem x2).pri then j1 + 1 else j1)
                else pure j1)
      let xj ← pq[j]?
      let xi ← pq[i]?
      if (mem xj).pri ≥ (mem xi).pri then some (mem, pq)
      else do
        let (mem1, pq1) ← Swap mem pq i j
        downLoop fuel mem1 pq1 j n

/-- The method `down`.  Every iteration but the last moves `i` to a strictly
larger index below `n`, so `n + 1` iterations always suffice. -/
def down (mem : Memory) (pq : List MsgRef) (i n : Nat) : Option (Memory × List MsgRef) :=
  downLoop (n + 1) mem pq i n

/-- The method `Push`. -/
def Push (mem : Memory) (pq : inFlightPqueue) (x : MsgRef) : Option (Memory × inFlightPqueue) := do
  let n := pq.items.length
  let c := pq.cap
  -- if n+1 > c { npq := make(inFlightPqueue, n, c*2); copy(npq, *pq); *pq = npq }
  let pq1 ← (if n + 1 > c then
               (if n > c * 2 then none else some { items := pq.items, cap := c * 2 })
             else some pq)
  -- *pq = (*pq)[0 : n+1]
  if n + 1 > pq1.cap then none
  else
    let mem1 := setIndex mem x n
    -- (*pq)[n] = x
    let items2 := pq1.items ++ [x]
    let (mem2, items3) ← up mem1 items2 n
    pure (mem2, { items := items3, cap := pq1.cap })

/-- The method `Pop`; the third component is the returned message. -/
def Pop (mem : Memory) (pq : inFlightPqueue) : Option (Memory × inFlightPqueue × MsgRef) := do
  let n := pq.items.length
  let c := pq.cap
  -- pq.Swap(0, n-1) indexes the slice at -1 when n = 0
  if n = 0 then none
  else
    let (mem1, items1) ← Swap mem pq.items 0 (n - 1)
    let (mem2, items2) ← down mem1 items1 0 (n - 1)
    let cap2 := if n < c / 2 ∧ c > 25 then c / 2 else c
    let x ← items2[n - 1]?
    let mem3 := setIndex mem2 x (-1)
    -- *pq = (*pq)[0 : n-1]
    pure (mem3, { items := items2.take (n - 1), cap := cap2 }, x)

/-- The method `Remove`; the argument is a Go int, the third component is the
returned message. -/
def Remove (mem : Memory) (pq : inFlightPqueue) (i : Int) : Option (Memory × inFlightPqueue × MsgRef) := do
  let n := pq.items.length
  let (mem2, items2) ← (if (n : Int) - 1 ≠ i then
      (if i < 0 ∨ n = 0 then none
       else do
        let (m1, q1) ← Swap mem pq.items i.toNat (n - 1)
        let (m2, q2) ← down m1 q1 i.toNat (n - 1)
        up m2 q2 i.toNat)
    else some (mem, pq.items))
  if n = 0 then none
  else
    let x ← items2[n - 1]?
    let mem3 := setIndex mem2 x (-1)
    -- *pq = (*pq)[0 : n-1]
    pure (mem3, { items := items2.take (n - 1), cap := pq.cap }, x)

/-- The method `PeekAndShift`; the third component is the returned message
(`none` is nil), the fourth the returned wait. -/
def PeekAndShift (mem : Memory) (pq : inFlightPqueue) (max : Int) :
    Option (Memory × inFlightPqueue × Option MsgRef × Int) := do
  if pq.items.length = 0 then pure (mem, pq, none, 0)
  else
    let x ← pq.items[0]?
    if (mem x).pri > max then pure (mem, pq, none, wrapInt64 ((mem x).pri - max))
    else
      let (mem1, pq1, _) ← Pop mem pq
      pure (mem1, pq1, some x, 0)

/-! ### The loops that drive the queue -/

/-- The loop of the tests that pushes the messages `xs` one after the other:
`for ... { pq.Push(x) }`. -/
def pushAll : Memory → inFlightPqueue → List MsgRef → Option (Memory × inFlightPqueue)
  | mem, pq, [] => some (mem, pq)
  | mem, pq, x :: xs => do
    let (mem1, pq1) ← Push mem pq x
    pushAll mem1 pq1 xs

/-- The loop of the tests that pops `k` times: `for i := 0; i < k; i++ { pq.Pop() }`;
the first component lists the returned messages in the order of their return. -/
def popAll : Nat → Memory → inFlightPqueue → Option (List MsgRef × Memory × inFlightPqueue)
  | 0, mem, pq => some ([], mem, pq)
  | k + 1, mem, pq => do
    let (mem1, pq1, x) ← Pop mem pq
    let (out, mem2, pq2) ← popAll k mem1 pq1
    pure (x :: out, mem2, pq2)

/-- The loop of `TestUnsortedInsert` that calls `PeekAndShift(max)` `k` times;
the first component lists the returned messages (`none` is nil) in the order of
their return. -/
def shiftAll : Nat → Memory → inFlightPqueue → Int →
    Option (List (Option MsgRef) × Memory × inFlightPqueue)
  | 0, mem, pq, _ => some ([], mem, pq)
  | k + 1, mem, pq, max => do
    let (mem1, pq1, r, _) ← PeekAndShift mem pq max
    let (out, mem2, pq2) ← shiftAll k mem1 pq1 max
    pure (r :: out, mem2, pq2)

/-- Modelled from the spec: the loop of `processInFlight` (channel.go is not
among the sources), which calls `PeekAndShift(now)` until it returns nil.  One
call per unit of fuel; the result is `none` when a call panics or when the fuel
runs out before a call has returned nil.  The first component lists the
returned messages in the order of their return. -/
def shiftUntilNil : Nat → Memory → inFlightPqueue → Int →
    Option (List MsgRef × Memory × inFlightPqueue)
  | 0, _, _, _ => none
  | fuel + 1, mem, pq, now =>
    match PeekAndShift mem pq now with
    | none => none
    | some (mem1, pq1, none, _) => some ([], mem1, pq1)
    | some (mem1, pq1, some x, _) =>
      match shiftUntilNil fuel mem1 pq1 now with
      | none => none
      | some (out, mem2, pq2) => some (x :: out, mem2, pq2)

/-- The states of a queue and of the memory of its messages that are reachable
from an empty queue: by `Push` of a message that the queue does not hold, by
`Pop`, `Remove` and `PeekAndShift`, and by the rest of the program writing to
messages that the queue does not hold. -/
inductive Reachable : Memory → inFlightPqueue → Prop
  | init (mem : Memory) (c : Nat) : Reachable mem (newInFlightPqueue c)
  | push {mem mem' : Memory} {pq pq' : inFlightPqueue} (x : MsgRef) :
      Reachable mem pq → x ∉ pq.items → Push mem pq x = some (mem', pq') → Reachable mem' pq'
  | pop {mem mem' : Memory} {pq pq' : inFlightPqueue} (x : MsgRef) :
      Reachable mem pq → Pop mem pq = some (mem', pq', x) → Reachable mem' pq'
  | remove {mem mem' : Memory} {pq pq' : inFlightPqueue} (i : Int) (x : MsgRef) :
      Reachable mem pq → Remove mem pq i = some (mem', pq', x) → Reachable mem' pq'
  | peekAndShift {mem mem' : Memory} {pq pq' : inFlightPqueue} (max : Int) (r : Option MsgRef)
      (d : Int) :
      Reachable mem pq → PeekAndShift mem pq max = some (mem', pq', r, d) → Reachable mem' pq'
  | outside {mem mem' : Memory} {pq : inFlightPqueue} :
      Reachable mem pq → (∀ p, p ∈ pq.items → mem' p = mem p) → Reachable mem' pq

/-! ### A sample state -/

/-- A memory of six messages, at the addresses `0` to `5`, with the priorities
`5, 3, 8, 1, 9, 2`; their index fields are as six calls of `Push`, in the order of
the addresses, leave them. -/
def exMem : Memory := fun p =>
  { clientID := p, pri := [5, 3, 8, 1, 9, 2].getD p 0, index := [3, 1, 5, 0, 4, 2].getD p (-1) }

/-- The queue that holds the six messages of `exMem`. -/
def exQueue : inFlightPqueue := { items := [3, 1, 5, 0, 4, 2], cap := 8 }

/-- The memory after `Push` of the messages `0` and `1` of `exMem`, in this
order, onto `newInFlightPqueue(1)`. -/
def twoMem : Memory := setIndex (setIndex (setIndex (setIndex exMem 0 0) 1 1) 1 0) 0 1

/-- The queue after these two calls of `Push`. -/
def twoQueue : inFlightPqueue := { items := [1, 0], cap := 2 }

/-- A memory in which the message at address `p` has priority `p`. -/
def idMem : Memory := fun p => { clientID := p, pri := p, index := p }

/-- A queue of ten messages and capacity 26 over `idMem`. -/
def wideQueue : inFlightPqueue := { items := List.range 10, cap := 26 }

/-! ### Vocabulary of the properties -/

/-- The priority of the message in slot `k` of the slice. -/
def priAt (mem : Memory) (pq : List MsgRef) (k : Nat) : Int := (mem (pq.getD k 0)).pri

/-- The min-heap order on the first `n` slots of an array of keys: every slot
but the root is at least its parent. -/
def HeapOn (key : Nat → Int) (n : Nat) : Prop :=
  ∀ k, k < n → 0 < k → key ((k - 1) / 2) ≤ key k

instance (key : Nat → Int) (n : Nat) : Decidable (HeapOn key n) :=
  inferInstanceAs (Decidable (∀ k, k < n → 0 < k → key ((k - 1) / 2) ≤ key k))

/-- The min-heap invariant of a queue: for every `0 < i < len(pq)`,
`pq[(i-1)/2].pri <= pq[i].pri`. -/
def isHeap (mem : Memory) (pq : List MsgRef) : Prop := HeapOn (priAt mem pq) pq.length

instance (mem : Memory) (pq : List MsgRef) : Decidable (isHeap mem pq) :=
  inferInstanceAs (Decidable (HeapOn (priAt mem pq) pq.length))

/-- The index invariant of a queue: the message in slot `k` has `index = k`. -/
def IndexInv (mem : Memory) (pq : List MsgRef) : Prop :=
  ∀ k, k < pq.length → (mem (pq.getD k 0)).index = (k : Int)

instance (mem : Memory) (pq : List MsgRef) : Decidable (IndexInv mem pq) :=
  inferInstanceAs (Decidable (∀ k, k < pq.length → (mem (pq.getD k 0)).index = (k : Int)))

/-- The keys after the exchange of the slots `i` and `j`. -/
def swapKey (key : Nat → Int) (i j : Nat) : Nat → Int :=
  fun k => if k = i then key j else if k = j then key i else key k

/-- The state of the loop of `up` at slot `j`: the heap order holds on the first
`n` slots except possibly between `j` and its parent, and the children of `j`
are at least the parent of `j`. -/
def UpInv (key : Nat → Int) (n j : Nat) : Prop :=
  (∀ k, k < n → 0 < k → k ≠ j → key ((k - 1) / 2) ≤ key k) ∧
  (∀ k, k < n → 0 < k → (k - 1) / 2 = j → 0 < j → key ((j - 1) / 2) ≤ key k)

/-- The state of the loop of `down` at slot `i`: the heap order holds on the
first `n` slots except possibly between `i` and its children, and the children
of `i` are at least the parent of `i`. -/
def DownInv (key : Nat → Int) (n i : Nat) : Prop :=
  (∀ k, k < n → 0 < k → (k - 1) / 2 ≠ i → key ((k - 1) / 2) ≤ key k) ∧
  (∀ k, k < n → 0 < k → (k - 1) / 2 = i → 0 < i → key ((i - 1) / 2) ≤ key k)

/-- The two memories hold the same messages up to the index fields. -/
def SameData (mem mem' : Memory) : Prop :=
  ∀ p, (mem' p).pri = (mem p).pri ∧ (mem' p).clientID = (mem p).clientID

/-- What every rearrangement of the slice keeps: the length, the messages held
(as a multiset), their data, the index invariant, and the messages outside the
slice. -/
def Rearranged (mem : Memory) (pq : List MsgRef) (mem' : Memory) (pq' : List MsgRef) : Prop :=
  pq'.length = pq.length ∧ pq'.Perm pq ∧ SameData mem mem' ∧
  (IndexInv mem pq → IndexInv mem' pq') ∧ (∀ p, p ∉ pq → mem' p = mem p)

/-- The priorities of a list of messages, in the order of the list. -/
def prisOf (mem : Memory) (xs : List MsgRef) : List Int := xs.map fun p => (mem p).pri

end engine

/-! ## Name validation (`pkg/client/protocol.go`)

A Go string is a sequence of bytes.  The pattern of the source consists of ASCII
characters only: the regexp engine matches each of them against exactly the one
byte that encodes it, and a byte from `0x80` on, which belongs to the encoding of
a character outside ASCII or is malformed, matches no part of the pattern.  The
pattern is therefore a regular expression over bytes; matching between the anchors
`^` and `$` (without the multi-line flag: the start and the end of the text) is
matching the whole string.
-/

namespace client

/-- The bytes of a string literal of ASCII characters. -/
def ascii (s : String) : List Nat := s.data.map Char.toNat

/-- The characters from `lo` to `hi`: a range `lo-hi` of a character class. -/
def charRange (lo hi : Char) : List Nat :=
  (List.range (hi.toNat + 1 - lo.toNat)).map fun k => lo.toNat + k

/-- A character class: the alternation of its members. -/
def charClass (members : List Nat) : RegularExpression Nat :=
  members.foldr (fun c r => RegularExpression.char c + r) 0

/-- A literal: the concatenation of its characters. -/
def literal (s : List Nat) : RegularExpression Nat :=
  s.foldr (fun c r => RegularExpression.char c * r) 1

/-- The members of the class `[\.a-zA-Z0-9_-]`, in the order of the pattern. -/
def nameClass : List Nat :=
  ['.'.toNat] ++ charRange 'a' 'z' ++ charRange 'A' 'Z' ++ charRange '0' '9' ++
    ['_'.toNat] ++ ['-'.toNat]

/-- The pattern `^[\.a-zA-Z0-9_-]+(#ephemeral)?$`: `x+` is `x` followed by `x*`,
and `(y)?` is the empty string or `y`. -/
def validTopicChannelNameRegex : RegularExpression Nat :=
  (charClass nameClass * (charClass nameClass).star) * (1 + literal (ascii "#ephemeral"))

/-- The function `isValidName`. -/
def isValidName (name : List Nat) : Bool :=
  if name.length > 64 ∨ name.length < 1 then false
  else validTopicChannelNameRegex.rmatch name

/-- The function `IsValidTopicName`. -/
def IsValidTopicName (name : List Nat) : Bool := isValidName name

/-- The function `IsValidChannelName`. -/
def IsValidChannelName (name : List Nat) : Bool := isValidName name

/-! ### The names that the specification allows -/

/-- The set `[.a-zA-Z0-9_-]` of the specification. -/
def inNameSet (b : Nat) : Prop :=
  b = '.'.toNat ∨ ('a'.toNat ≤ b ∧ b ≤ 'z'.toNat) ∨ ('A'.toNat ≤ b ∧ b ≤ 'Z'.toNat) ∨
    ('0'.toNat ≤ b ∧ b ≤ '9'.toNat) ∨ b = '_'.toNat ∨ b = '-'.toNat

instance (b : Nat) : Decidable (inNameSet b) := by unfold inNameSet; infer_instance

/-- A name of the specification: between 1 and 64 bytes, one or more characters of
the set, optionally followed by the suffix `#ephemeral`. -/
def ValidNameSpec (name : List Nat) : Prop :=
  1 ≤ name.length ∧ name.length ≤ 64 ∧
    ∃ body, body ≠ [] ∧ (∀ b, b ∈ body → inNameSet b) ∧
      (name = body ∨ name = body ++ ascii "#ephemeral")

end client

namespace client

/-! ### Reading responses (`pkg/client/protocol.go`) -/

/-- A byte. -/
abbrev Byte := Fin 256

/-- An `io.Reader` over a finite input: the bytes that are still to be read; after
them the reader is at end of file. -/
abbrev Reader := List Byte

/-- The errors of the functions that read a response. -/
inductive ReadError
  /-- The error `io.EOF`: no byte was left to read. -/
  | EOF
  /-- The error `io.ErrUnexpectedEOF`: the input ended in the middle of the read. -/
  | ErrUnexpectedEOF
  /-- The error "response msg size is negative: n". -/
  | negativeSize (n : Int)
  /-- The error "length of response is too small". -/
  | tooSmall
deriving DecidableEq, Repr

/-- The function `io.ReadFull` of the standard library, on a buffer of `n` bytes:
it fills the buffer, or consumes what is left and reports `io.EOF` when nothing
was left and `io.ErrUnexpectedEOF` otherwise.  A buffer of no bytes is filled at
once.  The second component is the reader afterwards. -/
def readFull (r : Reader) (n : Nat) : Except ReadError (List Byte) × Reader :=
  if n ≤ r.length then (.ok (r.take n), r.drop n)
  else (.error (if r.length = 0 then .EOF else .ErrUnexpectedEOF), [])

/-- The function `binary.BigEndian.Uint32` of the standard library, on a slice of
at least four bytes: `b[3] | b[2]<<8 | b[1]<<16 | b[0]<<24`. -/
def bigEndianUint32 (b : List Byte) : Nat :=
  (b.getD 3 0).val + (b.getD 2 0).val * 2 ^ 8 + (b.getD 1 0).val * 2 ^ 16 +
    (b.getD 0 0).val * 2 ^ 24

/-- The conversion `int32(x)` of a `uint32`. -/
def toInt32 (x : Nat) : Int := ((x : Int) + 2 ^ 31) % 2 ^ 32 - 2 ^ 31

/-- The constant `FrameTypeResponse`. -/
def FrameTypeResponse : Int := 0

/-- The constant `FrameTypeError`. -/
def FrameTypeError : Int := 1

/-- The constant `FrameTypeMessage`. -/
def FrameTypeMessage : Int := 2

/-- The function `ReadResponse`; the second component is the reader afterwards.
`binary.Read` into an `int32` is `io.ReadFull` of four bytes followed by
`int32(binary.BigEndian.Uint32(bs))`. -/
def ReadResponse (r : Reader) : Except ReadError (List Byte) × Reader :=
  match readFull r 4 with
  | (.error e, r1) => (.error e, r1)
  | (.ok bs, r1) =>
    let msgSize := toInt32 (bigEndianUint32 bs)
    if msgSize < 0 then (.error (.negativeSize msgSize), r1)
    else
      -- buf := make([]byte, msgSize); io.ReadFull(r, buf)
      match readFull r1 msgSize.toNat with
      | (.error e, r2) => (.error e, r2)
      | (.ok buf, r2) => (.ok buf, r2)

/-- The function `UnpackResponse`: the frame type, the data (`none` is nil) and the
error (`none` is nil). -/
def UnpackResponse (response : List Byte) : Int × Option (List Byte) × Option ReadError :=
  if response.length < 4 then (-1, none, some .tooSmall)
  else (toInt32 (bigEndianUint32 response), some (response.drop 4), none)

/-- The function `ReadUnpackedResponse`; the second component is the reader
afterwards. -/
def ReadUnpackedResponse (r : Reader) : (Int × Option (List Byte) × Option ReadError) × Reader :=
  match ReadResponse r with
  | (.error e, r1) => ((-1, none, some e), r1)
  | (.ok resp, r1) => (UnpackResponse resp, r1)

/-- The big-endian encoding of a number below `2^32` on four bytes: `BE32` of the
specification. -/
def be32 (n : Nat) : List Byte :=
  [⟨n / 2 ^ 24 % 256, Nat.mod_lt _ (by decide)⟩, ⟨n / 2 ^ 16 % 256, Nat.mod_lt _ (by decide)⟩,
   ⟨n / 2 ^ 8 % 256, Nat.mod_lt _ (by decide)⟩, ⟨n % 256, Nat.mod_lt _ (by decide)⟩]

/-- The value of four bytes read as a big-endian number, as the specification has
it: the first byte is the most significant. -/
def bigEndianValue (b0 b1 b2 b3 : Byte) : Nat :=
  ((b0.val * 256 + b1.val) * 256 + b2.val) * 256 + b3.val

end client

namespace http_api

/-! ### Request parameters (`pkg/core/http_api`) -/

/-- The type `ReqParams`: the embedded `url.Values`, a map from keys to lists of
values (`none` is an absent key), and the body. -/
structure ReqParams where
  Values : String → Option (List String)
  Body : List Nat

/-- The method `ReqParams.Get`: the returned string and error (`none` is nil).  The
result is `none` when the method panics: `v[0]` on a key that is present with no
value. -/
def ReqParams.Get (r : ReqParams) (key : String) : Option (String × Option String) :=
  match r.Values key with
  | none => some ("", some "key not in query params")
  | some [] => none
  | some (v :: _) => some (v, none)

/-- The function `GetTopicChannelArgs` on the `getter` that `get` is.  The two
functions `protocol.IsValidTopicName` and `protocol.IsValidChannelName` (package
`pkg/core/protocol`, whose file of names is not among the sources) are parameters.
The result is `none` when the getter panics. -/
def GetTopicChannelArgs (isValidTopicName isValidChannelName : String → Bool)
    (get : String → Option (String × Option String)) : Option (String × String × Option String) :=
  match get "topic" with
  | none => none
  | some (topicName, err) =>
    if err ≠ none then some ("", "", some "MISSING_ARG_TOPIC")
    else if !isValidTopicName topicName then some ("", "", some "INVALID_ARG_TOPIC")
    else
      match get "channel" with
      | none => none
      | some (channelName, err) =>
        if err ≠ none then some ("", "", some "MISSING_ARG_CHANNEL")
        else if !isValidChannelName channelName then some ("", "", some "INVALID_ARG_CHANNEL")
        else some (topicName, channelName, none)

/-- Request parameters as `url.ParseQuery` builds them: every key that is present
has at least one value. -/
def ReqParams.WellFormed (r : ReqParams) : Prop := ∀ key, r.Values key ≠ some []

/-- The parameters of a request with the query `topic=orders&channel=bad$name`. -/
def exParams : ReqParams :=
  { Values := fun key =>
      if key = "topic" then some ["orders"] else if key = "channel" then some ["bad$name"]
      else none,
    Body := [] }

/-- A validator of names over strings, from the validator over bytes of
`pkg/client/protocol.go`. -/
def exValid (name : String) : Bool := client.IsValidTopicName (client.ascii name)

end http_api

namespace admin

/-! ### The administration server (`pkg/admin`) -/

/-- The type `Options`.  A log level (`lg.LogLevel`) is an integer, a duration its
number of nanoseconds, and of the logger only its presence is kept. -/
structure Options where
  LogLevel : Int
  LogPrefix : String
  Logger : Bool
  HTTPAddress : String
  BasePath : String
  DevStaticDir : String
  GraphiteURL : String
  ProxyGraphite : Bool
  StatsdPrefix : String
  StatsdCounterFormat : String
  StatsdGaugeFormat : String
  StatsdInterval : Int
  EMSLookupdHTTPAddresses : List String
  EMSDHTTPAddresses : List String
  HTTPClientConnectTimeout : Int
  HTTPClientRequestTimeout : Int
  HTTPClientTLSInsecureSkipVerify : Bool
  HTTPClientTLSRootCAFile : String
  HTTPClientTLSCert : String
  HTTPClientTLSKey : String
  AllowConfigFromCIDR : String
  NotificationHTTPEndpoint : String
  AclHttpHeader : String
  AdminUsers : List String
deriving DecidableEq, Repr

/-- The function `NewOptions`; the level `lg.INFO` is 2. -/
def NewOptions : Options :=
  { LogLevel := 2, LogPrefix := "[emsadmin] ", Logger := false,
    HTTPAddress := "0.0.0.0:4171", BasePath := "/", DevStaticDir := "",
    GraphiteURL := "", ProxyGraphite := false,
    StatsdPrefix := "ems.%s", StatsdCounterFormat := "stats.counters.%s.count",
    StatsdGaugeFormat := "stats.gauges.%s", StatsdInterval := 60000000000,
    EMSLookupdHTTPAddresses := [], EMSDHTTPAddresses := [],
    HTTPClientConnectTimeout := 2000000000, HTTPClientRequestTimeout := 5000000000,
    HTTPClientTLSInsecureSkipVerify := false, HTTPClientTLSRootCAFile := "",
    HTTPClientTLSCert := "", HTTPClientTLSKey := "",
    AllowConfigFromCIDR := "127.0.0.1/8", NotificationHTTPEndpoint := "",
    AclHttpHeader := "X-Forwarded-User", AdminUsers := [] }

/-- An HTTP request, as far as the handlers read it: the method, the address of
the peer, the headers (`Header.Get`, which gives the empty string for a header
that is absent), the bytes of the body, and whether reading the body to its end
fails. -/
structure Request where
  Method : String
  RemoteAddr : String
  Header : String → String
  Body : List Nat
  BodyReadError : Bool

/-- The calls that the handlers make to the cluster (`s.ci`), with the topic, the
channel and the node they are made for. -/
inductive CICall
  | TombstoneNodeForTopic (topic node : String)
  | CreateTopicChannel (topic channel : String)
  | DeleteTopic (topic : String)
  | DeleteChannel (topic channel : String)
  | PauseChannel (topic channel : String)
  | PauseTopic (topic : String)
  | UnPauseChannel (topic channel : String)
  | UnPauseTopic (topic : String)
  | EmptyChannel (topic channel : String)
  | EmptyTopic (topic : String)
deriving DecidableEq, Repr

/-- The result of a call to the cluster: nil, a `clusterinfo.PartialErr`, or
another error, with their texts. -/
inductive CIResult
  | ok
  | partialErr (text : String)
  | failed (text : String)
deriving DecidableEq, Repr

/-- What a handler does to the world, in order: calls to the cluster, and admin
actions handed to `notifyAdminAction`. -/
inductive Effect
  | call (c : CICall)
  | notify (action topic channel node : String)
deriving DecidableEq, Repr

/-- What a handler returns: an `http_api.Err` with its code and text, or a value
that carries a message. -/
inductive Result
  | err (code : Nat) (text : String)
  | message (text : String)
deriving DecidableEq, Repr

/-- The parts of the handlers that are not in the sources: the decoders of the
JSON bodies (`json.NewDecoder(req.Body).Decode`, with the text of the error when
they fail), the validators of `pkg/core/protocol`, and the cluster. -/
structure Env where
  decodeTopic : List Nat → Except String String
  decodeTopicChannel : List Nat → Except String (String × String)
  decodeAction : List Nat → Except String String
  IsValidTopicName : String → Bool
  IsValidChannelName : String → Bool
  ci : CICall → CIResult

/-- The function `maybeWarnMsg`; `strings.Join` with the separator "; ". -/
def maybeWarnMsg (msgs : List String) : String :=
  if msgs.length > 0 then "WARNING: " ++ "; ".intercalate msgs else ""

/-- The method `isAuthorizedAdminRequest`. -/
def isAuthorizedAdminRequest (opts : Options) (req : Request) : Bool :=
  if opts.AdminUsers.length = 0 then true
  else
    let user := req.Header opts.AclHttpHeader
    opts.AdminUsers.any fun v => v == user

/-- The method `notifyAdminAction`: nothing without a notification endpoint,
otherwise the action is handed over. -/
def notifyAdminAction (opts : Options) (action topic channel node : String) : List Effect :=
  if opts.NotificationHTTPEndpoint = "" then [] else [.notify action topic channel node]

/-- The common end of the handlers, after the effects `done`: an error of the call
to the cluster that is not a `PartialErr` is answered by 502; otherwise the effects
`after` follow and the message is returned, with the text of a `PartialErr` as a
warning. -/
def finish (r : CIResult) (done after : List Effect) : Result × List Effect :=
  match r with
  | .failed text => (.err 502 ("UPSTREAM_ERROR: " ++ text), done)
  | .partialErr text => (.message (maybeWarnMsg [text]), done ++ after)
  | .ok => (.message (maybeWarnMsg []), done ++ after)

/-- The method `tombstoneNodeForTopicHandler`; `node` is the path parameter. -/
def tombstoneNodeForTopicHandler (env : Env) (opts : Options) (req : Request) (node : String) :
    Result × List Effect :=
  match env.decodeTopic req.Body with
  | .error _ => (.err 400 "INVALID_BODY", [])
  | .ok topic =>
    if !env.IsValidTopicName topic then (.err 400 "INVALID_TOPIC", [])
    else
      let c := CICall.TombstoneNodeForTopic topic node
      finish (env.ci c) [.call c] (notifyAdminAction opts "tombstone_topic_producer" topic "" node)

/-- The method `createTopicChannelHandler`. -/
def createTopicChannelHandler (env : Env) (opts : Options) (req : Request) :
    Result × List Effect :=
  if !isAuthorizedAdminRequest opts req then (.err 403 "FORBIDDEN", [])
  else
    match env.decodeTopicChannel req.Body with
    | .error text => (.err 400 text, [])
    | .ok (topic, channel) =>
      if !env.IsValidTopicName topic then (.err 400 "INVALID_TOPIC", [])
      else if channel.length > 0 && !env.IsValidChannelName channel then
        (.err 400 "INVALID_CHANNEL", [])
      else
        let c := CICall.CreateTopicChannel topic channel
        finish (env.ci c) [.call c]
          (notifyAdminAction opts "create_topic" topic "" "" ++
            (if channel.length > 0 then notifyAdminAction opts "create_channel" topic channel ""
             else []))

/-- The method `deleteTopicHandler`; `topicName` is the path parameter. -/
def deleteTopicHandler (env : Env) (opts : Options) (req : Request) (topicName : String) :
    Result × List Effect :=
  if !isAuthorizedAdminRequest opts req then (.err 403 "FORBIDDEN", [])
  else
    let c := CICall.DeleteTopic topicName
    finish (env.ci c) [.call c] (notifyAdminAction opts "delete_topic" topicName "" "")

/-- The method `deleteChannelHandler`; the names are the path parameters. -/
def deleteChannelHandler (env : Env) (opts : Options) (req : Request)
    (topicName channelName : String) : Result × List Effect :=
  if !isAuthorizedAdminRequest opts req then (.err 403 "FORBIDDEN", [])
  else
    let c := CICall.DeleteChannel topicName channelName
    finish (env.ci c) [.call c]
      (notifyAdminAction opts "delete_channel" topicName channelName "")

/-- The method `topicChannelAction`.  Here the admin action is notified before the
error of the call is examined. -/
def topicChannelAction (env : Env) (opts : Options) (req : Request)
    (topicName channelName : String) : Result × List Effect :=
  if !isAuthorizedAdminRequest opts req then (.err 403 "FORBIDDEN", [])
  else
    match env.decodeAction req.Body with
    | .error text => (.err 400 text, [])
    | .ok action =>
      let run (c : CICall) (name channel : String) : Result × List Effect :=
        finish (env.ci c) ([.call c] ++ notifyAdminAction opts name topicName channel "") []
      if action = "pause" then
        if channelName ≠ "" then run (.PauseChannel topicName channelName) "pause_channel" channelName
        else run (.PauseTopic topicName) "pause_topic" ""
      else if action = "unpause" then
        if channelName ≠ "" then
          run (.UnPauseChannel topicName channelName) "unpause_channel" channelName
        else run (.UnPauseTopic topicName) "unpause_topic" ""
      else if action = "empty" then
        if channelName ≠ "" then run (.EmptyChannel topicName channelName) "empty_channel" channelName
        else run (.EmptyTopic topicName) "empty_topic" ""
      else (.err 400 "INVALID_ACTION", [])

/-- The method `topicActionHandler`. -/
def topicActionHandler (env : Env) (opts : Options) (req : Request) (topicName : String) :
    Result × List Effect :=
  topicChannelAction env opts req topicName ""

/-- The method `channelActionHandler`. -/
def channelActionHandler (env : Env) (opts : Options) (req : Request)
    (topicName channelName : String) : Result × List Effect :=
  topicChannelAction env opts req topicName channelName

/-- Options with one admin user, "matt". -/
def exOpts : Options := { NewOptions with AdminUsers := ["matt"] }

/-- A request to delete, made by the user "eve", with a body that stands for
`{"topic":"orders"}`. -/
def exRequest : Request :=
  { Method := "DELETE", RemoteAddr := "10.0.0.7:51000",
    Header := fun h => if h = "X-Forwarded-User" then "eve" else "",
    BodyReadError := false,
    Body := client.ascii "\x7b\x22topic\x22:\x22orders\x22\x7d" }

/-- A world in which every body decodes to the topic "orders", every name is
valid and every call to the cluster succeeds. -/
def exEnv : Env :=
  { decodeTopic := fun _ => .ok "orders",
    decodeTopicChannel := fun _ => .ok ("orders", ""),
    decodeAction := fun _ => .ok "pause",
    IsValidTopicName := fun _ => true,
    IsValidChannelName := fun _ => true,
    ci := fun _ => .ok }

end admin

namespace engine

/-! ### The loop that keeps the lookup peers (`pkg/engine/lookup.go`) -/

/-- Modelled from the spec: the `lookupPeer` struct, whose declaration
(lookup_peer.go) is not among the sources.  A `*lookupPeer` is kept as the address
it connects to (`addr`) and the identity of the object (`ref`): two peers with the
same `ref` are one object. -/
structure lookupPeer where
  addr : String
  ref : Nat
deriving DecidableEq, Repr

/-- Modelled from the spec: the function `newLookupPeer` (lookup_peer.go, not
among the sources), which makes a new object for the address `host`; `ref` is the
identity that the allocation gives it. -/
def newLookupPeer (host : String) (ref : Nat) : lookupPeer := { addr := host, ref := ref }

/-- The function `in` of lookup.go. -/
def isIn (s : String) (lst : List String) : Bool :=
  match lst with
  | [] => false
  | v :: rest => if s = v then true else isIn s rest

/-- The variables of `lookupLoop`: `lookupPeers`, `lookupAddrs` and `connect`;
with them, the number of peers made so far, which is the identity of the next
one, and the peers that have been closed. -/
structure LookupState where
  lookupPeers : List lookupPeer
  lookupAddrs : List String
  connect : Bool
  made : Nat
  closed : List lookupPeer
deriving DecidableEq, Repr

/-- The state in which `lookupLoop` enters its loop. -/
def LookupState.initial : LookupState :=
  { lookupPeers := [], lookupAddrs := [], connect := true, made := 0, closed := [] }

/-- The body of the loop `for _, host := range n.getOpts().EMSLookupdTCPAddresses`
of the connect step. -/
def connectHost (st : LookupState) (host : String) : LookupState :=
  if isIn host st.lookupAddrs then st
  else
    { st with
      lookupPeers := st.lookupPeers ++ [newLookupPeer host st.made],
      lookupAddrs := st.lookupAddrs ++ [host],
      made := st.made + 1 }

/-- The connect step at the head of the loop, for the configured addresses `cfg`. -/
def connectStep (cfg : List String) (st : LookupState) : LookupState :=
  if st.connect then { cfg.foldl connectHost st with connect := false } else st

/-- The body of the loop `for _, lp := range lookupPeers` of the case
`<-n.optsNotificationChan`, on the pair of `tmpPeers` and `tmpAddrs` and the peers
closed. -/
def keepPeer (cfg : List String) (acc : List lookupPeer × List String × List lookupPeer)
    (lp : lookupPeer) : List lookupPeer × List String × List lookupPeer :=
  if isIn lp.addr cfg then (acc.1 ++ [lp], acc.2.1 ++ [lp.addr], acc.2.2)
  else (acc.1, acc.2.1, acc.2.2 ++ [lp])

/-- The case `<-n.optsNotificationChan` of the loop, for the configured addresses
`cfg`. -/
def optsNotification (cfg : List String) (st : LookupState) : LookupState :=
  let tmp := st.lookupPeers.foldl (keepPeer cfg) ([], [], st.closed)
  { st with lookupPeers := tmp.1, lookupAddrs := tmp.2.1, connect := true, closed := tmp.2.2 }

/-- The state after the peers "a" and "b" have been connected. -/
def exLookup : LookupState :=
  { lookupPeers := [newLookupPeer "a" 0, newLookupPeer "b" 1], lookupAddrs := ["a", "b"],
    connect := false, made := 2, closed := [] }

end engine

namespace admin

/-! ### Reading and writing the options over HTTP (`doConfig`) -/

/-- What the calls `net.ParseCIDR`, `net.SplitHostPort`, `net.ParseIP` and
`ipnet.Contains` of `doConfig` come to, in the order of the handler: the address of
the peer does not parse; or it parses but the CIDR did not, so that `ipnet` is nil
and `ipnet.Contains` panics; or the address is outside the network; or inside. -/
inductive AddrCheck
  | badRemoteAddr
  | badCIDR
  | outside
  | inside
deriving DecidableEq, Repr

/-- What `json.Unmarshal(body, &opts.EMSLookupdHTTPAddresses)` does, `opts` being
the copy that `doConfig` has made of the stored options: whether it returns an
error, and the slice of the copy afterwards (`value`).  The copy is shallow: its
slice has the array of the slice of the stored options, and `json.Unmarshal`
decodes a JSON array into the array of the slice it is given as long as there is
room, also when it then returns an error for a later element.  So the call can
change the elements of the stored slice: `stored` is that slice afterwards. -/
structure UnmarshalResult where
  err : Bool
  value : List String
  stored : List String
deriving DecidableEq, Repr

/-- The parts of `doConfig` that are not in the sources: the check of the address
of the peer against the CIDR, `json.Unmarshal` into the list of addresses (from
the body and the list before), and `lg.ParseLogLevel`. -/
structure ConfigEnv where
  checkAddr : String → String → AddrCheck
  unmarshalAddresses : List Nat → List String → UnmarshalResult
  ParseLogLevel : List Nat → Option Int

/-- The value of an option, as `getOptByCfgName` returns it. -/
inductive OptValue
  | int (n : Int)
  | str (s : String)
  | bool (b : Bool)
  | strs (l : List String)
deriving DecidableEq, Repr

/-- The fields of `Options` that have a `flag` tag, in the order of the struct:
the `flag` tag, the `cfg` tag and the value of the field. -/
def optionFields (opts : Options) : List (String × String × OptValue) :=
  [("log-level", "", .int opts.LogLevel),
   ("log-prefix", "", .str opts.LogPrefix),
   ("http-address", "", .str opts.HTTPAddress),
   ("base-path", "", .str opts.BasePath),
   ("dev-static-dir", "", .str opts.DevStaticDir),
   ("graphite-url", "", .str opts.GraphiteURL),
   ("proxy-graphite", "", .bool opts.ProxyGraphite),
   ("statsd-prefix", "", .str opts.StatsdPrefix),
   ("statsd-counter-format", "", .str opts.StatsdCounterFormat),
   ("statsd-gauge-format", "", .str opts.StatsdGaugeFormat),
   ("statsd-interval", "", .int opts.StatsdInterval),
   ("lookupd-http-address", "emslookupd_http_addresses", .strs opts.EMSLookupdHTTPAddresses),
   ("emsd-http-address", "emsd_http_addresses", .strs opts.EMSDHTTPAddresses),
   ("http-client-connect-timeout", "", .int opts.HTTPClientConnectTimeout),
   ("http-client-request-timeout", "", .int opts.HTTPClientRequestTimeout),
   ("http-client-tls-insecure-skip-verify", "", .bool opts.HTTPClientTLSInsecureSkipVerify),
   ("http-client-tls-root-ca-file", "", .str opts.HTTPClientTLSRootCAFile),
   ("http-client-tls-cert", "", .str opts.HTTPClientTLSCert),
   ("http-client-tls-key", "", .str opts.HTTPClientTLSKey),
   ("allow-config-from-cidr", "", .str opts.AllowConfigFromCIDR),
   ("notification-http-endpoint", "", .str opts.NotificationHTTPEndpoint),
   ("acl-http-header", "", .str opts.AclHttpHeader),
   ("admin-user", "admin_users", .strs opts.AdminUsers)]

/-- The call `strings.Replace(flagName, "-", "_", -1)`. -/
def dashToUnderscore (flagName : String) : String :=
  String.mk (flagName.data.map fun c => if c = '-' then '_' else c)

/-- The loop of `getOptByCfgName` over the fields that are left. -/
def findOpt (name : String) : List (String × String × OptValue) → Option OptValue
  | [] => none
  | (flagName, cfgName, v) :: rest =>
    if flagName = "" then findOpt name rest
    else
      let cfgName := if cfgName = "" then dashToUnderscore flagName else cfgName
      if name ≠ cfgName then findOpt name rest else some v

/-- The function `getOptByCfgName` on the options; `none` is `(nil, false)`. -/
def getOptByCfgName (opts : Options) (name : String) : Option OptValue :=
  findOpt name (optionFields opts)

/-- What `doConfig` returns: an `http_api.Err` with its code and text, or the
value of the option. -/
inductive ConfigResult
  | err (code : Nat) (text : String)
  | value (v : OptValue)
deriving DecidableEq, Repr

/-- The constant `readMax` of `doConfig`: `1024*1024 + 1`. -/
def readMax : Nat := 1024 * 1024 + 1

/-- The part `if req.Method == "PUT" { ... }` of `doConfig`, on the stored options:
an early return of the handler (`some`) or none, and the stored options
afterwards.  `s.emsadmin.swapOpts(&opts)` makes the copy the stored options. -/
def doConfigPut (env : ConfigEnv) (stored : Options) (req : Request) (opt : String) :
    Option ConfigResult × Options :=
  -- body, err := ioutil.ReadAll(io.LimitReader(req.Body, readMax))
  if req.BodyReadError then (some (.err 500 "INTERNAL_ERROR"), stored)
  else
    let body := req.Body.take readMax
    if body.length = readMax ∨ body.length = 0 then (some (.err 413 "INVALID_VALUE"), stored)
    else
      -- opts := *s.emsadmin.getOpts()
      let opts := stored
      if opt = "emslookupd_http_addresses" then
        let u := env.unmarshalAddresses body stored.EMSLookupdHTTPAddresses
        if u.err then
          (some (.err 400 "INVALID_VALUE"), { stored with EMSLookupdHTTPAddresses := u.stored })
        else (none, { opts with EMSLookupdHTTPAddresses := u.value })
      else if opt = "log_level" then
        match env.ParseLogLevel body with
        | none => (some (.err 400 "INVALID_VALUE"), stored)
        | some logLevel => (none, { opts with LogLevel := logLevel })
      else (some (.err 400 "INVALID_OPTION"), stored)

/-- The method `doConfig`, on the stored options; `opt` is the path parameter.  The
result is `none` when the handler panics; otherwise it is what the handler
returns and the stored options afterwards. -/
def doConfig (env : ConfigEnv) (stored : Options) (req : Request) (opt : String) :
    Option (ConfigResult × Options) :=
  let check : AddrCheck :=
    if stored.AllowConfigFromCIDR ≠ "" then env.checkAddr stored.AllowConfigFromCIDR req.RemoteAddr
    else .inside
  match check with
  | .badRemoteAddr => some (.err 400 "INVALID_REMOTE_ADDR", stored)
  | .badCIDR => none
  | .outside => some (.err 403 "FORBIDDEN", stored)
  | .inside =>
    let r : Option ConfigResult × Options :=
      if req.Method = "PUT" then doConfigPut env stored req opt else (none, stored)
    match r with
    | (some e, stored1) => some (e, stored1)
    | (none, stored1) =>
      match getOptByCfgName stored1 opt with
      | none => some (.err 400 "INVALID_OPTION", stored1)
      | some v => some (.value v, stored1)

/-- A world in which every peer is inside the network, no body is a list of
addresses, and the one log level is "fatal", which is 5. -/
def exConfigEnv : ConfigEnv :=
  { checkAddr := fun _ _ => .inside,
    unmarshalAddresses := fun _ old => { err := true, value := [], stored := old },
    ParseLogLevel := fun body => if body = client.ascii "fatal" then some 5 else none }

/-- A world in which every peer is inside the network and `json.Unmarshal` is
given the body `["zzz",5]`: it decodes "zzz" into the first element of the slice,
finds that 5 is not a string, and returns an error; every other body is no list of
addresses either, and leaves the slice as it is. -/
def exSharedEnv : ConfigEnv :=
  { checkAddr := fun _ _ => .inside,
    unmarshalAddresses := fun body old =>
      if body = client.ascii "[\x22zzz\x22,5]" then
        { err := true, value := "zzz" :: old.drop 1, stored := "zzz" :: old.drop 1 }
      else { err := true, value := old, stored := old },
    ParseLogLevel := fun _ => none }

/-- Stored options with two addresses. -/
def exSharedOpts : Options := { NewOptions with EMSLookupdHTTPAddresses := ["x:1", "y:2"] }

/-- A request to put, with the body `["zzz",5]`. -/
def exPutList : Request :=
  { Method := "PUT", RemoteAddr := "127.0.0.1:51000", Header := fun _ => "",
    Body := client.ascii "[\x22zzz\x22,5]", BodyReadError := false }

/-- A request to put, with an empty body. -/
def exPutEmpty : Request :=
  { Method := "PUT", RemoteAddr := "127.0.0.1:51000", Header := fun _ => "", Body := [],
    BodyReadError := false }

/-- A request to put, with the body "bad". -/
def exPutBad : Request :=
  { Method := "PUT", RemoteAddr := "127.0.0.1:51000", Header := fun _ => "",
    Body := client.ascii "bad", BodyReadError := false }

end admin

namespace admin

/-! ### Starting the administration server (`New`) -/

/-- The calls by which `New` validates the options and opens the listener. -/
inductive NewCall
  | LoadX509KeyPair (cert key : String)
  | ReadFile (file : String)
  | AppendCertsFromPEM (file : String)
  | ResolveTCPAddr (address : String)
  | ParseURL (url : String)
  | ParseCIDR (cidr : String)
  | Listen (address : String)
deriving DecidableEq, Repr

/-- The world of `New`: for each call, the text of the error it returns (`none` is
nil); `AppendCertsFromPEM` reports success; `pathClean` is `path.Clean`. -/
structure NewEnv where
  LoadX509KeyPair : String → String → Option String
  ReadFile : String → Option String
  AppendCertsFromPEM : String → Bool
  ResolveTCPAddr : String → Option String
  ParseURL : String → Option String
  ParseCIDR : String → Option String
  Listen : String → Option String
  pathClean : String → String

/-- The type `EMSAdmin`, as far as `New` fills it: the options, whether a client
certificate and root certificates have been loaded, and whether the graphite URL
and the listener have been set. -/
structure EMSAdmin where
  opts : Options
  certificates : Bool
  rootCAs : Bool
  graphiteURL : Bool
  httpListener : Bool
deriving DecidableEq, Repr

/-- A step of `New`: from the calls made so far, an error or a value, and the
calls made then. -/
abbrev Step (α : Type) := Except String α × List NewCall

/-- The sequence of two steps: an error ends the function. -/
def andThen {α β : Type} (r : Step α) (f : α → List NewCall → Step β) : Step β :=
  match r with
  | (.error e, calls) => (.error e, calls)
  | (.ok a, calls) => f a calls

/-- The function `normalizeBasePath`. -/
def normalizeBasePath (pathClean : String → String) (p : String) : String :=
  if p.length = 0 then "/"
  else pathClean (if p.data.head? ≠ some '/' then "/" ++ p else p)

/-- The loops `for _, address := range ...` of `New` that resolve the addresses;
`flagName` is the name of the flag in the text of the error. -/
def resolveAll (env : NewEnv) (flagName : String) :
    List String → List NewCall → Step Unit
  | [], calls => (.ok (), calls)
  | address :: rest, calls =>
    match env.ResolveTCPAddr address with
    | some err =>
      (.error ("failed to resolve " ++ (flagName ++ " (" ++ address ++ ") - " ++ err)),
        calls ++ [.ResolveTCPAddr address])
    | none => resolveAll env flagName rest (calls ++ [.ResolveTCPAddr address])

/-- The part of `New` after the checks of the options that need no call. -/
def newValidated (env : NewEnv) (opts : Options) : Step EMSAdmin :=
  -- the client certificate
  andThen
    (if opts.HTTPClientTLSCert ≠ "" ∧ opts.HTTPClientTLSKey ≠ "" then
      match env.LoadX509KeyPair opts.HTTPClientTLSCert opts.HTTPClientTLSKey with
      | some err =>
        (.error ("failed to LoadX509KeyPair " ++
            (opts.HTTPClientTLSCert ++ ", " ++ opts.HTTPClientTLSKey ++ " - " ++ err)),
          [.LoadX509KeyPair opts.HTTPClientTLSCert opts.HTTPClientTLSKey])
      | none => (.ok true, [.LoadX509KeyPair opts.HTTPClientTLSCert opts.HTTPClientTLSKey])
    else (.ok false, []))
  fun certificates calls =>
  -- the root certificates
  andThen
    (if opts.HTTPClientTLSRootCAFile ≠ "" then
      match env.ReadFile opts.HTTPClientTLSRootCAFile with
      | some err =>
        (.error ("failed to read TLS root CA file " ++
            (opts.HTTPClientTLSRootCAFile ++ " - " ++ err)),
          calls ++ [.ReadFile opts.HTTPClientTLSRootCAFile])
      | none =>
        if !env.AppendCertsFromPEM opts.HTTPClientTLSRootCAFile then
          (.error ("failed to AppendCertsFromPEM " ++ opts.HTTPClientTLSRootCAFile),
            calls ++ [.ReadFile opts.HTTPClientTLSRootCAFile,
              .AppendCertsFromPEM opts.HTTPClientTLSRootCAFile])
        else
          (.ok true, calls ++ [.ReadFile opts.HTTPClientTLSRootCAFile,
            .AppendCertsFromPEM opts.HTTPClientTLSRootCAFile])
    else (.ok false, calls))
  fun rootCAs calls =>
  andThen (resolveAll env "--lookupd-http-address" opts.EMSLookupdHTTPAddresses calls)
  fun _ calls =>
  andThen (resolveAll env "--emsd-http-address" opts.EMSDHTTPAddresses calls)
  fun _ calls =>
  andThen
    (if opts.ProxyGraphite then
      match env.ParseURL opts.GraphiteURL with
      | some err =>
        (.error ("failed to parse --graphite-url (" ++ (opts.GraphiteURL ++ ") - " ++ err)),
          calls ++ [.ParseURL opts.GraphiteURL])
      | none => (.ok true, calls ++ [.ParseURL opts.GraphiteURL])
    else (.ok false, calls))
  fun graphiteURL calls =>
  andThen
    (if opts.AllowConfigFromCIDR ≠ "" then
      match env.ParseCIDR opts.AllowConfigFromCIDR with
      | some err =>
        (.error ("failed to parse --allow-config-from-cidr (" ++
            (opts.AllowConfigFromCIDR ++ ") - " ++ err)),
          calls ++ [.ParseCIDR opts.AllowConfigFromCIDR])
      | none => (.ok (), calls ++ [.ParseCIDR opts.AllowConfigFromCIDR])
    else (.ok (), calls))
  fun _ calls =>
  -- opts.BasePath = normalizeBasePath(opts.BasePath)
  let opts1 := { opts with BasePath := normalizeBasePath env.pathClean opts.BasePath }
  match env.Listen opts1.HTTPAddress with
  | some err =>
    (.error ("listen (" ++ (opts1.HTTPAddress ++ ") failed - " ++ err)),
      calls ++ [.Listen opts1.HTTPAddress])
  | none =>
    (.ok { opts := opts1, certificates := certificates, rootCAs := rootCAs,
           graphiteURL := graphiteURL, httpListener := true },
      calls ++ [.Listen opts1.HTTPAddress])

/-- The function `New`: the error (its text) or the server, and the calls made. -/
def New (env : NewEnv) (options : Options) : Step EMSAdmin :=
  -- if opts.Logger == nil { opts.Logger = log.New(...) }
  let opts := if options.Logger = false then { options with Logger := true } else options
  if opts.EMSDHTTPAddresses.length = 0 ∧ opts.EMSLookupdHTTPAddresses.length = 0 then
    (.error "--emsd-http-address or --lookupd-http-address required", [])
  else if opts.EMSDHTTPAddresses.length ≠ 0 ∧ opts.EMSLookupdHTTPAddresses.length ≠ 0 then
    (.error "use --emsd-http-address or --lookupd-http-address not both", [])
  else if opts.HTTPClientTLSCert ≠ "" ∧ opts.HTTPClientTLSKey = "" then
    (.error "--http-client-tls-key must be specified with --http-client-tls-cert", [])
  else if opts.HTTPClientTLSKey ≠ "" ∧ opts.HTTPClientTLSCert = "" then
    (.error "--http-client-tls-cert must be specified with --http-client-tls-key", [])
  else newValidated env opts

/-- The first three characters of a text. -/
def prefix3 (s : String) : List Char := s.data.take 3

/-- A world in which every call succeeds. -/
def exNewEnv : NewEnv :=
  { LoadX509KeyPair := fun _ _ => none, ReadFile := fun _ => none,
    AppendCertsFromPEM := fun _ => true, ResolveTCPAddr := fun _ => none,
    ParseURL := fun _ => none, ParseCIDR := fun _ => none, Listen := fun _ => none,
    pathClean := fun p => p }

/-- Options with an address of each of the two kinds. -/
def exBothOpts : Options :=
  { NewOptions with
    EMSDHTTPAddresses := ["127.0.0.1:4151"]
    EMSLookupdHTTPAddresses := ["127.0.0.1:4161"] }
/-- A step whose error, if it has one, is an error of a call: its text starts with
"failed to" or with "listen (". -/
def Later {α : Type} (r : Step α) : Prop :=
  ∀ e, r.1 = .error e → prefix3 e = ['f', 'a', 'i'] ∨ prefix3 e = ['l', 'i', 's']

end admin

namespace to_ems

/-! ### Publishing the input (`apps/to_ems/to_ems.go`) -/

/-- The errors that `readAndPublish` returns: `io.EOF` from the reader, or the
error of a producer, with its text. -/
inductive PublishError
  | EOF
  | publish (text : String)
deriving DecidableEq, Repr

/-- The method `bufio.Reader.ReadBytes` of the standard library, on a reader over
a finite input: the bytes up to and including the first `delim`; or, when no
`delim` is left, the bytes that are left, with the error `io.EOF`.  The last
component is the reader afterwards. -/
def ReadBytes : client.Reader → client.Byte → List client.Byte × Option PublishError × client.Reader
  | [], _ => ([], some .EOF, [])
  | b :: rest, delim =>
    if b = delim then ([b], none, rest)
    else
      let (line, err, r) := ReadBytes rest delim
      (b :: line, err, r)

/-- The loop `for _, producer := range producers` of `readAndPublish`, over the
producers in the order in which the loop visits them; `publish` is the error of
`producer.Publish(*topic, line)`.  The result is the error on which the loop
returns, if any, and the producers that have been given the line. -/
def publishAll (publish : String → List client.Byte → Option String) (line : List client.Byte) :
    List String → Option PublishError × List (String × List client.Byte)
  | [] => (none, [])
  | producer :: rest =>
    match publish producer line with
    | some text => (some (.publish text), [(producer, line)])
    | none =>
      let (err, published) := publishAll publish line rest
      (err, (producer, line) :: published)

/-- The function `readAndPublish`: the error returned (`none` is nil), the reader
afterwards, and what has been given to which producer. -/
def readAndPublish (publish : String → List client.Byte → Option String) (r : client.Reader)
    (delim : client.Byte) (producers : List String) :
    Option PublishError × client.Reader × List (String × List client.Byte) :=
  let (line0, readErr, r1) := ReadBytes r delim
  -- trim the delimiter
  let line := if line0.length > 0 then line0.take (line0.length - 1) else line0
  if line.length = 0 then (readErr, r1, [])
  else
    match publishAll publish line producers with
    | (some err, published) => (some err, r1, published)
    | (none, published) => (readErr, r1, published)

/-- The next chunk of the input, as the specification has it: the bytes before the
next `delim`, or all the bytes when there is no `delim`. -/
def nextChunk (r : client.Reader) (delim : client.Byte) : List client.Byte :=
  r.takeWhile fun b => b ≠ delim

end to_ems

namespace ems_to_ems

/-! ### Filtering messages by a JSON field (`apps/ems_to_ems/ems_to_ems.go`) -/

/-- A value of a decoded JSON object, as `encoding/json` decodes it into an
`interface{}`: a `string`, a `float64`, or a value of another type (`bool`, `nil`,
a slice, a map).  `F` is the type `float64`. -/
inductive JSONValue (F : Type)
  | string (s : String)
  | number (f : F)
  | other

/-- The fields of `PublishHandler` that `shouldPassMessage` reads and writes. -/
structure PublishHandler (F : Type) where
  requireJSONValueParsed : Bool
  requireJSONValueIsNumber : Bool
  requireJSONNumber : F

/-- The block of `shouldPassMessage` that caches the conversion of the value of
the flag to a number, when the value is not empty and nothing is cached yet. -/
def cacheConversion {F : Type} (ParseFloat : String → F × Bool) (requireJSONValue : String)
    (ph : PublishHandler F) : PublishHandler F :=
  if requireJSONValue ≠ "" ∧ ph.requireJSONValueParsed = false then
    -- cache conversion in case needed while filtering json
    { requireJSONNumber := (ParseFloat requireJSONValue).1
      requireJSONValueIsNumber := (ParseFloat requireJSONValue).2
      requireJSONValueParsed := true }
  else ph

/-- The method `shouldPassMessage`: the pair `(pass, backoff)` and the handler
afterwards.  `requireJSONField` and `requireJSONValue` are the values of the
flags; `ParseFloat` is `strconv.ParseFloat(·, 64)`, with `true` for a nil error;
`feq` is `==` on `float64`; `js` is the map. -/
def shouldPassMessage {F : Type} (feq : F → F → Bool) (ParseFloat : String → F × Bool)
    (requireJSONField requireJSONValue : String) (ph : PublishHandler F)
    (js : String → Option (JSONValue F)) : (Bool × Bool) × PublishHandler F :=
  if requireJSONField = "" then ((true, false), ph)
  else
    let ph1 := cacheConversion ParseFloat requireJSONValue ph
    match js requireJSONField with
    | none =>
      if requireJSONValue ≠ "" then ((false, true), ph1) else ((false, false), ph1)
    | some v =>
      if requireJSONValue ≠ "" then
        match v with
        | .string s => if s ≠ requireJSONValue then ((false, false), ph1) else ((true, false), ph1)
        | .number f =>
          if ph1.requireJSONValueIsNumber then
            if !feq f ph1.requireJSONNumber then ((false, false), ph1) else ((true, false), ph1)
          else ((false, false), ph1)
        | .other => ((false, false), ph1)
      else ((true, false), ph1)

/-- The handler has not cached the conversion of the value `V` of the flag, or it
has cached the conversion of `V`: `NewPublishHandler`-made handlers start with
nothing cached, and only `shouldPassMessage` writes the cache. -/
def CacheOf {F : Type} (ParseFloat : String → F × Bool) (V : String) (ph : PublishHandler F) :
    Prop :=
  ph.requireJSONValueParsed = false ∨
    (ph.requireJSONValueIsNumber = (ParseFloat V).2 ∧ ph.requireJSONNumber = (ParseFloat V).1)

/-- The value `v` of the field equals the value `V` of the flag: equal strings for
a string; equal numbers for a number, when `V` is a number; never for another
type. -/
def valueEquals {F : Type} (feq : F → F → Bool) (ParseFloat : String → F × Bool) (V : String) :
    JSONValue F → Prop
  | .string s => s = V
  | .number f => (ParseFloat V).2 = true ∧ feq f (ParseFloat V).1 = true
  | .other => False

/-- A parser of numbers for the examples, over the integers. -/
def exParseFloat (s : String) : Int × Bool :=
  if s = "5" then (5, true) else if s = "-1" then (-1, true) else (0, false)

/-- An object for the examples, with a number at "n" and a string at "s". -/
def exObject (k : String) : Option (JSONValue Int) :=
  if k = "n" then some (.number 5) else if k = "s" then some (.string "abc") else none

/-- A new handler, with nothing cached. -/
def exHandler : PublishHandler Int :=
  { requireJSONValueParsed := false, requireJSONValueIsNumber := false, requireJSONNumber := 0 }

end ems_to_ems

namespace engine

/-! ### The queues reachable from a given capacity -/

/-- The states of a queue and of the memory of its messages that are reachable
from `newInFlightPqueue(c)`: by calls of `Push`, `Pop`, `Remove` and
`PeekAndShift` that return, and by the rest of the program writing to messages. -/
inductive ReachableFrom (c : Nat) : Memory → inFlightPqueue → Prop
  | init (mem : Memory) : ReachableFrom c mem (newInFlightPqueue c)
  | push {mem mem' : Memory} {pq pq' : inFlightPqueue} (x : MsgRef) :
      ReachableFrom c mem pq → Push mem pq x = some (mem', pq') → ReachableFrom c mem' pq'
  | pop {mem mem' : Memory} {pq pq' : inFlightPqueue} (x : MsgRef) :
      ReachableFrom c mem pq → Pop mem pq = some (mem', pq', x) → ReachableFrom c mem' pq'
  | remove {mem mem' : Memory} {pq pq' : inFlightPqueue} (i : Int) (x : MsgRef) :
      ReachableFrom c mem pq → Remove mem pq i = some (mem', pq', x) → ReachableFrom c mem' pq'
  | peekAndShift {mem mem' : Memory} {pq pq' : inFlightPqueue} (max : Int) (r : Option MsgRef)
      (d : Int) :
      ReachableFrom c mem pq → PeekAndShift mem pq max = some (mem', pq', r, d) →
      ReachableFrom c mem' pq'
  | write {mem : Memory} {pq : inFlightPqueue} (mem' : Memory) :
      ReachableFrom c mem pq → ReachableFrom c mem' pq

/-- The capacity invariant: the capacity is at least 1 and at least the length. -/
def CapInv (pq : inFlightPqueue) : Prop := 1 ≤ pq.cap ∧ pq.items.length ≤ pq.cap

instance (pq : inFlightPqueue) : Decidable (CapInv pq) :=
  inferInstanceAs (Decidable (1 ≤ pq.cap ∧ pq.items.length ≤ pq.cap))

end engine

namespace auth

/-! ### Authorizations (`pkg/core/auth/authorizations.go`) -/

/-- A `time.Time` and a `time.Duration`, both in nanoseconds; an instant is
counted from a fixed origin. -/
abbrev Time := Int

/-- The struct `Authorization`. -/
structure Authorization where
  Topic : String
  Channels : List String
  Permissions : List String
deriving DecidableEq, Repr

/-- The struct `State`. -/
structure State where
  TTL : Int
  Authorizations : List Authorization
  Identity : String
  IdentityURL : String
  Expires : Time
deriving DecidableEq, Repr

/-- The package `regexp`, as far as this file uses it: `Compile` gives the
matcher of a pattern (its method `MatchString`), or `none` when the pattern does
not compile. -/
structure Regexp where
  Compile : String → Option (String → Bool)

/-- The method `Authorization.HasPermission`. -/
def Authorization.HasPermission (a : Authorization) (permission : String) : Bool :=
  a.Permissions.any fun p => permission == p

/-- The loop over `a.Channels` of `Authorization.IsAllowed`; `none` is the panic
of `regexp.MustCompile`. -/
def channelsAllow (re : Regexp) (channel : String) : List String → Option Bool
  | [] => some false
  | c :: rest =>
    match re.Compile c with
    | none => none
    | some channelRegex => if channelRegex channel then some true else channelsAllow re channel rest

/-- The method `Authorization.IsAllowed`; `none` is the panic of
`regexp.MustCompile`. -/
def Authorization.IsAllowed (re : Regexp) (a : Authorization) (topic channel : String) :
    Option Bool :=
  if (if channel ≠ "" then !a.HasPermission "subscribe" else !a.HasPermission "publish") then
    some false
  else
    match re.Compile a.Topic with
    | none => none
    | some topicRegex =>
      if !topicRegex topic then some false
      else channelsAllow re channel a.Channels

/-- The loop of `State.IsAllowed` over the authorizations. -/
def anyAllowed (re : Regexp) (topic channel : String) : List Authorization → Option Bool
  | [] => some false
  | aa :: rest =>
    match aa.IsAllowed re topic channel with
    | none => none
    | some true => some true
    | some false => anyAllowed re topic channel rest

/-- The method `State.IsAllowed`. -/
def State.IsAllowed (re : Regexp) (a : State) (topic channel : String) : Option Bool :=
  anyAllowed re topic channel a.Authorizations

/-- The errors of `QueryAuthd`. -/
inductive QueryError
  | request (text : String)
  | unknownPermission (p : String)
  | topic (pattern : String)
  | channel (pattern : String)
  | invalidTTL (ttl : Int)
deriving DecidableEq, Repr

/-- What `QueryAuthd` calls: `url.Values.Encode` on the pairs set, the request
`client.GETV1(endpoint, &authState)` with the state it decodes, the package
`regexp`, and `time.Now()`. -/
structure Env where
  Encode : List (String × String) → String
  GETV1 : String → Except String State
  re : Regexp
  Now : Time

/-- Whether the characters `sub` occur in `s` in a row. -/
def hasInfix (sub : List Char) : List Char → Bool
  | [] => sub.isEmpty
  | c :: cs => sub.isPrefixOf (c :: cs) || hasInfix sub cs

/-- The function `strings.Contains`. -/
def stringsContains (s substr : String) : Bool := hasInfix substr.data s.data

/-- The inner loop of the validation over the permissions of an authorization. -/
def checkPermissions : List String → Except QueryError Unit
  | [] => .ok ()
  | p :: rest =>
    if p = "subscribe" ∨ p = "publish" then checkPermissions rest
    else .error (.unknownPermission p)

/-- The inner loop of the validation over the channels of an authorization. -/
def checkChannels (re : Regexp) : List String → Except QueryError Unit
  | [] => .ok ()
  | channel :: rest =>
    match re.Compile channel with
    | none => .error (.channel channel)
    | some _ => checkChannels re rest

/-- The loop `validation on response` of `QueryAuthd`. -/
def checkAuthorizations (re : Regexp) : List Authorization → Except QueryError Unit
  | [] => .ok ()
  | a :: rest =>
    match checkPermissions a.Permissions with
    | .error e => .error e
    | .ok _ =>
      match re.Compile a.Topic with
      | none => .error (.topic a.Topic)
      | some _ =>
        match checkChannels re a.Channels with
        | .error e => .error e
        | .ok _ => checkAuthorizations re rest

/-- The duration `time.Second`, in nanoseconds. -/
def Second : Int := 1000000000

/-- The endpoint that `QueryAuthd` builds from its arguments. -/
def endpointOf (env : Env) (authd remoteIP : String) (tlsEnabled : Bool)
    (commonName authSecret : String) : String :=
  let v := [("remote_ip", remoteIP), ("tls", if tlsEnabled then "true" else "false"),
    ("secret", authSecret), ("common_name", commonName)]
  if stringsContains authd "://" then authd ++ "?" ++ env.Encode v
  else "http://" ++ authd ++ "/auth?" ++ env.Encode v

/-- The function `QueryAuthd`; an error stands for the result `(nil, err)`.  The
product `time.Duration(authState.TTL) * time.Second` is an int64. -/
def QueryAuthd (env : Env) (authd remoteIP : String) (tlsEnabled : Bool)
    (commonName authSecret : String) : Except QueryError State :=
  match env.GETV1 (endpointOf env authd remoteIP tlsEnabled commonName authSecret) with
  | .error err => .error (.request err)
  | .ok authState =>
    -- validation on response
    match checkAuthorizations env.re authState.Authorizations with
    | .error e => .error e
    | .ok _ =>
      if authState.TTL ≤ 0 then .error (.invalidTTL authState.TTL)
      else .ok { authState with Expires := env.Now + engine.wrapInt64 (authState.TTL * Second) }

/-- The pattern `pat` compiles and matches `s`. -/
def Matches (re : Regexp) (pat s : String) : Prop :=
  ∃ r, re.Compile pat = some r ∧ r s = true

/-- Every pattern of the authorizations compiles, as `QueryAuthd` has checked for
the states that it returns. -/
def Compiles (re : Regexp) (auths : List Authorization) : Prop :=
  ∀ a, a ∈ auths → (re.Compile a.Topic).isSome = true ∧
    ∀ c, c ∈ a.Channels → (re.Compile c).isSome = true

instance (re : Regexp) (auths : List Authorization) : Decidable (Compiles re auths) :=
  inferInstanceAs (Decidable (∀ a, a ∈ auths → (re.Compile a.Topic).isSome = true ∧
    ∀ c, c ∈ a.Channels → (re.Compile c).isSome = true))

/-- What the validation loop of `QueryAuthd` checks: every permission is
"subscribe" or "publish", and every pattern compiles. -/
def Valid (re : Regexp) (auths : List Authorization) : Prop :=
  ∀ a, a ∈ auths → (∀ p, p ∈ a.Permissions → p = "subscribe" ∨ p = "publish") ∧
    (re.Compile a.Topic).isSome = true ∧ ∀ c, c ∈ a.Channels → (re.Compile c).isSome = true

/-- The permission that `IsAllowed` asks for. -/
def requiredPermission (channel : String) : String :=
  if channel ≠ "" then "subscribe" else "publish"

/-- A matcher for the examples: it knows the patterns `.*` and `.+` and the
patterns made of letters, digits and `_` only, which match the strings that
contain them; it refuses every other pattern. -/
def exCompile (pat : String) : Option (String → Bool) :=
  if pat = ".*" then some fun _ => true
  else if pat = ".+" then some fun s => !s.data.isEmpty
  else if pat.data.all fun c => c.isAlphanum || c == '_' then
    some fun s => hasInfix pat.data s.data
  else none

/-- The engine of the examples. -/
def exRegexp : Regexp := { Compile := exCompile }

/-- A state for the examples: publishing to every topic, subscribing to the
channels of `orders` and of `metrics`. -/
def exState : State :=
  { TTL := 60
    Authorizations :=
      [{ Topic := "orders", Channels := [".+"], Permissions := ["subscribe"] },
       { Topic := ".*", Channels := [".*"], Permissions := ["publish"] },
       { Topic := "audit", Channels := [], Permissions := ["subscribe", "publish"] },
       { Topic := "metrics", Channels := [".+"], Permissions := ["publish", "subscribe"] }]
    Identity := "matt"
    IdentityURL := ""
    Expires := 0 }

/-- A state with a TTL of 9223372037 seconds, a little over 292 years. -/
def exLongState : State := { exState with TTL := 9223372037 }

/-- An environment in which the server answers `exLongState`. -/
def exLongEnv : Env :=
  { Encode := fun _ => "remote_ip=127.0.0.1", GETV1 := fun _ => .ok exLongState, re := exRegexp,
    Now := 1700000000000000000 }

/-- An environment for the examples, in which the server answers `exState`. -/
def exEnv : Env :=
  { Encode := fun _ => "remote_ip=127.0.0.1", GETV1 := fun _ => .ok exState, re := exRegexp,
    Now := 1700000000000000000 }

end auth

namespace admin

/-! ### Sending the notifications (`handleAdminActions`) -/

/-- The struct `AdminAction` of notify.go. -/
structure AdminAction where
  Action : String
  Topic : String
  Channel : String
  Node : String
  Timestamp : Int
  User : String
  RemoteIP : String
  UserAgent : String
  URL : String
  Via : String
deriving DecidableEq, Repr

/-- An `http.Response`, by its status code; its `Body` is never nil. -/
structure Response where
  StatusCode : Nat
deriving DecidableEq, Repr

/-- What `handleAdminActions` calls: `json.Marshal` on an action, and
`httpclient.Post` on the endpoint and the content, which returns the pair
`(resp, err)`, where `none` is nil. -/
structure NotifyEnv where
  Marshal : AdminAction → Except String (List Nat)
  Post : String → List Nat → Option Response × Option String

/-- What an iteration of `handleAdminActions` does that can be seen from
outside: a line of the log, a POST, and the closing of the body of a response. -/
inductive NotifyEvent
  | logError (text : String)
  | logInfo (text : String)
  | post (endpoint : String) (content : List Nat)
  | closeBody (resp : Response)
deriving DecidableEq, Repr

/-- How a piece of code ends: it returns, or it panics. -/
inductive Outcome
  | returned
  | panicked
deriving DecidableEq, Repr

/-- The body of the loop of `handleAdminActions`, for one action. -/
def handleAdminAction (env : NotifyEnv) (opts : Options) (action : AdminAction) :
    List NotifyEvent × Outcome :=
  let (content, ev1) : List Nat × List NotifyEvent :=
    match env.Marshal action with
    | .error err => ([], [.logError ("failed to serialize admin action - " ++ err)])
    | .ok content => (content, [])
  let ev2 := ev1 ++ [.logInfo ("POSTing notification to " ++ opts.NotificationHTTPEndpoint),
    .post opts.NotificationHTTPEndpoint content]
  let (resp, err) := env.Post opts.NotificationHTTPEndpoint content
  let ev3 :=
    match err with
    | some e => ev2 ++ [.logError ("failed to POST notification - " ++ e)]
    | none => ev2
  -- resp.Body.Close()
  match resp with
  | none => (ev3, .panicked)
  | some r => (ev3 ++ [.closeBody r], .returned)

/-- The method `handleAdminActions`, on the actions that the channel
`notifications` delivers before it is closed. -/
def handleAdminActions (env : NotifyEnv) (opts : Options) :
    List AdminAction → List NotifyEvent × Outcome
  | [] => ([], .returned)
  | action :: rest =>
    match handleAdminAction env opts action with
    | (ev, .panicked) => (ev, .panicked)
    | (ev, .returned) =>
      let (ev', o) := handleAdminActions env opts rest
      (ev ++ ev', o)

/-- The content that `handleAdminActions` posts for an action: what
`json.Marshal` returns, which is nil on an error. -/
def contentOf (env : NotifyEnv) (action : AdminAction) : List Nat :=
  match env.Marshal action with
  | .error _ => []
  | .ok content => content

/-- Options with a notification endpoint. -/
def exNotifyOpts : Options :=
  { NewOptions with NotificationHTTPEndpoint := "http://127.0.0.1:9/notify" }

/-- An action for the examples. -/
def exAction (topic : String) : AdminAction :=
  { Action := "delete_topic", Topic := topic, Channel := "", Node := "", Timestamp := 1700000000,
    User := "matt", RemoteIP := "10.0.0.7:51000", UserAgent := "curl", URL := "http://admin/",
    Via := "host1" }

/-- An environment in which nothing listens at the endpoint: `Post` returns a nil
response and an error. -/
def exNotifyDown : NotifyEnv :=
  { Marshal := fun a => .ok (client.ascii a.Topic)
    Post := fun _ _ => (none, some "connection refused") }

/-- An environment in which the endpoint answers 200. -/
def exNotifyUp : NotifyEnv :=
  { Marshal := fun a => .ok (client.ascii a.Topic)
    Post := fun _ _ => (some { StatusCode := 200 }, none) }

end admin

/-! ## Properties of the in-flight queue -/

namespace engine

/-! ### Writing an index field -/

theorem setIndex_pri (mem : Memory) (p : MsgRef) (i : Int) (q : MsgRef) :
    (setIndex mem p i q).pri = (mem q).pri := by
  unfold setIndex; split <;> rfl

theorem setIndex_clientID (mem : Memory) (p : MsgRef) (i : Int) (q : MsgRef) :
    (setIndex mem p i q).clientID = (mem q).clientID := by
  unfold setIndex; split <;> rfl

theorem setIndex_index_self (mem : Memory) (p : MsgRef) (i : Int) :
    (setIndex mem p i p).index = i := by
  simp [setIndex]

theorem setIndex_of_ne (mem : Memory) (p : MsgRef) (i : Int) (q : MsgRef) (h : q ≠ p) :
    setIndex mem p i q = mem q := by
  simp [setIndex, h]

/-- The list after exchanging slots `i` and `j`. -/
theorem Swap_eq (mem : Memory) (pq : List MsgRef) (i j : Nat) (hi : i < pq.length)
    (hj : j < pq.length) :
    Swap mem pq i j = some (setIndex (setIndex mem (pq.getD j 0) i) (pq.getD i 0) j,
      (pq.set i (pq.getD j 0)).set j (pq.getD i 0)) := by
  unfold Swap
  have h1 : pq[i]? = some (pq.getD i 0) := by
    simp [List.getD_eq_getElem?_getD, List.getElem?_eq_getElem hi]
  have h2 : pq[j]? = some (pq.getD j 0) := by
    simp [List.getD_eq_getElem?_getD, List.getElem?_eq_getElem hj]
  simp only [h1, h2, Option.bind_eq_bind, Option.some_bind, Option.pure_def]
  have h3 : ((pq.set i (pq.getD j 0)).set j (pq.getD i 0))[j]? = some (pq.getD i 0) := by
    simp [List.getElem?_set, hj]
  have h4 : ((pq.set i (pq.getD j 0)).set j (pq.getD i 0))[i]? = some (pq.getD j 0) := by
    by_cases hij : j = i
    · subst hij; simp [List.getElem?_set, hj]
    · simp [List.getElem?_set, hi, hij]
  rw [h4, Option.some_bind, h3, Option.some_bind]

/-! ### The heap order under an exchange -/

theorem HeapOn.upInv {key : Nat → Int} {n : Nat} (h : HeapOn key n) (j : Nat) : UpInv key n j := by
  refine ⟨fun k hk h0 _ => h k hk h0, fun k hk h0 hp hj => ?_⟩
  have h1 := h k hk h0
  have h2 := h j (by omega) hj
  rw [hp] at h1
  exact le_trans h2 h1

theorem UpInv.heap_of_root {key : Nat → Int} {n : Nat} (h : UpInv key n 0) : HeapOn key n :=
  fun k hk h0 => h.1 k hk h0 (by omega)

theorem UpInv.heap_of_parent_le {key : Nat → Int} {n j : Nat} (h : UpInv key n j)
    (hle : key ((j - 1) / 2) ≤ key j) : HeapOn key n := by
  intro k hk h0
  by_cases hkj : k = j
  · subst hkj; exact hle
  · exact h.1 k hk h0 hkj

theorem UpInv.step_up {key : Nat → Int} {n j : Nat} (h : UpInv key n j) (hj : j < n)
    (hne : (j - 1) / 2 ≠ j) (hlt : key j < key ((j - 1) / 2)) :
    UpInv (swapKey key ((j - 1) / 2) j) n ((j - 1) / 2) := by
  obtain ⟨h1, h2⟩ := h
  have hj0 : 0 < j := by omega
  constructor
  · intro k hk h0 hki
    simp only [swapKey]
    by_cases hkj : k = j
    · subst hkj
      simp [hne, Ne.symm hne]
      exact le_of_lt hlt
    · have hk1 := h1 k hk h0 hkj
      simp only [hki, hkj, if_false]
      by_cases hp1 : (k - 1) / 2 = (j - 1) / 2
      · simp only [hp1, if_true]
        rw [hp1] at hk1
        exact le_trans (le_of_lt hlt) hk1
      · by_cases hp2 : (k - 1) / 2 = j
        · simp only [hp1, hp2, if_true, if_false, Ne.symm hne]
          exact h2 k hk h0 hp2 hj0
        · simp only [hp1, hp2, if_false]
          exact hk1
  · intro k hk h0 hp hi0
    simp only [swapKey]
    have hpi1 : ((j - 1) / 2 - 1) / 2 ≠ (j - 1) / 2 := by omega
    have hpi2 : ((j - 1) / 2 - 1) / 2 ≠ j := by omega
    have hki : k ≠ (j - 1) / 2 := by omega
    have hi := h1 ((j - 1) / 2) (by omega) hi0 hne
    simp only [hpi1, hpi2, hki, if_false]
    by_cases hkj : k = j
    · simp only [hkj, if_true]; exact hi
    · simp only [hkj, if_false]
      have := h1 k hk h0 hkj
      rw [hp] at this
      exact le_trans hi this

theorem DownInv.heap_of_leaf {key : Nat → Int} {n i : Nat} (h : DownInv key n i)
    (hn : n ≤ 2 * i + 1) : HeapOn key n :=
  fun k hk h0 => h.1 k hk h0 (by omega)

theorem DownInv.heap_of_le {key : Nat → Int} {n i : Nat} (h : DownInv key n i)
    (hle : ∀ k, k < n → 0 < k → (k - 1) / 2 = i → key i ≤ key k) : HeapOn key n := by
  intro k hk h0
  by_cases hp : (k - 1) / 2 = i
  · have := hle k hk h0 hp
    rw [hp]; exact this
  · exact h.1 k hk h0 hp

theorem DownInv.step {key : Nat → Int} {n i j : Nat} (h : DownInv key n i) (hj : j < n)
    (hj0 : 0 < j) (hp : (j - 1) / 2 = i) (hlt : key j < key i)
    (hmin : ∀ k, k < n → 0 < k → (k - 1) / 2 = i → key j ≤ key k) :
    DownInv (swapKey key i j) n j := by
  obtain ⟨h1, h2⟩ := h
  have hij : i ≠ j := by omega
  constructor
  · intro k hk h0 hpk
    simp only [swapKey]
    by_cases hki : k = i
    · have hi0 : 0 < i := by omega
      have hpi1 : (i - 1) / 2 ≠ i := by omega
      have hpi2 : (i - 1) / 2 ≠ j := by omega
      simp only [hki, hpi1, hpi2, if_true, if_false]
      exact h2 j hj hj0 hp hi0
    · by_cases hkj : k = j
      · subst hkj
        simp only [hp, Ne.symm hij, if_true, if_false]
        exact le_of_lt hlt
      · simp only [hki, hkj, hpk, if_false]
        by_cases hpi : (k - 1) / 2 = i
        · simp only [hpi, if_true]
          exact hmin k hk h0 hpi
        · simp only [hpi, if_false]
          exact h1 k hk h0 hpi
  · intro k hk h0 hpk _
    simp only [swapKey]
    have hki : k ≠ i := by omega
    have hkj : k ≠ j := by omega
    simp only [hp, hki, hkj, if_true, if_false]
    have := h1 k hk h0 (by omega)
    rw [hpk] at this
    exact this

/-! ### Exchanging two slots of a list -/

theorem getD_swap (pq : List MsgRef) (i j k : Nat) (hi : i < pq.length) (hj : j < pq.length) :
    ((pq.set i (pq.getD j 0)).set j (pq.getD i 0)).getD k 0 =
      if k = j then pq.getD i 0 else if k = i then pq.getD j 0 else pq.getD k 0 := by
  simp only [List.getD_eq_getElem?_getD, List.getElem?_set, List.length_set]
  by_cases hkj : k = j
  · subst hkj; simp [hj]
  · by_cases hki : k = i
    · subst hki; simp [hi, Ne.symm hkj, hkj]
    · simp [hkj, hki, Ne.symm hkj, Ne.symm hki]

theorem perm_swap (pq : List MsgRef) (i j : Nat) (hi : i < pq.length) (hj : j < pq.length) :
    ((pq.set i (pq.getD j 0)).set j (pq.getD i 0)).Perm pq := by
  rw [List.perm_iff_count]
  intro a
  have e1 : pq.getD i 0 = pq[i] := by simp [List.getD_eq_getElem?_getD, List.getElem?_eq_getElem hi]
  have e2 : pq.getD j 0 = pq[j] := by simp [List.getD_eq_getElem?_getD, List.getElem?_eq_getElem hj]
  rw [List.count_set _ _ _ _ (by simpa using hj), List.count_set _ _ _ _ hi]
  have c1 := List.count_pos_iff.mpr (List.getElem_mem hi)
  have c2 := List.count_pos_iff.mpr (List.getElem_mem hj)
  by_cases hij : i = j
  · subst hij
    simp only [List.getElem_set_self, e1]
    by_cases h : pq[i] = a
    · subst h; simp only [beq_self_eq_true, if_true]; omega
    · simp [h]
  · simp only [List.getElem_set_ne hij, e1, e2, beq_iff_eq]
    by_cases h1 : pq[i] = a <;> by_cases h2 : pq[j] = a
    · simp only [h1, h2, if_true]; rw [h1] at c1; omega
    · simp only [h1, h2, if_true, if_false]; rw [h1] at c1; omega
    · simp only [h1, h2, if_true, if_false]; rw [h2] at c2; omega
    · simp only [h1, h2, if_false]; omega

/-! ### The method `Swap` -/

theorem getD_eq_of_lt (pq : List MsgRef) (k : Nat) (hk : k < pq.length) :
    pq[k]? = some (pq.getD k 0) := by
  simp [List.getD_eq_getElem?_getD, List.getElem?_eq_getElem hk]

theorem getD_mem (pq : List MsgRef) (k : Nat) (hk : k < pq.length) : pq.getD k 0 ∈ pq := by
  have : pq.getD k 0 = pq[k] := by
    simp [List.getD_eq_getElem?_getD, List.getElem?_eq_getElem hk]
  rw [this]; exact List.getElem_mem hk

theorem SameData.of_self (mem : Memory) : SameData mem mem := fun _ => ⟨rfl, rfl⟩

theorem SameData.andThen {m1 m2 m3 : Memory} (h1 : SameData m1 m2) (h2 : SameData m2 m3) :
    SameData m1 m3 :=
  fun p => ⟨(h2 p).1.trans (h1 p).1, (h2 p).2.trans (h1 p).2⟩

theorem SameData.setIndex (mem : Memory) (p : MsgRef) (i : Int) :
    SameData mem (setIndex mem p i) :=
  fun q => ⟨setIndex_pri mem p i q, setIndex_clientID mem p i q⟩

theorem SameData.priAt {mem mem' : Memory} (h : SameData mem mem') (pq : List MsgRef) (k : Nat) :
    priAt mem' pq k = priAt mem pq k := (h _).1

theorem IndexInv.inj {mem : Memory} {pq : List MsgRef} (h : IndexInv mem pq) {k1 k2 : Nat}
    (h1 : k1 < pq.length) (h2 : k2 < pq.length) (e : pq.getD k1 0 = pq.getD k2 0) : k1 = k2 := by
  have a := h k1 h1
  have b := h k2 h2
  rw [e] at a
  have : (k1 : Int) = k2 := a.symm.trans b
  exact_mod_cast this

theorem Rearranged.refl (mem : Memory) (pq : List MsgRef) : Rearranged mem pq mem pq :=
  ⟨rfl, List.Perm.refl _, SameData.of_self _, id, fun _ _ => rfl⟩

theorem Rearranged.trans {m1 m2 m3 : Memory} {q1 q2 q3 : List MsgRef}
    (h1 : Rearranged m1 q1 m2 q2) (h2 : Rearranged m2 q2 m3 q3) : Rearranged m1 q1 m3 q3 := by
  obtain ⟨a1, a2, a3, a4, a5⟩ := h1
  obtain ⟨b1, b2, b3, b4, b5⟩ := h2
  refine ⟨b1.trans a1, b2.trans a2, a3.andThen b3, fun h => b4 (a4 h), fun p hp => ?_⟩
  rw [b5 p (fun hm => hp (a2.mem_iff.mp hm)), a5 p hp]

/-- The effect of `Swap` on two slots in range. -/
theorem Swap_spec (mem : Memory) (pq : List MsgRef) (i j : Nat) (hi : i < pq.length)
    (hj : j < pq.length) :
    ∃ mem' pq', Swap mem pq i j = some (mem', pq') ∧ Rearranged mem pq mem' pq' ∧
      (∀ k, pq'.getD k 0 =
        if k = j then pq.getD i 0 else if k = i then pq.getD j 0 else pq.getD k 0) ∧
      priAt mem' pq' = swapKey (priAt mem pq) i j := by
  refine ⟨_, _, Swap_eq mem pq i j hi hj, ⟨?_, perm_swap pq i j hi hj, ?_, ?_, ?_⟩,
    fun k => getD_swap pq i j k hi hj, ?_⟩
  · simp
  · exact (SameData.setIndex _ _ _).andThen (SameData.setIndex _ _ _)
  · intro hinv k hk
    rw [List.length_set, List.length_set] at hk
    rw [getD_swap pq i j k hi hj]
    by_cases hkj : k = j
    · subst hkj; rw [if_pos rfl, setIndex_index_self]
    · rw [if_neg hkj]
      by_cases hki : k = i
      · subst hki
        have hne : pq.getD j 0 ≠ pq.getD k 0 := fun e => hkj (hinv.inj hj hk e).symm
        rw [if_pos rfl, setIndex_of_ne _ _ _ _ hne, setIndex_index_self]
      · have hne1 : pq.getD k 0 ≠ pq.getD i 0 := fun e => hki (hinv.inj hk hi e)
        have hne2 : pq.getD k 0 ≠ pq.getD j 0 := fun e => hkj (hinv.inj hk hj e)
        rw [if_neg hki]
        have := hinv k hk
        simp only [setIndex, hne1, hne2, if_false]
        exact this
  · intro p hp
    have hne1 : p ≠ pq.getD i 0 := fun e => hp (e ▸ getD_mem pq i hi)
    have hne2 : p ≠ pq.getD j 0 := fun e => hp (e ▸ getD_mem pq j hj)
    rw [setIndex_of_ne _ _ _ _ hne1, setIndex_of_ne _ _ _ _ hne2]
  · funext k
    simp only [priAt, swapKey]
    rw [getD_swap pq i j k hi hj, setIndex_pri, setIndex_pri]
    by_cases hkj : k = j
    · subst hkj
      by_cases hki : k = i
      · subst hki; simp only [if_true]
      · simp only [hki, if_true, if_false]
    · by_cases hki : k = i
      · subst hki; simp only [hkj, if_false, if_true]
      · simp only [hki, hkj, if_false]

/-! ### The loops `up` and `down` -/

/-- The loop of `up` from a slot in range, with enough fuel: it returns, it
rearranges, it leaves the slots beyond `j` alone, and it restores the heap
order. -/
theorem upLoop_spec : ∀ (fuel : Nat) (mem : Memory) (pq : List MsgRef) (j : Nat),
    j < pq.length → j < fuel →
    ∃ mem' pq', upLoop fuel mem pq j = some (mem', pq') ∧ Rearranged mem pq mem' pq' ∧
      (∀ k, j < k → pq'.getD k 0 = pq.getD k 0) ∧
      (∀ n, j < n → UpInv (priAt mem pq) n j → HeapOn (priAt mem' pq') n) := by
  intro fuel
  induction fuel with
  | zero => intro mem pq j _ h; omega
  | succ fuel ih =>
    intro mem pq j hj hf
    unfold upLoop
    by_cases hij : (j - 1) / 2 = j
    · simp only [hij, if_true]
      exact ⟨mem, pq, rfl, Rearranged.refl _ _, fun _ _ => rfl,
        fun n _ h => UpInv.heap_of_root (by rwa [show j = 0 by omega] at h)⟩
    · have hi : (j - 1) / 2 < pq.length := by omega
      simp only [hij, if_false, getD_eq_of_lt pq j hj, getD_eq_of_lt pq _ hi,
        Option.bind_eq_bind, Option.some_bind]
      by_cases hle : (mem (pq.getD j 0)).pri ≥ (mem (pq.getD ((j - 1) / 2) 0)).pri
      · simp only [hle, if_true]
        exact ⟨mem, pq, rfl, Rearranged.refl _ _, fun _ _ => rfl,
          fun n _ h => h.heap_of_parent_le hle⟩
      · simp only [hle, if_false]
        obtain ⟨m1, q1, e1, r1, g1, k1⟩ := Swap_spec mem pq ((j - 1) / 2) j hi hj
        rw [e1, Option.some_bind]
        obtain ⟨m2, q2, e2, r2, g2, k2⟩ := ih m1 q1 ((j - 1) / 2) (by rw [r1.1]; exact hi)
          (by omega)
        refine ⟨m2, q2, e2, r1.trans r2, fun k hk => ?_, fun n hn h => ?_⟩
        · rw [g2 k (by omega), g1 k, if_neg (by omega), if_neg (by omega)]
        · apply k2 n (by omega)
          rw [k1]
          exact h.step_up hn hij (lt_of_not_ge hle)

/-- The method `up` on a slot in range. -/
theorem up_spec (mem : Memory) (pq : List MsgRef) (j : Nat) (hj : j < pq.length) :
    ∃ mem' pq', up mem pq j = some (mem', pq') ∧ Rearranged mem pq mem' pq' ∧
      (∀ k, j < k → pq'.getD k 0 = pq.getD k 0) ∧
      (∀ n, j < n → UpInv (priAt mem pq) n j → HeapOn (priAt mem' pq') n) :=
  upLoop_spec (j + 1) mem pq j hj (by omega)

/-- The loop of `down` from a slot in range, with enough fuel: it returns, it
rearranges, it leaves the slots from `n` on alone, and it restores the heap
order on the first `n` slots. -/
theorem downLoop_spec : ∀ (fuel : Nat) (mem : Memory) (pq : List MsgRef) (i n : Nat),
    n ≤ pq.length → i ≤ n → n + 1 ≤ i + fuel →
    ∃ mem' pq', downLoop fuel mem pq i n = some (mem', pq') ∧ Rearranged mem pq mem' pq' ∧
      (∀ k, n ≤ k → pq'.getD k 0 = pq.getD k 0) ∧
      (∀ k, k < i → pq'.getD k 0 = pq.getD k 0) ∧
      (DownInv (priAt mem pq) n i → HeapOn (priAt mem' pq') n) := by
  intro fuel
  induction fuel with
  | zero => intro mem pq i n _ h1 h2; omega
  | succ fuel ih =>
    intro mem pq i n hn hi hf
    unfold downLoop
    by_cases hj1 : 2 * i + 1 ≥ n
    · simp only [hj1, if_true]
      exact ⟨mem, pq, rfl, Rearranged.refl _ _, fun _ _ => rfl, fun _ _ => rfl,
        fun h => h.heap_of_leaf hj1⟩
    · simp only [hj1, if_false, Option.bind_eq_bind, Option.pure_def]
      have hl1 : 2 * i + 1 < pq.length := by omega
      have hli : i < pq.length := by omega
      -- the child chosen by the loop
      obtain ⟨j, ej, hjn, hjp, hmin⟩ : ∃ j,
          (if 2 * i + 1 + 1 < n then
            (pq[2 * i + 1]?).bind fun x1 => (pq[2 * i + 1 + 1]?).bind fun x2 =>
              some (if (mem x1).pri ≥ (mem x2).pri then 2 * i + 1 + 1 else 2 * i + 1)
           else some (2 * i + 1)) = some j ∧ j < n ∧ (j = 2 * i + 1 ∨ j = 2 * i + 2) ∧
          (∀ k, k < n → 0 < k → (k - 1) / 2 = i → priAt mem pq j ≤ priAt mem pq k) := by
        by_cases hj2 : 2 * i + 1 + 1 < n
        · have hl2 : 2 * i + 1 + 1 < pq.length := by omega
          simp only [hj2, if_true, getD_eq_of_lt pq _ hl1, getD_eq_of_lt pq _ hl2,
            Option.some_bind]
          by_cases hc : (mem (pq.getD (2 * i + 1) 0)).pri ≥ (mem (pq.getD (2 * i + 1 + 1) 0)).pri
          · refine ⟨2 * i + 1 + 1, by simp only [hc, if_true], hj2, Or.inr rfl, fun k hk h0 hp => ?_⟩
            have : k = 2 * i + 1 ∨ k = 2 * i + 1 + 1 := by omega
            rcases this with rfl | rfl
            · exact hc
            · exact le_refl _
          · refine ⟨2 * i + 1, by simp only [hc, if_false], by omega, Or.inl rfl, fun k hk h0 hp => ?_⟩
            have : k = 2 * i + 1 ∨ k = 2 * i + 1 + 1 := by omega
            rcases this with rfl | rfl
            · exact le_refl _
            · exact le_of_lt (lt_of_not_ge hc)
        · refine ⟨2 * i + 1, by simp only [hj2, if_false], by omega, Or.inl rfl, fun k hk h0 hp => ?_⟩
          have : k = 2 * i + 1 := by omega
          subst this; exact le_refl _
      rw [ej, Option.some_bind]
      have hlj : j < pq.length := by omega
      simp only [getD_eq_of_lt pq j hlj, getD_eq_of_lt pq i hli, Option.some_bind]
      by_cases hle : (mem (pq.getD j 0)).pri ≥ (mem (pq.getD i 0)).pri
      · simp only [hle, if_true]
        exact ⟨mem, pq, rfl, Rearranged.refl _ _, fun _ _ => rfl, fun _ _ => rfl,
          fun h => h.heap_of_le fun k hk h0 hp => le_trans hle (hmin k hk h0 hp)⟩
      · simp only [hle, if_false]
        obtain ⟨m1, q1, e1, r1, g1, k1⟩ := Swap_spec mem pq i j hli hlj
        rw [e1, Option.some_bind]
        obtain ⟨m2, q2, e2, r2, g2, g2', k2⟩ := ih m1 q1 j n (by rw [r1.1]; exact hn)
          (by omega) (by omega)
        refine ⟨m2, q2, e2, r1.trans r2, fun k hk => ?_, fun k hk => ?_, fun h => ?_⟩
        · rw [g2 k hk, g1 k, if_neg (by omega), if_neg (by omega)]
        · rw [g2' k (by omega), g1 k, if_neg (by omega), if_neg (by omega)]
        · apply k2
          rw [k1]
          exact h.step hjn (by omega) (by omega) (lt_of_not_ge hle) hmin

/-- The method `down` on a slot in range. -/
theorem down_spec (mem : Memory) (pq : List MsgRef) (i n : Nat) (hn : n ≤ pq.length)
    (hi : i ≤ n) :
    ∃ mem' pq', down mem pq i n = some (mem', pq') ∧ Rearranged mem pq mem' pq' ∧
      (∀ k, n ≤ k → pq'.getD k 0 = pq.getD k 0) ∧
      (∀ k, k < i → pq'.getD k 0 = pq.getD k 0) ∧
      (DownInv (priAt mem pq) n i → HeapOn (priAt mem' pq') n) :=
  downLoop_spec (n + 1) mem pq i n hn hi (by omega)

/-- The loop of `down` changes nothing when slot `i` is at most its children. -/
theorem down_noop (mem : Memory) (pq : List MsgRef) (i n : Nat) (hn : n ≤ pq.length)
    (hle : ∀ k, k < n → 0 < k → (k - 1) / 2 = i → priAt mem pq i ≤ priAt mem pq k) :
    down mem pq i n = some (mem, pq) := by
  unfold down downLoop
  by_cases hj1 : 2 * i + 1 ≥ n
  · simp only [hj1, if_true]
  · simp only [hj1, if_false, Option.bind_eq_bind, Option.pure_def]
    have hl1 : 2 * i + 1 < pq.length := by omega
    have hli : i < pq.length := by omega
    have h1 := hle (2 * i + 1) (by omega) (by omega) (by omega)
    by_cases hj2 : 2 * i + 1 + 1 < n
    · have hl2 : 2 * i + 1 + 1 < pq.length := by omega
      have h2 := hle (2 * i + 1 + 1) (by omega) (by omega) (by omega)
      simp only [hj2, if_true, getD_eq_of_lt pq _ hl1, getD_eq_of_lt pq _ hl2,
        Option.some_bind]
      by_cases hc : (mem (pq.getD (2 * i + 1) 0)).pri ≥ (mem (pq.getD (2 * i + 1 + 1) 0)).pri
      · simp only [hc, if_true, getD_eq_of_lt pq _ hl2, getD_eq_of_lt pq _ hli, Option.some_bind]
        exact if_pos h2
      · simp only [hc, if_false, getD_eq_of_lt pq _ hl1, getD_eq_of_lt pq _ hli, Option.some_bind]
        exact if_pos h1
    · simp only [hj2, if_false, getD_eq_of_lt pq _ hl1, getD_eq_of_lt pq _ hli, Option.some_bind]
      exact if_pos h1

/-! ### The method `Pop` -/

theorem getD_take (l : List MsgRef) (m k : Nat) (hk : k < m) :
    (l.take m).getD k 0 = l.getD k 0 := by
  simp only [List.getD_eq_getElem?_getD, List.getElem?_take_of_lt hk]

theorem take_append_last (l : List MsgRef) (m : Nat) (h : l.length = m + 1) :
    l.take m ++ [l.getD m 0] = l := by
  have hm : m < l.length := by omega
  have e : l.getD m 0 = l[m] := List.getD_eq_getElem _ _ hm
  have h1 := @List.take_succ _ l m
  rw [List.getElem?_eq_getElem hm] at h1
  simp only [Option.toList] at h1
  rw [e, ← h1, ← h, List.take_length]

theorem cons_take_perm (l : List MsgRef) (m : Nat) (h : l.length = m + 1) :
    (l.getD m 0 :: l.take m).Perm l := by
  have := take_append_last l m h
  calc (l.getD m 0 :: l.take m).Perm (l.take m ++ [l.getD m 0]) :=
        (List.perm_append_singleton _ _).symm
    _ = l := this

/-- Removing the last slot after a rearrangement that has put the message to
remove there: the index invariant of the remaining slots. -/
theorem IndexInv.take_setIndex {mem : Memory} {pq : List MsgRef} (m : Nat)
    (h : IndexInv mem pq) (hm : pq.length = m + 1) :
    IndexInv (setIndex mem (pq.getD m 0) (-1)) (pq.take m) := by
  intro k hk
  have hk' : k < m := by
    rw [List.length_take] at hk; omega
  rw [getD_take pq m k hk']
  have hne : pq.getD k 0 ≠ pq.getD m 0 := fun e => by
    have := h.inj (by omega) (by omega) e
    omega
  rw [setIndex_of_ne _ _ _ _ hne]
  exact h k (by omega)

theorem priAt_take_setIndex (mem : Memory) (pq : List MsgRef) (m : Nat) (x : MsgRef) (i : Int)
    (k : Nat) (hk : k < m) : priAt (setIndex mem x i) (pq.take m) k = priAt mem pq k := by
  simp only [priAt, setIndex_pri, getD_take pq m k hk]

theorem HeapOn.congr {key key' : Nat → Int} {n : Nat} (h : HeapOn key n)
    (e : ∀ k, k < n → key' k = key k) : HeapOn key' n := by
  intro k hk h0
  rw [e k hk, e _ (by omega)]
  exact h k hk h0

theorem HeapOn.mono {key : Nat → Int} {n m : Nat} (h : HeapOn key n) (hm : m ≤ n) :
    HeapOn key m :=
  fun k hk h0 => h k (by omega) h0

/-- The effect of `Pop` on a non-empty queue. -/
theorem Pop_spec (mem : Memory) (pq : inFlightPqueue) (hne : pq.items ≠ []) :
    ∃ mem' pq', Pop mem pq = some (mem', pq', pq.items.getD 0 0) ∧
      pq'.items.length + 1 = pq.items.length ∧
      (pq.items.getD 0 0 :: pq'.items).Perm pq.items ∧
      SameData mem mem' ∧
      (isHeap mem pq.items → isHeap mem' pq'.items) ∧
      (IndexInv mem pq.items → IndexInv mem' pq'.items) ∧
      (mem' (pq.items.getD 0 0)).index = -1 ∧
      (∀ p, p ∉ pq.items → mem' p = mem p) ∧
      pq'.cap = (if pq.items.length < pq.cap / 2 ∧ pq.cap > 25 then pq.cap / 2 else pq.cap) := by
  have hn : 0 < pq.items.length := List.length_pos.mpr hne
  obtain ⟨m1, q1, e1, r1, g1, k1⟩ :=
    Swap_spec mem pq.items 0 (pq.items.length - 1) hn (by omega)
  obtain ⟨m2, q2, e2, r2, g2, _, k2⟩ :=
    down_spec m1 q1 0 (pq.items.length - 1) (by rw [r1.1]; omega) (by omega)
  have hlen2 : q2.length = (pq.items.length - 1) + 1 := by rw [r2.1, r1.1]; omega
  have hx : q2.getD (pq.items.length - 1) 0 = pq.items.getD 0 0 := by
    rw [g2 _ (le_refl _), g1, if_pos rfl]
  have hx? : q2[pq.items.length - 1]? = some (pq.items.getD 0 0) := by
    rw [getD_eq_of_lt q2 _ (by omega), hx]
  refine ⟨setIndex m2 (pq.items.getD 0 0) (-1),
    { items := q2.take (pq.items.length - 1),
      cap := if pq.items.length < pq.cap / 2 ∧ pq.cap > 25 then pq.cap / 2 else pq.cap },
    ?_, ?_, ?_, ?_, ?_, ?_, ?_, ?_, rfl⟩
  · unfold Pop
    simp only [Option.bind_eq_bind, Option.pure_def, Nat.pos_iff_ne_zero.mp hn, if_false, e1,
      Option.some_bind, e2, hx?]
  · simp only [List.length_take]; omega
  · have := cons_take_perm q2 _ hlen2
    rw [hx] at this
    exact this.trans ((r1.trans r2).2.1)
  · exact (r1.trans r2).2.2.1.andThen (SameData.setIndex _ _ _)
  · intro hheap
    have hd : DownInv (priAt m1 q1) (pq.items.length - 1) 0 := by
      refine ⟨fun k hk h0 hp => ?_, fun k _ _ _ h => absurd h (by omega)⟩
      rw [k1]
      simp only [swapKey]
      rw [if_neg (by omega), if_neg (by omega), if_neg (by omega), if_neg (by omega)]
      exact hheap k (by omega) h0
    have hh := k2 hd
    show HeapOn _ _
    simp only [List.length_take]
    rw [show min (pq.items.length - 1) q2.length = pq.items.length - 1 by omega]
    exact hh.congr fun k hk => priAt_take_setIndex m2 q2 _ _ _ k hk
  · intro hinv
    have := ((r1.trans r2).2.2.2.1 hinv).take_setIndex _ hlen2
    rwa [hx] at this
  · exact setIndex_index_self _ _ _
  · intro p hp
    have hne : p ≠ pq.items.getD 0 0 := fun e => hp (e ▸ getD_mem _ 0 hn)
    rw [setIndex_of_ne _ _ _ _ hne]
    exact (r1.trans r2).2.2.2.2 p hp

/-! ### The method `Push` -/

/-- The method `Push` returns exactly when the doubled capacity has room for one
more element. -/
theorem Push_isSome_iff (mem : Memory) (pq : inFlightPqueue) (x : MsgRef) :
    (Push mem pq x).isSome ↔ pq.items.length + 1 ≤ 2 * pq.cap := by
  obtain ⟨m1, q1, e1, -⟩ := up_spec (setIndex mem x pq.items.length) (pq.items ++ [x])
    pq.items.length (by simp)
  unfold Push
  by_cases h1 : pq.items.length + 1 > pq.cap
  · by_cases h2 : pq.items.length > pq.cap * 2
    · simp only [h1, h2, if_true, Option.bind_eq_bind, Option.none_bind, Option.isSome_none]
      constructor
      · intro h; exact absurd h (by simp)
      · intro h; omega
    · simp only [h1, h2, if_true, if_false, Option.bind_eq_bind, Option.some_bind]
      by_cases h3 : pq.items.length + 1 > pq.cap * 2
      · simp only [h3, if_true, Option.isSome_none]
        constructor
        · intro h; exact absurd h (by simp)
        · intro h; omega
      · simp only [h3, if_false, e1, Option.some_bind, Option.pure_def, Option.isSome_some,
          true_iff]
        omega
  · simp only [h1, if_false, Option.bind_eq_bind, Option.some_bind, e1, Option.pure_def,
      Option.isSome_some, true_iff]
    omega

/-- The effect of `Push` when it returns. -/
theorem Push_spec (mem : Memory) (pq : inFlightPqueue) (x : MsgRef)
    (hc : pq.items.length + 1 ≤ 2 * pq.cap) :
    ∃ mem' pq', Push mem pq x = some (mem', pq') ∧
      pq'.items.length = pq.items.length + 1 ∧
      pq'.items.Perm (x :: pq.items) ∧
      SameData mem mem' ∧
      (isHeap mem pq.items → isHeap mem' pq'.items) ∧
      (x ∉ pq.items → IndexInv mem pq.items → IndexInv mem' pq'.items) ∧
      (∀ p, p ∉ pq.items → p ≠ x → mem' p = mem p) ∧
      pq'.cap = (if pq.items.length + 1 > pq.cap then pq.cap * 2 else pq.cap) := by
  obtain ⟨m1, q1, e1, r1, g1, k1⟩ := up_spec (setIndex mem x pq.items.length) (pq.items ++ [x])
    pq.items.length (by simp)
  have hkey : ∀ k, k < pq.items.length →
      priAt (setIndex mem x pq.items.length) (pq.items ++ [x]) k = priAt mem pq.items k := by
    intro k hk
    simp only [priAt, setIndex_pri, List.getD_append _ _ _ _ hk]
  refine ⟨m1, { items := q1, cap := if pq.items.length + 1 > pq.cap then pq.cap * 2 else pq.cap },
    ?_, ?_, ?_, ?_, ?_, ?_, ?_, rfl⟩
  · unfold Push
    by_cases h1 : pq.items.length + 1 > pq.cap
    · have h2 : ¬ pq.items.length > pq.cap * 2 := by omega
      have h3 : ¬ pq.items.length + 1 > pq.cap * 2 := by omega
      simp only [h1, h2, h3, if_true, if_false, Option.bind_eq_bind, Option.some_bind, e1,
        Option.pure_def]
    · simp only [h1, if_false, Option.bind_eq_bind, Option.some_bind, e1, Option.pure_def]
  · rw [r1.1]; simp
  · exact r1.2.1.trans (List.perm_append_singleton _ _)
  · exact (SameData.setIndex _ _ _).andThen r1.2.2.1
  · intro hheap
    have : HeapOn (priAt m1 q1) (pq.items.length + 1) := by
      apply k1 _ (by omega)
      refine ⟨fun k hk h0 hkn => ?_, fun k hk h0 hp _ => absurd hp (by omega)⟩
      rw [hkey k (by omega), hkey _ (by omega)]
      exact hheap k (by omega) h0
    show HeapOn _ _
    rw [r1.1]
    simpa using this
  · intro hx hinv
    apply r1.2.2.2.1
    intro k hk
    rw [List.length_append, List.length_singleton] at hk
    by_cases hkn : k < pq.items.length
    · rw [List.getD_append _ _ _ _ hkn]
      have hne : pq.items.getD k 0 ≠ x := fun e => hx (e ▸ getD_mem _ k hkn)
      rw [setIndex_of_ne _ _ _ _ hne]
      exact hinv k hkn
    · have : k = pq.items.length := by omega
      subst this
      rw [List.getD_append_right _ _ _ _ (le_refl _)]
      simp [setIndex]
  · intro p hp hpx
    rw [r1.2.2.2.2 p (by simp [hp, hpx]), setIndex_of_ne _ _ _ _ hpx]

/-! ### The method `Remove` -/

/-- The rearrangement made by `Remove` before it drops the last slot. -/
theorem Remove_rearrange (mem : Memory) (pq : List MsgRef) (i : Nat) (n : Nat)
    (hn : pq.length = n + 1) (hi : i < n) :
    ∃ m3 q3, ((Swap mem pq i n).bind fun r1 => (down r1.1 r1.2 i n).bind fun r2 =>
        up r2.1 r2.2 i) = some (m3, q3) ∧
      Rearranged mem pq m3 q3 ∧ q3.getD n 0 = pq.getD i 0 ∧
      (HeapOn (priAt mem pq) (n + 1) → HeapOn (priAt m3 q3) n) := by
  obtain ⟨m1, q1, e1, r1, g1, k1⟩ := Swap_spec mem pq i n (by omega) (by omega)
  obtain ⟨m2, q2, e2, r2, g2, _, k2⟩ := down_spec m1 q1 i n (by rw [r1.1]; omega) (by omega)
  obtain ⟨m3, q3, e3, r3, g3, k3⟩ := up_spec m2 q2 i (by rw [r2.1, r1.1]; omega)
  refine ⟨m3, q3, ?_, (r1.trans r2).trans r3, ?_, fun hheap => ?_⟩
  · rw [e1, Option.some_bind, e2, Option.some_bind, e3]
  · rw [g3 n hi, g2 n (le_refl _), g1 n, if_pos rfl]
  · have hkey : ∀ k, k < n → k ≠ i → priAt m1 q1 k = priAt mem pq k := by
      intro k hk hki
      rw [k1]; simp only [swapKey]
      rw [if_neg hki, if_neg (by omega)]
    have hkeyi : priAt m1 q1 i = priAt mem pq n := by
      rw [k1]; simp only [swapKey, if_true]
    by_cases hcase : i = 0 ∨ priAt mem pq ((i - 1) / 2) ≤ priAt mem pq n
    · -- the message moved to slot `i` is at least the parent of slot `i`
      have hd : DownInv (priAt m1 q1) n i := by
        refine ⟨fun k hk h0 hp => ?_, fun k hk h0 hp hi0 => ?_⟩
        · by_cases hki : k = i
          · subst hki
            rw [hkeyi, hkey _ (by omega) hp]
            rcases hcase with h | h
            · omega
            · exact h
          · rw [hkey k hk hki, hkey _ (by omega) hp]
            exact hheap k (by omega) h0
        · rw [hkey k hk (by omega), hkey _ (by omega) (by omega)]
          have a := hheap k (by omega) h0
          have b := hheap i (by omega) hi0
          rw [hp] at a
          exact le_trans b a
      exact k3 n hi ((k2 hd).upInv i)
    · -- the message moved to slot `i` is below the parent of slot `i`
      have hi0 : 0 < i := by omega
      have hlt : priAt mem pq n < priAt mem pq ((i - 1) / 2) := by
        have := not_or.mp hcase
        exact lt_of_not_ge this.2
      have hpar := hheap i (by omega) hi0
      have hnoop := down_noop m1 q1 i n (by rw [r1.1]; omega) (fun k hk h0 hp => by
        rw [hkeyi, hkey k hk (by omega)]
        have a := hheap k (by omega) h0
        rw [hp] at a
        exact le_trans (le_of_lt hlt) (le_trans hpar a))
      rw [hnoop] at e2
      obtain ⟨rfl, rfl⟩ := Prod.mk.inj (Option.some.inj e2)
      apply k3 n hi
      refine ⟨fun k hk h0 hki => ?_, fun k hk h0 hp _ => ?_⟩
      · rw [hkey k hk hki]
        by_cases hpk : (k - 1) / 2 = i
        · rw [hpk, hkeyi]
          have a := hheap k (by omega) h0
          rw [hpk] at a
          exact le_trans (le_of_lt hlt) (le_trans hpar a)
        · rw [hkey _ (by omega) hpk]
          exact hheap k (by omega) h0
      · rw [hkey k hk (by omega), hkey _ (by omega) (by omega)]
        have a := hheap k (by omega) h0
        rw [hp] at a
        exact le_trans hpar a

/-- The effect of `Remove` on an index in range. -/
theorem Remove_spec (mem : Memory) (pq : inFlightPqueue) (i : Nat) (hi : i < pq.items.length) :
    ∃ mem' pq', Remove mem pq (i : Int) = some (mem', pq', pq.items.getD i 0) ∧
      pq'.items.length + 1 = pq.items.length ∧
      (pq.items.getD i 0 :: pq'.items).Perm pq.items ∧
      SameData mem mem' ∧
      (isHeap mem pq.items → isHeap mem' pq'.items) ∧
      (IndexInv mem pq.items → IndexInv mem' pq'.items) ∧
      (mem' (pq.items.getD i 0)).index = -1 ∧
      (∀ p, p ∉ pq.items → mem' p = mem p) ∧
      pq'.cap = pq.cap := by
  obtain ⟨n, hn⟩ : ∃ n, pq.items.length = n + 1 := ⟨pq.items.length - 1, by omega⟩
  -- the state before the last slot is dropped
  obtain ⟨m3, q3, e3, r3, gx, k3⟩ : ∃ m3 q3,
      (if (pq.items.length : Int) - 1 ≠ (i : Int) then
        (if (i : Int) < 0 ∨ pq.items.length = 0 then none
         else (Swap mem pq.items (i : Int).toNat (pq.items.length - 1)).bind fun r1 =>
          (down r1.1 r1.2 (i : Int).toNat (pq.items.length - 1)).bind fun r2 =>
            up r2.1 r2.2 (i : Int).toNat)
       else some (mem, pq.items)) = some (m3, q3) ∧
      Rearranged mem pq.items m3 q3 ∧ q3.getD n 0 = pq.items.getD i 0 ∧
      (HeapOn (priAt mem pq.items) (n + 1) → HeapOn (priAt m3 q3) n) := by
    by_cases hin : i = n
    · subst hin
      refine ⟨mem, pq.items, ?_, Rearranged.refl _ _, rfl, fun h => h.mono (by omega)⟩
      rw [if_neg]
      rw [hn]; push_cast; omega
    · obtain ⟨m3, q3, e, r, g, k⟩ := Remove_rearrange mem pq.items i n hn (by omega)
      refine ⟨m3, q3, ?_, r, g, k⟩
      rw [if_pos (by rw [hn]; push_cast; omega), if_neg (by omega)]
      simp only [Int.toNat_ofNat, hn, Nat.add_sub_cancel]
      exact e
  have hlen3 : q3.length = n + 1 := by rw [r3.1, hn]
  have hx? : q3[n]? = some (pq.items.getD i 0) := by
    rw [getD_eq_of_lt q3 _ (by omega), gx]
  refine ⟨setIndex m3 (pq.items.getD i 0) (-1), { items := q3.take n, cap := pq.cap },
    ?_, ?_, ?_, ?_, ?_, ?_, ?_, ?_, rfl⟩
  · unfold Remove
    simp only [Option.bind_eq_bind, Option.pure_def]
    rw [e3]
    simp only [Option.some_bind, hn, Nat.add_sub_cancel, hx?]
    rfl
  · simp only [List.length_take]; omega
  · have := cons_take_perm q3 _ hlen3
    rw [gx] at this
    exact this.trans r3.2.1
  · exact r3.2.2.1.andThen (SameData.setIndex _ _ _)
  · intro hheap
    have hh := k3 (by rw [← hn]; exact hheap)
    show HeapOn _ _
    simp only [List.length_take]
    rw [show min n q3.length = n by omega]
    exact hh.congr fun k hk => priAt_take_setIndex m3 q3 _ _ _ k hk
  · intro hinv
    have := (r3.2.2.2.1 hinv).take_setIndex _ hlen3
    rwa [gx] at this
  · exact setIndex_index_self _ _ _
  · intro p hp
    have hne : p ≠ pq.items.getD i 0 := fun e => hp (e ▸ getD_mem _ i hi)
    rw [setIndex_of_ne _ _ _ _ hne]
    exact r3.2.2.2.2 p hp

/-! ### Draining the queue -/

/-- In a heap the root is at most every slot. -/
theorem HeapOn.root_le {key : Nat → Int} {n : Nat} (h : HeapOn key n) :
    ∀ k, k < n → key 0 ≤ key k := by
  intro k
  induction k using Nat.strong_induction_on with
  | _ k ih =>
    intro hk
    by_cases h0 : k = 0
    · subst h0; exact le_refl _
    · exact le_trans (ih ((k - 1) / 2) (by omega) (by omega)) (h k hk (by omega))

theorem mem_iff_getD (pq : List MsgRef) (y : MsgRef) :
    y ∈ pq ↔ ∃ k, k < pq.length ∧ pq.getD k 0 = y := by
  constructor
  · intro hy
    obtain ⟨k, hk, e⟩ := List.getElem_of_mem hy
    exact ⟨k, hk, by rw [List.getD_eq_getElem _ _ hk, e]⟩
  · rintro ⟨k, hk, rfl⟩
    exact getD_mem pq k hk

/-- In a queue that satisfies the heap invariant the root has minimum priority. -/
theorem isHeap.root_min {mem : Memory} {pq : List MsgRef} (h : isHeap mem pq) :
    ∀ y, y ∈ pq → (mem (pq.getD 0 0)).pri ≤ (mem y).pri := by
  intro y hy
  obtain ⟨k, hk, rfl⟩ := (mem_iff_getD pq y).mp hy
  exact HeapOn.root_le h k hk

theorem SameData.prisOf {mem mem' : Memory} (h : SameData mem mem') (xs : List MsgRef) :
    prisOf mem' xs = prisOf mem xs := by
  unfold engine.prisOf
  exact List.map_congr_left fun p _ => (h p).1

theorem isHeap_nil (mem : Memory) : isHeap mem [] := fun k hk _ => absurd hk (by simp)

theorem PeekAndShift_empty (mem : Memory) (pq : inFlightPqueue) (max : Int)
    (h : pq.items = []) : PeekAndShift mem pq max = some (mem, pq, none, 0) := by
  unfold PeekAndShift
  simp [h]

theorem PeekAndShift_wait (mem : Memory) (pq : inFlightPqueue) (max : Int)
    (h : pq.items ≠ []) (hgt : (mem (pq.items.getD 0 0)).pri > max) :
    PeekAndShift mem pq max =
      some (mem, pq, none, wrapInt64 ((mem (pq.items.getD 0 0)).pri - max)) := by
  have hn : 0 < pq.items.length := List.length_pos.mpr h
  unfold PeekAndShift
  simp only [Nat.pos_iff_ne_zero.mp hn, if_false, getD_eq_of_lt _ 0 hn, Option.bind_eq_bind,
    Option.some_bind, hgt, if_true, Option.pure_def]

theorem PeekAndShift_shift (mem : Memory) (pq : inFlightPqueue) (max : Int)
    (h : pq.items ≠ []) (hle : ¬ (mem (pq.items.getD 0 0)).pri > max) :
    PeekAndShift mem pq max =
      (Pop mem pq).bind fun r => some (r.1, r.2.1, some (pq.items.getD 0 0), 0) := by
  have hn : 0 < pq.items.length := List.length_pos.mpr h
  unfold PeekAndShift
  simp only [Nat.pos_iff_ne_zero.mp hn, if_false, getD_eq_of_lt _ 0 hn, Option.bind_eq_bind,
    Option.some_bind, hle, Option.pure_def]

/-- Popping as many times as the queue is long empties it and returns its
messages in non-decreasing order of priority. -/
theorem popAll_spec : ∀ (k : Nat) (mem : Memory) (pq : inFlightPqueue),
    isHeap mem pq.items → pq.items.length = k →
    ∃ out mem' pq', popAll k mem pq = some (out, mem', pq') ∧ pq'.items = [] ∧
      out.Perm pq.items ∧ (prisOf mem out).Sorted (· ≤ ·) ∧ SameData mem mem' := by
  intro k
  induction k with
  | zero =>
    intro mem pq _ hlen
    exact ⟨[], mem, pq, rfl, List.length_eq_zero.mp hlen, by
      rw [List.length_eq_zero.mp hlen], by simp [prisOf], SameData.of_self _⟩
  | succ k ih =>
    intro mem pq hheap hlen
    have hne : pq.items ≠ [] := by
      intro e; rw [e] at hlen; simp at hlen
    obtain ⟨m1, q1, e1, l1, p1, s1, h1, -⟩ := Pop_spec mem pq hne
    obtain ⟨out, m2, q2, e2, z2, p2, o2, s2⟩ := ih m1 q1 (h1 hheap) (by omega)
    refine ⟨pq.items.getD 0 0 :: out, m2, q2, ?_, z2, ?_, ?_, s1.andThen s2⟩
    · unfold popAll
      simp only [Option.bind_eq_bind, e1, Option.some_bind, e2, Option.pure_def]
    · exact (List.Perm.cons _ p2).trans p1
    · rw [s1.prisOf] at o2
      show List.Sorted _ (_ :: prisOf mem out)
      refine List.sorted_cons.mpr ⟨fun b hb => ?_, o2⟩
      obtain ⟨y, hy, rfl⟩ := List.mem_map.mp hb
      exact hheap.root_min y (p1.subset (List.mem_cons_of_mem _ (p2.subset hy)))

/-- Calling `PeekAndShift(max)` as many times as the queue is long, with `max`
at least every priority of the queue, is popping that many times. -/
theorem shiftAll_eq_popAll : ∀ (k : Nat) (mem : Memory) (pq : inFlightPqueue) (max : Int),
    isHeap mem pq.items → pq.items.length = k → (∀ y, y ∈ pq.items → (mem y).pri ≤ max) →
    shiftAll k mem pq max = (popAll k mem pq).bind fun r => some (r.1.map some, r.2) := by
  intro k
  induction k with
  | zero => intro mem pq max _ _ _; rfl
  | succ k ih =>
    intro mem pq max hheap hlen hmax
    have hne : pq.items ≠ [] := by
      intro e; rw [e] at hlen; simp at hlen
    have hn : 0 < pq.items.length := List.length_pos.mpr hne
    obtain ⟨m1, q1, e1, l1, p1, s1, h1, -⟩ := Pop_spec mem pq hne
    have hle : ¬ (mem (pq.items.getD 0 0)).pri > max :=
      not_lt.mpr (hmax _ (getD_mem _ 0 hn))
    have hmax1 : ∀ y, y ∈ q1.items → (m1 y).pri ≤ max := fun y hy => by
      rw [(s1 y).1]
      exact hmax y (p1.subset (List.mem_cons_of_mem _ hy))
    unfold shiftAll popAll
    rw [PeekAndShift_shift mem pq max hne hle]
    simp only [Option.bind_eq_bind, e1, Option.some_bind, Option.pure_def]
    rw [ih m1 q1 max (h1 hheap) (by omega) hmax1]
    cases popAll k m1 q1 with
    | none => rfl
    | some r => rfl

/-! ### Filling the queue, and draining it up to a time -/

/-- Pushing onto a queue with a positive capacity that holds its elements always
returns, and keeps these two properties. -/
theorem pushAll_spec : ∀ (xs : List MsgRef) (mem : Memory) (pq : inFlightPqueue),
    1 ≤ pq.cap → pq.items.length ≤ pq.cap →
    ∃ mem' pq', pushAll mem pq xs = some (mem', pq') ∧
      pq'.items.Perm (xs ++ pq.items) ∧ SameData mem mem' ∧
      (isHeap mem pq.items → isHeap mem' pq'.items) ∧
      1 ≤ pq'.cap ∧ pq'.items.length ≤ pq'.cap ∧
      (pq.items.length + xs.length ≤ pq.cap → pq'.cap = pq.cap) := by
  intro xs
  induction xs with
  | nil =>
    intro mem pq h1 h2
    exact ⟨mem, pq, rfl, by simp, SameData.of_self _, id, h1, h2, fun _ => rfl⟩
  | cons x xs ih =>
    intro mem pq h1 h2
    obtain ⟨m1, q1, e1, l1, p1, s1, k1, -, -, c1⟩ := Push_spec mem pq x (by omega)
    have hc1 : 1 ≤ q1.cap := by rw [c1]; split <;> omega
    have hl1 : q1.items.length ≤ q1.cap := by rw [c1, l1]; split <;> omega
    obtain ⟨m2, q2, e2, p2, s2, k2, a2, b2, c2⟩ := ih m1 q1 hc1 hl1
    refine ⟨m2, q2, ?_, ?_, s1.andThen s2, fun h => k2 (k1 h), a2, b2, fun h => ?_⟩
    · unfold pushAll
      simp only [Option.bind_eq_bind, e1, Option.some_bind, e2]
    · refine p2.trans ?_
      refine (List.Perm.append_left xs p1).trans ?_
      simp only [List.cons_append]
      exact List.perm_middle
    · simp only [List.length_cons] at h
      rw [c2 (by rw [l1, c1, if_neg (by omega)]; omega), c1, if_neg (by omega)]

/-- What calling `PeekAndShift(now)` until it returns nil does to a queue that
satisfies the heap invariant. -/
theorem shiftUntilNil_spec : ∀ (n : Nat) (mem : Memory) (pq : inFlightPqueue) (now : Int),
    isHeap mem pq.items → pq.items.length = n →
    ∃ out mem' pq', (∀ fuel, n + 1 ≤ fuel → shiftUntilNil fuel mem pq now = some (out, mem', pq')) ∧
      out.Perm (pq.items.filter fun p => decide ((mem p).pri ≤ now)) ∧
      (prisOf mem out).Sorted (· ≤ ·) ∧
      pq'.items.Perm (pq.items.filter fun p => decide (now < (mem p).pri)) ∧
      SameData mem mem' ∧ isHeap mem' pq'.items := by
  intro n
  induction n with
  | zero =>
    intro mem pq now hheap hlen
    have he : pq.items = [] := List.length_eq_zero.mp hlen
    refine ⟨[], mem, pq, fun fuel hf => ?_, by simp [he], by simp [prisOf], by simp [he],
      SameData.of_self _, hheap⟩
    obtain ⟨f, rfl⟩ : ∃ f, fuel = f + 1 := ⟨fuel - 1, by omega⟩
    unfold shiftUntilNil
    rw [PeekAndShift_empty mem pq now he]
  | succ n ih =>
    intro mem pq now hheap hlen
    have hne : pq.items ≠ [] := by
      intro e; rw [e] at hlen; simp at hlen
    by_cases hgt : (mem (pq.items.getD 0 0)).pri > now
    · have hall : ∀ y, y ∈ pq.items → now < (mem y).pri :=
        fun y hy => lt_of_lt_of_le hgt (hheap.root_min y hy)
      refine ⟨[], mem, pq, fun fuel hf => ?_, ?_, by simp [prisOf], ?_, SameData.of_self _, hheap⟩
      · obtain ⟨f, rfl⟩ : ∃ f, fuel = f + 1 := ⟨fuel - 1, by omega⟩
        unfold shiftUntilNil
        rw [PeekAndShift_wait mem pq now hne hgt]
      · rw [List.filter_eq_nil_iff.mpr]
        intro y hy
        simpa using hall y hy
      · rw [List.filter_eq_self.mpr]
        intro y hy
        simpa using hall y hy
    · obtain ⟨m1, q1, e1, l1, p1, s1, h1, -⟩ := Pop_spec mem pq hne
      obtain ⟨out, m2, q2, e2, po, so, pr, s2, h2⟩ := ih m1 q1 now (h1 hheap) (by omega)
      have hf1 : (fun p => decide ((m1 p).pri ≤ now)) = fun p => decide ((mem p).pri ≤ now) := by
        funext p; rw [(s1 p).1]
      have hf2 : (fun p => decide (now < (m1 p).pri)) = fun p => decide (now < (mem p).pri) := by
        funext p; rw [(s1 p).1]
      rw [hf1] at po
      rw [hf2] at pr
      refine ⟨pq.items.getD 0 0 :: out, m2, q2, fun fuel hf => ?_, ?_, ?_, ?_, s1.andThen s2, h2⟩
      · obtain ⟨f, rfl⟩ : ∃ f, fuel = f + 1 := ⟨fuel - 1, by omega⟩
        unfold shiftUntilNil
        rw [PeekAndShift_shift mem pq now hne hgt, e1]
        simp only [Option.some_bind]
        rw [e2 f (by omega)]
      · have := (p1.filter fun p => decide ((mem p).pri ≤ now))
        rw [List.filter_cons_of_pos (by simpa using hgt)] at this
        exact (List.Perm.cons _ po).trans this
      · rw [s1.prisOf] at so
        show List.Sorted _ (_ :: prisOf mem out)
        refine List.sorted_cons.mpr ⟨fun b hb => ?_, so⟩
        obtain ⟨y, hy, rfl⟩ := List.mem_map.mp hb
        have hy1 : y ∈ q1.items := (List.mem_filter.mp (po.subset hy)).1
        exact hheap.root_min y (p1.subset (List.mem_cons_of_mem _ hy1))
      · have := (p1.filter fun p => decide (now < (mem p).pri))
        rw [List.filter_cons_of_neg (by simpa using hgt)] at this
        exact pr.trans this

/-! ### Auxiliary facts -/

theorem wrapInt64_eq_self (x : Int) (h1 : -(2 : Int) ^ 63 ≤ x) (h2 : x < 2 ^ 63) :
    wrapInt64 x = x := by
  unfold wrapInt64
  rw [Int.emod_eq_of_lt (by omega) (by omega)]
  omega

theorem Swap_some_lt {mem : Memory} {pq : List MsgRef} {i j : Nat} {r : Memory × List MsgRef}
    (h : Swap mem pq i j = some r) : i < pq.length ∧ j < pq.length := by
  unfold Swap at h
  by_cases hi : i < pq.length
  · by_cases hj : j < pq.length
    · exact ⟨hi, hj⟩
    · rw [List.getElem?_eq_none (by omega : pq.length ≤ j)] at h
      simp at h
  · rw [List.getElem?_eq_none (by omega : pq.length ≤ i)] at h
    simp at h

theorem Pop_some_ne {mem : Memory} {pq : inFlightPqueue} {r : Memory × inFlightPqueue × MsgRef}
    (h : Pop mem pq = some r) : pq.items ≠ [] := by
  intro e
  unfold Pop at h
  simp [e] at h

theorem Remove_some_lt {mem : Memory} {pq : inFlightPqueue} {i : Int}
    {r : Memory × inFlightPqueue × MsgRef} (h : Remove mem pq i = some r) :
    0 ≤ i ∧ i < pq.items.length := by
  unfold Remove at h
  by_cases hn : pq.items.length = 0
  · exfalso
    by_cases hc : (pq.items.length : Int) - 1 ≠ i
    · simp [hc, hn] at h
    · simp [hc, hn] at h
  · by_cases hc : (pq.items.length : Int) - 1 ≠ i
    · by_cases hi : i < 0
      · simp [hc, hi] at h
      · simp only [hc, hi, hn, if_true, if_false, or_self, ne_eq, not_false_eq_true,
          Option.bind_eq_bind] at h
        cases hs : Swap mem pq.items i.toNat (pq.items.length - 1) with
        | none => rw [hs] at h; simp at h
        | some r1 =>
          have := (Swap_some_lt hs).1
          omega
    · omega

theorem pushAll_append : ∀ (ys zs : List MsgRef) (mem : Memory) (pq : inFlightPqueue),
    pushAll mem pq (ys ++ zs) = (pushAll mem pq ys).bind fun r => pushAll r.1 r.2 zs := by
  intro ys
  induction ys with
  | nil => intro zs mem pq; rfl
  | cons y ys ih =>
    intro zs mem pq
    simp only [List.cons_append, pushAll, Option.bind_eq_bind]
    cases Push mem pq y with
    | none => rfl
    | some r => simp only [Option.some_bind]; exact ih zs r.1 r.2

/-! ### The contract of the queue -/

/-- C1: on a queue that satisfies the min-heap invariant, `PeekAndShift(max)`
returns `(nil, 0)` when the queue is empty; returns `(nil, top.pri - max)` (the
int64 difference, which is the mathematical one unless it overflows) and leaves
the queue and the memory as they are when the priority of the root `top` is
greater than `max`; and otherwise returns `(top, 0)`, where `top` has minimum
priority in the queue, and the queue afterwards holds the messages it held
without `top`, the data of every message being unchanged. -/
theorem PeekAndShift_contract (mem : Memory) (pq : inFlightPqueue) (max : Int)
    (hheap : isHeap mem pq.items) :
    (pq.items = [] → PeekAndShift mem pq max = some (mem, pq, none, 0)) ∧
    (∀ top rest, pq.items = top :: rest → (mem top).pri > max →
      PeekAndShift mem pq max = some (mem, pq, none, wrapInt64 ((mem top).pri - max)) ∧
      (-(2 : Int) ^ 63 ≤ (mem top).pri - max → (mem top).pri - max < 2 ^ 63 →
        wrapInt64 ((mem top).pri - max) = (mem top).pri - max)) ∧
    (∀ top rest, pq.items = top :: rest → ¬ (mem top).pri > max →
      (∀ y, y ∈ pq.items → (mem top).pri ≤ (mem y).pri) ∧
      ∃ mem' pq', PeekAndShift mem pq max = some (mem', pq', some top, 0) ∧
        (top :: pq'.items).Perm pq.items ∧ pq'.items.length + 1 = pq.items.length ∧
        SameData mem mem') := by
  refine ⟨PeekAndShift_empty mem pq max, fun top rest he hgt => ?_, fun top rest he hle => ?_⟩
  · have hne : pq.items ≠ [] := by rw [he]; simp
    have h0 : pq.items.getD 0 0 = top := by rw [he]; rfl
    have := PeekAndShift_wait mem pq max hne (by rw [h0]; exact hgt)
    rw [h0] at this
    exact ⟨this, wrapInt64_eq_self _⟩
  · have hne : pq.items ≠ [] := by rw [he]; simp
    have h0 : pq.items.getD 0 0 = top := by rw [he]; rfl
    refine ⟨fun y hy => ?_, ?_⟩
    · have := hheap.root_min y hy
      rwa [h0] at this
    · obtain ⟨m1, q1, e1, l1, p1, s1, -⟩ := Pop_spec mem pq hne
      refine ⟨m1, q1, ?_, by rwa [h0] at p1, l1, s1⟩
      rw [PeekAndShift_shift mem pq max hne (by rw [h0]; exact hle), e1, h0]
      rfl

theorem PeekAndShift_contract_witness :
    isHeap exMem exQueue.items ∧
    ∃ mem' pq', PeekAndShift exMem exQueue 4 = some (mem', pq', some 3, 0) ∧
      (3 :: pq'.items).Perm exQueue.items ∧ pq'.items.length + 1 = exQueue.items.length ∧
      SameData exMem mem' :=
  ⟨by decide, ((PeekAndShift_contract exMem exQueue 4 (by decide)).2.2 3 [1, 5, 0, 4, 2] rfl
    (by decide)).2⟩

/-- C2: pushing any finite sequence `xs` of messages, with any priorities and in
any order, onto the empty queue `newInFlightPqueue(c)`, `c >= 1`, and then
removing as many elements as were pushed, by `Pop` or by `PeekAndShift(max)`
with `max` at least every priority pushed, returns; it empties the queue; and the
priorities of the returned messages, in the order of their return, are
non-decreasing and a permutation of the priorities pushed. -/
theorem push_then_drain_sorted (mem : Memory) (xs : List MsgRef) (c : Nat) (hc : 1 ≤ c) :
    ∃ mem1 pq1, pushAll mem (newInFlightPqueue c) xs = some (mem1, pq1) ∧
      ∃ out mem2 pq2, popAll xs.length mem1 pq1 = some (out, mem2, pq2) ∧ pq2.items = [] ∧
        (prisOf mem2 out).Sorted (· ≤ ·) ∧ (prisOf mem2 out).Perm (prisOf mem xs) ∧
        ∀ max, (∀ x, x ∈ xs → (mem x).pri ≤ max) →
          shiftAll xs.length mem1 pq1 max = some (out.map some, mem2, pq2) := by
  obtain ⟨m1, q1, e1, p1, s1, k1, -⟩ :=
    pushAll_spec xs mem (newInFlightPqueue c) hc (Nat.zero_le _)
  have hp : q1.items.Perm xs := by simpa [newInFlightPqueue] using p1
  have hh : isHeap m1 q1.items := k1 (isHeap_nil mem)
  obtain ⟨out, m2, q2, e2, z2, p2, o2, s2⟩ := popAll_spec xs.length m1 q1 hh hp.length_eq
  refine ⟨m1, q1, e1, out, m2, q2, e2, z2, ?_, ?_, fun max hmax => ?_⟩
  · rw [s2.prisOf]; exact o2
  · rw [(s1.andThen s2).prisOf]
    exact (p2.trans hp).map _
  · rw [shiftAll_eq_popAll xs.length m1 q1 max hh hp.length_eq, e2]
    · rfl
    · intro y hy
      rw [(s1 y).1]
      exact hmax y (hp.subset hy)

theorem push_then_drain_sorted_witness :
    1 ≤ 2 ∧
    ∃ mem1 pq1, pushAll exMem (newInFlightPqueue 2) [0, 1, 2, 3, 4, 5] = some (mem1, pq1) ∧
      ∃ out mem2 pq2, popAll [0, 1, 2, 3, 4, 5].length mem1 pq1 = some (out, mem2, pq2) ∧
        pq2.items = [] ∧
        (prisOf mem2 out).Sorted (· ≤ ·) ∧
        (prisOf mem2 out).Perm (prisOf exMem [0, 1, 2, 3, 4, 5]) ∧
        ∀ max, (∀ x, x ∈ [0, 1, 2, 3, 4, 5] → (exMem x).pri ≤ max) →
          shiftAll [0, 1, 2, 3, 4, 5].length mem1 pq1 max = some (out.map some, mem2, pq2) :=
  ⟨by decide, push_then_drain_sorted exMem [0, 1, 2, 3, 4, 5] 2 (by decide)⟩

/-- C3: the min-heap invariant is preserved by every operation of the queue.  If
it holds before, then `Push(x)` returns whenever the doubled capacity has room for
one more element, and the invariant holds after every `Push` that returns; `Pop`
on a non-empty queue returns and the invariant holds afterwards; `Remove(i)` with
`0 <= i < len(pq)` returns and the invariant holds afterwards; `PeekAndShift(max)`
returns and the invariant holds afterwards. -/
theorem heap_invariant_preserved (mem : Memory) (pq : inFlightPqueue)
    (hheap : isHeap mem pq.items) :
    (∀ x, (pq.items.length + 1 ≤ 2 * pq.cap → (Push mem pq x).isSome) ∧
      ∀ mem' pq', Push mem pq x = some (mem', pq') → isHeap mem' pq'.items) ∧
    (pq.items ≠ [] → ∃ mem' pq' x, Pop mem pq = some (mem', pq', x) ∧ isHeap mem' pq'.items) ∧
    (∀ i : Nat, i < pq.items.length →
      ∃ mem' pq' x, Remove mem pq (i : Int) = some (mem', pq', x) ∧ isHeap mem' pq'.items) ∧
    (∀ max, ∃ mem' pq' r d, PeekAndShift mem pq max = some (mem', pq', r, d) ∧
      isHeap mem' pq'.items) := by
  refine ⟨fun x => ⟨(Push_isSome_iff mem pq x).mpr, fun mem' pq' e => ?_⟩, fun hne => ?_,
    fun i hi => ?_, fun max => ?_⟩
  · have hroom := (Push_isSome_iff mem pq x).mp (by rw [e]; rfl)
    obtain ⟨m1, q1, e1, -, -, -, k1, -⟩ := Push_spec mem pq x hroom
    rw [e1] at e
    obtain ⟨rfl, rfl⟩ := Prod.mk.inj (Option.some.inj e)
    exact k1 hheap
  · obtain ⟨m1, q1, e1, -, -, -, k1, -⟩ := Pop_spec mem pq hne
    exact ⟨m1, q1, _, e1, k1 hheap⟩
  · obtain ⟨m1, q1, e1, -, -, -, k1, -⟩ := Remove_spec mem pq i hi
    exact ⟨m1, q1, _, e1, k1 hheap⟩
  · by_cases he : pq.items = []
    · exact ⟨mem, pq, none, 0, PeekAndShift_empty mem pq max he, hheap⟩
    · by_cases hgt : (mem (pq.items.getD 0 0)).pri > max
      · exact ⟨mem, pq, none, _, PeekAndShift_wait mem pq max he hgt, hheap⟩
      · obtain ⟨m1, q1, e1, -, -, -, k1, -⟩ := Pop_spec mem pq he
        refine ⟨m1, q1, some (pq.items.getD 0 0), 0, ?_, k1 hheap⟩
        rw [PeekAndShift_shift mem pq max he hgt, e1]
        rfl

theorem heap_invariant_preserved_witness :
    isHeap exMem exQueue.items ∧
    (∃ mem' pq' x, Pop exMem exQueue = some (mem', pq', x) ∧ isHeap mem' pq'.items) ∧
    (∃ mem' pq' x, Remove exMem exQueue ((1 : Nat) : Int) = some (mem', pq', x) ∧
      isHeap mem' pq'.items) :=
  ⟨by decide, (heap_invariant_preserved exMem exQueue (by decide)).2.1 (by decide),
    (heap_invariant_preserved exMem exQueue (by decide)).2.2.1 1 (by decide)⟩

/-- C4: on a queue that satisfies the heap invariant, calling `PeekAndShift(now)`
until it returns nil terminates (after at most `len(pq) + 1` calls, whatever
larger bound is given); the returned messages are exactly the messages of the
queue whose priority is at most `now`, each once, in non-decreasing order of
priority; and the queue is left with exactly the messages whose priority is
greater than `now`. -/
theorem shiftUntilNil_contract (mem : Memory) (pq : inFlightPqueue) (now : Int)
    (hheap : isHeap mem pq.items) :
    ∃ out mem' pq',
      (∀ fuel, pq.items.length + 1 ≤ fuel →
        shiftUntilNil fuel mem pq now = some (out, mem', pq')) ∧
      out.Perm (pq.items.filter fun p => decide ((mem p).pri ≤ now)) ∧
      (prisOf mem out).Sorted (· ≤ ·) ∧
      pq'.items.Perm (pq.items.filter fun p => decide (now < (mem p).pri)) ∧
      SameData mem mem' := by
  obtain ⟨out, m1, q1, e, po, so, pr, s, -⟩ :=
    shiftUntilNil_spec pq.items.length mem pq now hheap rfl
  exact ⟨out, m1, q1, e, po, so, pr, s⟩

theorem shiftUntilNil_contract_witness :
    isHeap exMem exQueue.items ∧
    ∃ out mem' pq',
      (∀ fuel, exQueue.items.length + 1 ≤ fuel →
        shiftUntilNil fuel exMem exQueue 4 = some (out, mem', pq')) ∧
      out.Perm (exQueue.items.filter fun p => decide ((exMem p).pri ≤ 4)) ∧
      (prisOf exMem out).Sorted (· ≤ ·) ∧
      pq'.items.Perm (exQueue.items.filter fun p => decide (4 < (exMem p).pri)) ∧
      SameData exMem mem' :=
  ⟨by decide, shiftUntilNil_contract exMem exQueue 4 (by decide)⟩

/-- C5: on a non-empty queue that satisfies the heap invariant, if
`PeekAndShift(max)` returns `(nil, d)` and the difference between the priority of
the root and `max` does not overflow int64, then `d > 0`, the queue and the memory
are as they were, and every message of the queue has `pri >= max + d`. -/
theorem PeekAndShift_wait_sound (mem : Memory) (pq : inFlightPqueue) (max : Int)
    (mem' : Memory) (pq' : inFlightPqueue) (d : Int)
    (hheap : isHeap mem pq.items) (hne : pq.items ≠ [])
    (hret : PeekAndShift mem pq max = some (mem', pq', none, d))
    (hlo : -(2 : Int) ^ 63 ≤ (mem (pq.items.getD 0 0)).pri - max)
    (hhi : (mem (pq.items.getD 0 0)).pri - max < 2 ^ 63) :
    0 < d ∧ mem' = mem ∧ pq' = pq ∧ ∀ y, y ∈ pq'.items → max + d ≤ (mem' y).pri := by
  by_cases hgt : (mem (pq.items.getD 0 0)).pri > max
  · rw [PeekAndShift_wait mem pq max hne hgt, wrapInt64_eq_self _ hlo hhi] at hret
    simp only [Option.some.injEq, Prod.mk.injEq, true_and] at hret
    obtain ⟨rfl, rfl, rfl⟩ := hret
    refine ⟨by omega, rfl, rfl, fun y hy => ?_⟩
    have := hheap.root_min y hy
    omega
  · obtain ⟨m1, q1, e1, -⟩ := Pop_spec mem pq hne
    rw [PeekAndShift_shift mem pq max hne hgt, e1] at hret
    simp at hret

theorem PeekAndShift_wait_sound_witness :
    isHeap exMem exQueue.items ∧ exQueue.items ≠ [] ∧
    PeekAndShift exMem exQueue 0 = some (exMem, exQueue, none, 1) ∧
    (0 : Int) < 1 ∧ exMem = exMem ∧ exQueue = exQueue ∧
    ∀ y, y ∈ exQueue.items → (0 : Int) + 1 ≤ (exMem y).pri :=
  ⟨by decide, by decide, rfl,
    PeekAndShift_wait_sound exMem exQueue 0 exMem exQueue 1 (by decide) (by decide) rfl
      (by decide) (by decide)⟩

/-! ### The index fields -/

/-- The index invariant holds in every reachable state. -/
theorem Reachable.indexInv {mem : Memory} {pq : inFlightPqueue} (h : Reachable mem pq) :
    IndexInv mem pq.items := by
  induction h with
  | init mem c => intro k hk; simp [newInFlightPqueue] at hk
  | @push mem mem' pq pq' x _ hx e ih =>
    have hroom := (Push_isSome_iff mem pq x).mp (by rw [e]; rfl)
    obtain ⟨m1, q1, e1, -, -, -, -, k1, -⟩ := Push_spec mem pq x hroom
    rw [e1] at e
    obtain ⟨rfl, rfl⟩ := Prod.mk.inj (Option.some.inj e)
    exact k1 hx ih
  | @pop mem mem' pq pq' x _ e ih =>
    obtain ⟨m1, q1, e1, -, -, -, -, k1, -⟩ := Pop_spec mem pq (Pop_some_ne e)
    rw [e1] at e
    simp only [Option.some.injEq, Prod.mk.injEq] at e
    obtain ⟨rfl, rfl, -⟩ := e
    exact k1 ih
  | @remove mem mem' pq pq' i x _ e ih =>
    obtain ⟨h0, hlt⟩ := Remove_some_lt e
    obtain ⟨n, rfl⟩ := Int.eq_ofNat_of_zero_le h0
    obtain ⟨m1, q1, e1, -, -, -, -, k1, -⟩ := Remove_spec mem pq n (by exact_mod_cast hlt)
    rw [e1] at e
    simp only [Option.some.injEq, Prod.mk.injEq] at e
    obtain ⟨rfl, rfl, -⟩ := e
    exact k1 ih
  | @peekAndShift mem mem' pq pq' max r d _ e ih =>
    by_cases he : pq.items = []
    · rw [PeekAndShift_empty mem pq max he] at e
      simp only [Option.some.injEq, Prod.mk.injEq] at e
      obtain ⟨rfl, rfl, -⟩ := e
      exact ih
    · by_cases hgt : (mem (pq.items.getD 0 0)).pri > max
      · rw [PeekAndShift_wait mem pq max he hgt] at e
        simp only [Option.some.injEq, Prod.mk.injEq] at e
        obtain ⟨rfl, rfl, -⟩ := e
        exact ih
      · obtain ⟨m1, q1, e1, -, -, -, -, k1, -⟩ := Pop_spec mem pq he
        rw [PeekAndShift_shift mem pq max he hgt, e1] at e
        simp only [Option.some_bind, Option.some.injEq, Prod.mk.injEq] at e
        obtain ⟨rfl, rfl, -⟩ := e
        exact k1 ih
  | @outside mem mem' pq _ hsame ih =>
    intro k hk
    rw [hsame _ (getD_mem _ k hk)]
    exact ih k hk

/-- C6: in every state reachable from an empty queue by `Push` of messages that
the queue does not hold, `Pop`, `Remove` and `PeekAndShift`, the message in slot
`i` of the queue has its index field equal to `i`, and every message that `Pop`,
`Remove` or `PeekAndShift` returns has index `-1` on return. -/
theorem index_invariant (mem : Memory) (pq : inFlightPqueue) (h : Reachable mem pq) :
    (∀ i, i < pq.items.length → (mem (pq.items.getD i 0)).index = (i : Int)) ∧
    (∀ mem' pq' x, Pop mem pq = some (mem', pq', x) → (mem' x).index = -1) ∧
    (∀ i mem' pq' x, Remove mem pq i = some (mem', pq', x) → (mem' x).index = -1) ∧
    (∀ max mem' pq' x d, PeekAndShift mem pq max = some (mem', pq', some x, d) →
      (mem' x).index = -1) := by
  refine ⟨h.indexInv, fun mem' pq' x e => ?_, fun i mem' pq' x e => ?_,
    fun max mem' pq' x d e => ?_⟩
  · obtain ⟨m1, q1, e1, -, -, -, -, -, k1, -⟩ := Pop_spec mem pq (Pop_some_ne e)
    rw [e1] at e
    simp only [Option.some.injEq, Prod.mk.injEq] at e
    obtain ⟨rfl, rfl, rfl⟩ := e
    exact k1
  · obtain ⟨h0, hlt⟩ := Remove_some_lt e
    obtain ⟨n, rfl⟩ := Int.eq_ofNat_of_zero_le h0
    obtain ⟨m1, q1, e1, -, -, -, -, -, k1, -⟩ := Remove_spec mem pq n (by exact_mod_cast hlt)
    rw [e1] at e
    simp only [Option.some.injEq, Prod.mk.injEq] at e
    obtain ⟨rfl, rfl, rfl⟩ := e
    exact k1
  · by_cases he : pq.items = []
    · rw [PeekAndShift_empty mem pq max he] at e
      simp at e
    · by_cases hgt : (mem (pq.items.getD 0 0)).pri > max
      · rw [PeekAndShift_wait mem pq max he hgt] at e
        simp at e
      · obtain ⟨m1, q1, e1, -, -, -, -, -, k1, -⟩ := Pop_spec mem pq he
        rw [PeekAndShift_shift mem pq max he hgt, e1] at e
        simp only [Option.some_bind, Option.some.injEq, Prod.mk.injEq] at e
        obtain ⟨rfl, rfl, rfl, -⟩ := e
        exact k1

theorem index_invariant_witness :
    Reachable twoMem twoQueue ∧
    (∀ i, i < twoQueue.items.length → (twoMem (twoQueue.items.getD i 0)).index = (i : Int)) ∧
    (∀ mem' pq' x, Pop twoMem twoQueue = some (mem', pq', x) → (mem' x).index = -1) ∧
    (∀ i mem' pq' x, Remove twoMem twoQueue i = some (mem', pq', x) → (mem' x).index = -1) ∧
    (∀ max mem' pq' x d, PeekAndShift twoMem twoQueue max = some (mem', pq', some x, d) →
      (mem' x).index = -1) :=
  have h0 : Reachable exMem (newInFlightPqueue 1) := Reachable.init exMem 1
  have h1 : Reachable (setIndex exMem 0 0) { items := [0], cap := 1 } :=
    Reachable.push 0 h0 (by decide) rfl
  have h2 : Reachable twoMem twoQueue := Reachable.push 1 h1 (by decide) rfl
  ⟨h2, index_invariant twoMem twoQueue h2⟩

/-! ### Removal and capacity -/

/-- C7: on a queue that satisfies the heap and index invariants, `Remove(i)` with
`0 <= i < len(pq)` returns the message that was stored in slot `i`, which is the
one message of the queue whose index field equals `i`; the queue afterwards holds
exactly the other messages, its length is one less; and popping the remainder
returns its messages in non-decreasing order of priority. -/
theorem Remove_contract (mem : Memory) (pq : inFlightPqueue) (i : Nat)
    (hheap : isHeap mem pq.items) (hidx : IndexInv mem pq.items) (hi : i < pq.items.length) :
    ∃ mem' pq', Remove mem pq (i : Int) = some (mem', pq', pq.items.getD i 0) ∧
      (mem (pq.items.getD i 0)).index = (i : Int) ∧
      (∀ y, y ∈ pq.items → (mem y).index = (i : Int) → y = pq.items.getD i 0) ∧
      (pq.items.getD i 0 :: pq'.items).Perm pq.items ∧
      pq'.items.length + 1 = pq.items.length ∧ SameData mem mem' ∧
      ∃ out mem'' pq'', popAll pq'.items.length mem' pq' = some (out, mem'', pq'') ∧
        pq''.items = [] ∧ out.Perm pq'.items ∧ (prisOf mem'' out).Sorted (· ≤ ·) := by
  obtain ⟨m1, q1, e1, l1, p1, s1, k1, -⟩ := Remove_spec mem pq i hi
  obtain ⟨out, m2, q2, e2, z2, p2, o2, s2⟩ := popAll_spec q1.items.length m1 q1 (k1 hheap) rfl
  refine ⟨m1, q1, e1, hidx i hi, fun y hy hyi => ?_, p1, l1, s1, out, m2, q2, e2, z2, p2, ?_⟩
  · obtain ⟨k, hk, rfl⟩ := (mem_iff_getD pq.items y).mp hy
    have := hidx k hk
    rw [hyi] at this
    have hki : i = k := by exact_mod_cast this
    rw [hki]
  · rw [s2.prisOf]; exact o2

theorem Remove_contract_witness :
    isHeap exMem exQueue.items ∧ IndexInv exMem exQueue.items ∧ 1 < exQueue.items.length ∧
    ∃ mem' pq', Remove exMem exQueue ((1 : Nat) : Int) = some (mem', pq', exQueue.items.getD 1 0) ∧
      (exMem (exQueue.items.getD 1 0)).index = ((1 : Nat) : Int) ∧
      (∀ y, y ∈ exQueue.items → (exMem y).index = ((1 : Nat) : Int) →
        y = exQueue.items.getD 1 0) ∧
      (exQueue.items.getD 1 0 :: pq'.items).Perm exQueue.items ∧
      pq'.items.length + 1 = exQueue.items.length ∧ SameData exMem mem' ∧
      ∃ out mem'' pq'', popAll pq'.items.length mem' pq' = some (out, mem'', pq'') ∧
        pq''.items = [] ∧ out.Perm pq'.items ∧ (prisOf mem'' out).Sorted (· ≤ ·) :=
  ⟨by decide, by decide, by decide,
    Remove_contract exMem exQueue 1 (by decide) (by decide) (by decide)⟩

/-- C8: `Push` on a queue whose length equals its capacity `c >= 1` returns a
queue of capacity `2*c`, and `Push` on a queue whose length is below its capacity
leaves the capacity unchanged; pushing `c + 1` messages onto
`newInFlightPqueue(c)`, `c >= 1`, gives length `c + 1` and capacity `2*c`, and
pushing exactly `c` messages gives length `c` and leaves the capacity at `c`. -/
theorem Push_capacity (mem : Memory) (pq : inFlightPqueue) (x : MsgRef) (c : Nat)
    (xs : List MsgRef) (hc : 1 ≤ c) :
    (pq.items.length = pq.cap → 1 ≤ pq.cap →
      ∃ mem' pq', Push mem pq x = some (mem', pq') ∧ pq'.cap = 2 * pq.cap) ∧
    (pq.items.length < pq.cap →
      ∃ mem' pq', Push mem pq x = some (mem', pq') ∧ pq'.cap = pq.cap) ∧
    (xs.length = c + 1 →
      ∃ mem' pq', pushAll mem (newInFlightPqueue c) xs = some (mem', pq') ∧
        pq'.items.length = c + 1 ∧ pq'.cap = 2 * c) ∧
    (xs.length = c →
      ∃ mem' pq', pushAll mem (newInFlightPqueue c) xs = some (mem', pq') ∧
        pq'.items.length = c ∧ pq'.cap = c) := by
  have hfull : ∀ (mem : Memory) (pq : inFlightPqueue) (x : MsgRef),
      pq.items.length = pq.cap → 1 ≤ pq.cap →
      ∃ mem' pq', Push mem pq x = some (mem', pq') ∧ pq'.cap = 2 * pq.cap ∧
        pq'.items.length = pq.items.length + 1 := by
    intro mem pq x hfull h1
    obtain ⟨m1, q1, e1, l1, -, -, -, -, -, c1⟩ := Push_spec mem pq x (by omega)
    exact ⟨m1, q1, e1, by rw [c1, if_pos (by omega)]; omega, l1⟩
  have hexact : ∀ (ys : List MsgRef), ys.length = c →
      ∃ mem' pq', pushAll mem (newInFlightPqueue c) ys = some (mem', pq') ∧
        pq'.items.length = c ∧ pq'.cap = c := by
    intro ys hlen
    obtain ⟨m1, q1, e1, p1, -, -, -, -, c1⟩ :=
      pushAll_spec ys mem (newInFlightPqueue c) hc (Nat.zero_le _)
    refine ⟨m1, q1, e1, ?_, ?_⟩
    · rw [p1.length_eq]; simp [newInFlightPqueue, hlen]
    · rw [c1 (by simp [newInFlightPqueue, hlen])]; rfl
  refine ⟨fun hfl h1 => ?_, fun hlt => ?_, fun hlen => ?_, hexact xs⟩
  · obtain ⟨m1, q1, e1, c1, -⟩ := hfull mem pq x hfl h1
    exact ⟨m1, q1, e1, c1⟩
  · obtain ⟨m1, q1, e1, -, -, -, -, -, -, c1⟩ := Push_spec mem pq x (by omega)
    exact ⟨m1, q1, e1, by rw [c1, if_neg (by omega)]⟩
  · have hne : xs ≠ [] := by intro e; rw [e] at hlen; simp at hlen
    obtain ⟨m1, q1, e1, l1, c1⟩ := hexact xs.dropLast (by rw [List.length_dropLast]; omega)
    obtain ⟨m2, q2, e2, c2, l2⟩ := hfull m1 q1 (xs.getLast hne) (by omega) (by omega)
    refine ⟨m2, q2, ?_, by omega, by omega⟩
    rw [← List.dropLast_append_getLast hne, pushAll_append, e1]
    simp only [Option.some_bind, pushAll, Option.bind_eq_bind, e2]

theorem Push_capacity_witness :
    1 ≤ 2 ∧
    (∃ mem' pq', pushAll exMem (newInFlightPqueue 2) [0, 1, 2] = some (mem', pq') ∧
      pq'.items.length = 2 + 1 ∧ pq'.cap = 2 * 2) ∧
    (∃ mem' pq', Push twoMem twoQueue 2 = some (mem', pq') ∧ pq'.cap = 2 * twoQueue.cap) :=
  ⟨by decide, (Push_capacity exMem exQueue 0 2 [0, 1, 2] (by decide)).2.2.1 rfl,
    (Push_capacity twoMem twoQueue 2 2 [] (by decide)).1 rfl (by decide)⟩

/-- C9, as the code has it: `Pop` on a non-empty queue of length `n` and capacity
`c` returns, and it halves the capacity, to `c/2` rounded down, exactly when
`n < c/2` (the quotient rounded down, `n` counting the message being popped) and
`c > 25`; otherwise it leaves the capacity unchanged. -/
theorem Pop_capacity (mem : Memory) (pq : inFlightPqueue) (hne : pq.items ≠ []) :
    ∃ mem' pq' x, Pop mem pq = some (mem', pq', x) ∧
      (pq.items.length < pq.cap / 2 ∧ 25 < pq.cap → pq'.cap = pq.cap / 2) ∧
      (¬ (pq.items.length < pq.cap / 2 ∧ 25 < pq.cap) → pq'.cap = pq.cap) := by
  obtain ⟨m1, q1, e1, -, -, -, -, -, -, -, c1⟩ := Pop_spec mem pq hne
  refine ⟨m1, q1, _, e1, fun h => ?_, fun h => ?_⟩
  · rw [c1, if_pos h]
  · rw [c1, if_neg h]

theorem Pop_capacity_witness :
    wideQueue.items ≠ [] ∧
    ∃ mem' pq' x, Pop idMem wideQueue = some (mem', pq', x) ∧
      (wideQueue.items.length < wideQueue.cap / 2 ∧ 25 < wideQueue.cap →
        pq'.cap = wideQueue.cap / 2) ∧
      (¬ (wideQueue.items.length < wideQueue.cap / 2 ∧ 25 < wideQueue.cap) →
        pq'.cap = wideQueue.cap) :=
  ⟨by decide, Pop_capacity idMem wideQueue (by decide)⟩

/-- C9, as the claim has it, fails: a queue of ten messages and capacity 26 is
not less than one quarter full, before the call or after it, and `Pop` halves its
capacity to 13. -/
theorem Pop_halves_above_quarter :
    ∃ mem' pq' x, Pop idMem wideQueue = some (mem', pq', x) ∧
      wideQueue.cap = 26 ∧ 25 < wideQueue.cap ∧ pq'.cap = 13 ∧
      ¬ (4 * wideQueue.items.length < wideQueue.cap) ∧
      ¬ (4 * pq'.items.length < wideQueue.cap) := by
  obtain ⟨m1, q1, e1, l1, -, -, -, -, -, -, c1⟩ := Pop_spec idMem wideQueue (by decide)
  refine ⟨m1, q1, _, e1, rfl, by decide, ?_, by decide, ?_⟩
  · rw [c1]; rfl
  · have : q1.items.length = 9 := by
      have h10 : wideQueue.items.length = 10 := rfl
      omega
    rw [this]; decide

end engine

/-! ## Properties of the name validation -/

namespace client

open RegularExpression in
theorem mem_charClass (cs : List Nat) (x : List Nat) :
    x ∈ (charClass cs).matches' ↔ ∃ c, c ∈ cs ∧ x = [c] := by
  induction cs with
  | nil =>
    simp only [charClass, List.foldr_nil, matches'_zero, List.not_mem_nil, false_and,
      exists_false, iff_false]
    exact fun h => h
  | cons c cs ih =>
    have e : charClass (c :: cs) = char c + charClass cs := rfl
    rw [e, matches'_add, Language.mem_add, ih, matches'_char]
    constructor
    · rintro (h | ⟨d, hd, rfl⟩)
      · exact ⟨c, List.mem_cons_self _ _, h⟩
      · exact ⟨d, List.mem_cons_of_mem _ hd, rfl⟩
    · rintro ⟨d, hd, rfl⟩
      rcases List.mem_cons.mp hd with rfl | h
      · exact Or.inl rfl
      · exact Or.inr ⟨d, h, rfl⟩

open RegularExpression in
theorem mem_literal (s : List Nat) (x : List Nat) : x ∈ (literal s).matches' ↔ x = s := by
  induction s generalizing x with
  | nil =>
    have e : literal [] = (1 : RegularExpression Nat) := rfl
    rw [e, matches'_epsilon, Language.mem_one]
  | cons c s ih =>
    have e : literal (c :: s) = char c * literal s := rfl
    rw [e, matches'_mul, Language.mem_mul, matches'_char]
    constructor
    · rintro ⟨a, ha, b, hb, rfl⟩
      rw [(ih b).mp hb, Set.mem_singleton_iff.mp ha]
      rfl
    · rintro rfl
      exact ⟨[c], rfl, s, (ih s).mpr rfl, rfl⟩

open RegularExpression in
theorem mem_star_charClass (cs : List Nat) (x : List Nat) :
    x ∈ (charClass cs).star.matches' ↔ ∀ b, b ∈ x → b ∈ cs := by
  rw [matches'_star, Language.mem_kstar]
  constructor
  · rintro ⟨L, rfl, hL⟩ b hb
    obtain ⟨y, hy, hby⟩ := List.mem_flatten.mp hb
    obtain ⟨c, hc, rfl⟩ := (mem_charClass cs y).mp (hL y hy)
    rw [List.mem_singleton.mp hby]
    exact hc
  · intro h
    refine ⟨x.map fun b => [b], ?_, fun y hy => ?_⟩
    · induction x with
      | nil => rfl
      | cons b x ih =>
        simp only [List.map_cons, List.flatten_cons, List.singleton_append, List.cons.injEq,
          true_and]
        exact ih fun b hb => h b (List.mem_cons_of_mem _ hb)
    · obtain ⟨b, hb, rfl⟩ := List.mem_map.mp hy
      exact (mem_charClass cs [b]).mpr ⟨b, h b hb, rfl⟩

theorem mem_charRange (lo hi : Char) (b : Nat) :
    b ∈ charRange lo hi ↔ lo.toNat ≤ b ∧ b ≤ hi.toNat := by
  unfold charRange
  rw [List.mem_map]
  constructor
  · rintro ⟨k, hk, rfl⟩
    have := List.mem_range.mp hk
    omega
  · rintro ⟨h1, h2⟩
    exact ⟨b - lo.toNat, List.mem_range.mpr (by omega), by omega⟩

/-- The class of the pattern is the set of the specification. -/
theorem mem_nameClass (b : Nat) : b ∈ nameClass ↔ inNameSet b := by
  unfold nameClass inNameSet
  simp only [List.mem_append, mem_charRange, List.mem_singleton]
  tauto

/-- What the pattern matches. -/
theorem rmatch_validTopicChannelNameRegex (name : List Nat) :
    validTopicChannelNameRegex.rmatch name = true ↔
      ∃ body, body ≠ [] ∧ (∀ b, b ∈ body → inNameSet b) ∧
        (name = body ∨ name = body ++ ascii "#ephemeral") := by
  rw [RegularExpression.rmatch_iff_matches']
  unfold validTopicChannelNameRegex
  simp only [RegularExpression.matches'_mul, RegularExpression.matches'_add,
    RegularExpression.matches'_epsilon, Language.mem_mul, Language.mem_add, Language.mem_one,
    mem_charClass, mem_star_charClass, mem_literal]
  constructor
  · rintro ⟨a, ⟨h, ⟨c, hc, rfl⟩, t, ht, rfl⟩, s, hs, rfl⟩
    refine ⟨[c] ++ t, by simp, fun b hb => ?_, ?_⟩
    · rcases List.mem_append.mp hb with h1 | h1
      · rw [List.mem_singleton.mp h1]; exact (mem_nameClass c).mp hc
      · exact (mem_nameClass b).mp (ht b h1)
    · rcases hs with rfl | rfl
      · left; simp
      · right; rfl
  · rintro ⟨body, hne, hall, hname⟩
    obtain ⟨c, t, rfl⟩ := List.exists_cons_of_ne_nil hne
    refine ⟨c :: t, ⟨[c], ⟨c, (mem_nameClass c).mpr (hall c (List.mem_cons_self _ _)), rfl⟩, t,
      fun b hb => (mem_nameClass b).mpr (hall b (List.mem_cons_of_mem _ hb)), rfl⟩, ?_⟩
    rcases hname with rfl | rfl
    · exact ⟨[], Or.inl rfl, by simp⟩
    · exact ⟨ascii "#ephemeral", Or.inr rfl, rfl⟩

theorem isValidName_iff (name : List Nat) : isValidName name = true ↔ ValidNameSpec name := by
  unfold isValidName ValidNameSpec
  by_cases h : name.length > 64 ∨ name.length < 1
  · rw [if_pos h]
    constructor
    · intro hf; exact absurd hf (by simp)
    · rintro ⟨h1, h2, -⟩; omega
  · rw [if_neg h, rmatch_validTopicChannelNameRegex]
    constructor
    · intro hb; exact ⟨by omega, by omega, hb⟩
    · rintro ⟨-, -, hb⟩; exact hb

/-- C10: `IsValidTopicName(name)` and `IsValidChannelName(name)` both return true
if and only if `1 <= len(name) <= 64` and `name` consists of one or more
characters of the set `[.a-zA-Z0-9_-]`, optionally followed by the suffix
`#ephemeral`, which counts toward the limit of 64; every name that contains a
character outside the set and other than `#`, such as `$`, is rejected. -/
theorem name_validation (name : List Nat) :
    (IsValidTopicName name = true ↔ ValidNameSpec name) ∧
    (IsValidChannelName name = true ↔ ValidNameSpec name) ∧
    (∀ b, b ∈ name → ¬ inNameSet b → b ≠ '#'.toNat →
      IsValidTopicName name = false ∧ IsValidChannelName name = false) ∧
    ('$'.toNat ∈ name → IsValidTopicName name = false ∧ IsValidChannelName name = false) := by
  have hrej : ∀ b, b ∈ name → ¬ inNameSet b → b ≠ '#'.toNat → isValidName name = false := by
    intro b hb hset hhash
    rw [← Bool.not_eq_true, isValidName_iff]
    rintro ⟨-, -, body, -, hall, rfl | rfl⟩
    · exact hset (hall b hb)
    · rcases List.mem_append.mp hb with h | h
      · exact hset (hall b h)
      · have hs : ∀ c, c ∈ ascii "#ephemeral" → c = '#'.toNat ∨ inNameSet c := by decide
        rcases hs b h with h1 | h1
        · exact hhash h1
        · exact hset h1
  refine ⟨isValidName_iff name, isValidName_iff name, fun b hb hset hhash => ?_, fun hd => ?_⟩
  · exact ⟨hrej b hb hset hhash, hrej b hb hset hhash⟩
  · exact ⟨hrej _ hd (by decide) (by decide), hrej _ hd (by decide) (by decide)⟩

theorem name_validation_witness :
    ValidNameSpec (ascii "orders.v1#ephemeral") ∧
    IsValidTopicName (ascii "orders.v1#ephemeral") = true ∧
    '$'.toNat ∈ ascii "orders$" ∧
    IsValidTopicName (ascii "orders$") = false ∧ IsValidChannelName (ascii "orders$") = false :=
  have hspec : ValidNameSpec (ascii "orders.v1#ephemeral") :=
    ⟨by decide, by decide, ascii "orders.v1", by decide, by decide, Or.inr rfl⟩
  ⟨hspec, (name_validation (ascii "orders.v1#ephemeral")).1.mpr hspec, by decide,
    (name_validation (ascii "orders$")).2.2.2 (by decide)⟩

end client

/-! ## Properties of the functions that read a response -/

namespace client

theorem bigEndianUint32_be32 (n : Nat) (h : n < 2 ^ 32) (rest : List Byte) :
    bigEndianUint32 (be32 n ++ rest) = n := by
  simp only [bigEndianUint32, be32, List.cons_append, List.nil_append, List.getD_cons_succ,
    List.getD_cons_zero]
  omega

theorem toInt32_of_lt (n : Nat) (h : n < 2 ^ 31) : toInt32 n = n := by
  unfold toInt32
  rw [Int.emod_eq_of_lt (by omega) (by omega)]
  omega

theorem toInt32_range (n : Nat) : -(2 : Int) ^ 31 ≤ toInt32 n ∧ toInt32 n < 2 ^ 31 := by
  unfold toInt32
  have h1 := Int.emod_nonneg ((n : Int) + 2 ^ 31) (by norm_num : (2 : Int) ^ 32 ≠ 0)
  have h2 := Int.emod_lt_of_pos ((n : Int) + 2 ^ 31) (by norm_num : (0 : Int) < 2 ^ 32)
  constructor <;> omega

theorem toInt32_emod (n : Nat) : toInt32 n % 2 ^ 32 = (n : Int) % 2 ^ 32 := by
  unfold toInt32
  omega

theorem readFull_ok (r : Reader) (n : Nat) (h : n ≤ r.length) :
    readFull r n = (.ok (r.take n), r.drop n) := by
  unfold readFull; rw [if_pos h]

theorem readFull_error (r : Reader) (n : Nat) (h : r.length < n) :
    ∃ e, readFull r n = (.error e, []) := by
  unfold readFull; rw [if_neg (by omega)]; exact ⟨_, rfl⟩

theorem bigEndianUint32_cons (b0 b1 b2 b3 : Byte) (rest : List Byte) :
    ((bigEndianUint32 (b0 :: b1 :: b2 :: b3 :: rest) : Nat) : Int) =
      (bigEndianValue b0 b1 b2 b3 : Int) := by
  simp only [bigEndianUint32, bigEndianValue, List.getD_cons_succ, List.getD_cons_zero]
  push_cast
  ring

theorem ReadResponse_of_readFull (r r1 r2 : Reader) (bs buf : List Byte)
    (h1 : readFull r 4 = (.ok bs, r1)) (h2 : ¬ toInt32 (bigEndianUint32 bs) < 0)
    (h3 : readFull r1 (toInt32 (bigEndianUint32 bs)).toNat = (.ok buf, r2)) :
    ReadResponse r = (.ok buf, r2) := by
  unfold ReadResponse
  rw [h1]
  simp only
  rw [if_neg h2, h3]

theorem ReadUnpackedResponse_of_ok (r r1 : Reader) (resp : List Byte)
    (h : ReadResponse r = (.ok resp, r1)) :
    ReadUnpackedResponse r = (UnpackResponse resp, r1) := by
  unfold ReadUnpackedResponse
  rw [h]

theorem UnpackResponse_of_le (b : List Byte) (h : 4 ≤ b.length) :
    UnpackResponse b = (toInt32 (bigEndianUint32 b), some (b.drop 4), none) := by
  unfold UnpackResponse
  rw [if_neg (by omega)]

theorem length_be32 (n : Nat) : (be32 n).length = 4 := rfl

/-- C11: for a frame type `t` among 0 (Response), 1 (Error) and 2 (Message), a
payload `p` with `len(p) + 4 < 2^31` and any following bytes `rest`,
`ReadUnpackedResponse` on the stream `BE32(len(p) + 4) ++ BE32(t) ++ p ++ rest`
returns `(t, p, nil)` and leaves the reader at `rest`: it has consumed the
`8 + len(p)` bytes of the frame. -/
theorem ReadUnpackedResponse_frame (t : Int) (p rest : List Byte)
    (ht : t = FrameTypeResponse ∨ t = FrameTypeError ∨ t = FrameTypeMessage)
    (hp : p.length + 4 < 2 ^ 31) :
    ReadUnpackedResponse (be32 (p.length + 4) ++ be32 t.toNat ++ p ++ rest) =
      ((t, some p, none), rest) ∧
    (be32 (p.length + 4) ++ be32 t.toNat ++ p ++ rest).length = 8 + p.length + rest.length := by
  have htn : t.toNat < 2 ^ 31 ∧ (t.toNat : Int) = t := by
    rcases ht with rfl | rfl | rfl <;> decide
  refine ⟨?_, by simp only [List.length_append, length_be32]⟩
  have e1 : readFull (be32 (p.length + 4) ++ be32 t.toNat ++ p ++ rest) 4 =
      (.ok (be32 (p.length + 4)), be32 t.toNat ++ p ++ rest) := by
    rw [readFull_ok _ _ (by simp only [List.length_append, length_be32]; omega)]
    simp only [List.append_assoc]
    rw [List.take_left' (length_be32 _), List.drop_left' (length_be32 _)]
  have e2 : bigEndianUint32 (be32 (p.length + 4)) = p.length + 4 := by
    have := bigEndianUint32_be32 (p.length + 4) (by omega) []
    rwa [List.append_nil] at this
  have hl : (be32 t.toNat ++ p).length = p.length + 4 := by
    simp only [List.length_append, length_be32]; omega
  have e3 : readFull (be32 t.toNat ++ p ++ rest)
      (toInt32 (bigEndianUint32 (be32 (p.length + 4)))).toNat =
      (.ok (be32 t.toNat ++ p), rest) := by
    rw [e2, toInt32_of_lt _ hp, Int.toNat_ofNat,
      readFull_ok _ _ (by simp only [List.length_append, length_be32]; omega),
      List.take_left' hl, List.drop_left' hl]
  have e4 := ReadResponse_of_readFull _ _ _ _ _ e1
    (by rw [e2, toInt32_of_lt _ hp]; omega) e3
  rw [ReadUnpackedResponse_of_ok _ _ _ e4, UnpackResponse_of_le _ (by omega),
    bigEndianUint32_be32 t.toNat (by omega) p, toInt32_of_lt _ htn.1, htn.2,
    List.drop_left' (length_be32 _)]

theorem ReadUnpackedResponse_frame_witness :
    ((2 : Int) = FrameTypeResponse ∨ (2 : Int) = FrameTypeError ∨ (2 : Int) = FrameTypeMessage) ∧
    ([7, 8, 9] : List Byte).length + 4 < 2 ^ 31 ∧
    ReadUnpackedResponse (be32 (([7, 8, 9] : List Byte).length + 4) ++ be32 (2 : Int).toNat ++
        [7, 8, 9] ++ [1, 1]) = ((2, some [7, 8, 9], none), [1, 1]) :=
  ⟨by decide, by decide,
    (ReadUnpackedResponse_frame 2 [7, 8, 9] [1, 1] (by decide) (by decide)).1⟩

/-- C12: `UnpackResponse(b)` returns an error if and only if `len(b) < 4`, and
then the frame type is -1 and the data is nil; otherwise the frame type is the
32-bit signed integer whose big-endian encoding is the first four bytes of `b`,
the data is `b[4:]` and the error is nil. -/
theorem UnpackResponse_contract (b : List Byte) :
    ((UnpackResponse b).2.2 ≠ none ↔ b.length < 4) ∧
    (b.length < 4 → UnpackResponse b = (-1, none, some .tooSmall)) ∧
    (∀ b0 b1 b2 b3 data, b = b0 :: b1 :: b2 :: b3 :: data →
      ∃ ft : Int, UnpackResponse b = (ft, some data, none) ∧
        -(2 : Int) ^ 31 ≤ ft ∧ ft < 2 ^ 31 ∧
        ft % 2 ^ 32 = (bigEndianValue b0 b1 b2 b3 : Int) % 2 ^ 32) := by
  refine ⟨?_, fun h => ?_, fun b0 b1 b2 b3 data hb => ?_⟩
  · unfold UnpackResponse
    by_cases h : b.length < 4
    · simp [h]
    · simp [h]
  · unfold UnpackResponse; rw [if_pos h]
  · subst hb
    refine ⟨toInt32 (bigEndianUint32 (b0 :: b1 :: b2 :: b3 :: data)), ?_, (toInt32_range _).1,
      (toInt32_range _).2, ?_⟩
    · unfold UnpackResponse
      rw [if_neg (by simp)]
      rfl
    · rw [toInt32_emod, bigEndianUint32_cons]

theorem UnpackResponse_contract_witness :
    UnpackResponse [0, 0, 1] = (-1, none, some .tooSmall) ∧
    ∃ ft : Int, UnpackResponse [255, 255, 255, 254, 7] = (ft, some [7], none) ∧
      -(2 : Int) ^ 31 ≤ ft ∧ ft < 2 ^ 31 ∧
      ft % 2 ^ 32 = (bigEndianValue 255 255 255 254 : Int) % 2 ^ 32 :=
  ⟨(UnpackResponse_contract [0, 0, 1]).2.1 (by decide),
    (UnpackResponse_contract [255, 255, 255, 254, 7]).2.2 255 255 255 254 [7] rfl⟩

/-- C13: `ReadResponse` reads four bytes as a big-endian signed 32-bit size and
then returns exactly the next `size` bytes, leaving the reader after them.  It
returns an error, and no data, when fewer than four bytes are available, when the
size is negative, and when fewer than `size` bytes follow the prefix; in every
other case it succeeds, a size of 0 giving the empty result. -/
theorem ReadResponse_contract (r : Reader) :
    (r.length < 4 → ∃ e r', ReadResponse r = (.error e, r')) ∧
    (∀ b0 b1 b2 b3 rest, r = b0 :: b1 :: b2 :: b3 :: rest →
      ∃ size : Int, -(2 : Int) ^ 31 ≤ size ∧ size < 2 ^ 31 ∧
        size % 2 ^ 32 = (bigEndianValue b0 b1 b2 b3 : Int) % 2 ^ 32 ∧
        (size < 0 → ReadResponse r = (.error (.negativeSize size), rest)) ∧
        (0 ≤ size → (rest.length : Int) < size → ∃ e r', ReadResponse r = (.error e, r')) ∧
        (0 ≤ size → size ≤ rest.length →
          ReadResponse r = (.ok (rest.take size.toNat), rest.drop size.toNat)) ∧
        (size = 0 → ReadResponse r = (.ok [], rest))) := by
  refine ⟨fun h => ?_, fun b0 b1 b2 b3 rest hr => ?_⟩
  · obtain ⟨e, he⟩ := readFull_error r 4 h
    exact ⟨e, [], by unfold ReadResponse; rw [he]⟩
  · subst hr
    have e1 : readFull (b0 :: b1 :: b2 :: b3 :: rest) 4 = (.ok [b0, b1, b2, b3], rest) := by
      rw [readFull_ok _ _ (by simp)]; rfl
    have e0 : bigEndianUint32 [b0, b1, b2, b3] = bigEndianUint32 (b0 :: b1 :: b2 :: b3 :: rest) :=
      rfl
    have hpos : ∀ size : Int, size = toInt32 (bigEndianUint32 [b0, b1, b2, b3]) → 0 ≤ size →
        size ≤ rest.length →
        ReadResponse (b0 :: b1 :: b2 :: b3 :: rest) =
          (.ok (rest.take size.toNat), rest.drop size.toNat) := by
      intro size hs h0 hle
      unfold ReadResponse
      rw [e1]
      simp only [← hs]
      rw [if_neg (by omega), readFull_ok _ _ (by omega)]
    refine ⟨toInt32 (bigEndianUint32 [b0, b1, b2, b3]), (toInt32_range _).1, (toInt32_range _).2,
      by rw [toInt32_emod, e0, bigEndianUint32_cons], fun hneg => ?_, fun h0 hlt => ?_,
      hpos _ rfl, fun hz => ?_⟩
    · unfold ReadResponse
      rw [e1]
      simp only
      rw [if_pos hneg]
    · obtain ⟨e, he⟩ := readFull_error rest (toInt32 (bigEndianUint32 [b0, b1, b2, b3])).toNat
        (by omega)
      refine ⟨e, [], ?_⟩
      unfold ReadResponse
      rw [e1]
      simp only
      rw [if_neg (by omega), he]
    · have := hpos _ rfl (by omega) (by omega)
      rw [hz] at this
      simpa using this

theorem ReadResponse_contract_witness :
    (∃ e r', ReadResponse [0, 0, 1] = (.error e, r')) ∧
    ∃ size : Int, size % 2 ^ 32 = (bigEndianValue 0 0 0 2 : Int) % 2 ^ 32 ∧
      (0 ≤ size → size ≤ ([5, 6, 7] : List Byte).length →
        ReadResponse [0, 0, 0, 2, 5, 6, 7] =
          (.ok (([5, 6, 7] : List Byte).take size.toNat), ([5, 6, 7] : List Byte).drop size.toNat)) :=
  ⟨(ReadResponse_contract [0, 0, 1]).1 (by decide),
    match (ReadResponse_contract [0, 0, 0, 2, 5, 6, 7]).2 0 0 0 2 [5, 6, 7] rfl with
    | ⟨size, _, _, h3, _, _, h6, _⟩ => ⟨size, h3, h6⟩⟩

end client

/-! ## Properties of the request parameters -/

namespace http_api

theorem Get_of_absent (r : ReqParams) (key : String) (h : r.Values key = none) :
    r.Get key = some ("", some "key not in query params") := by
  unfold ReqParams.Get; rw [h]

theorem Get_of_present (r : ReqParams) (key v : String) (vs : List String)
    (h : r.Values key = some (v :: vs)) : r.Get key = some (v, none) := by
  unfold ReqParams.Get; rw [h]

theorem Values_cases (r : ReqParams) (hwf : r.WellFormed) (key : String) :
    r.Values key = none ∨ ∃ v vs, r.Values key = some (v :: vs) := by
  cases h : r.Values key with
  | none => exact Or.inl rfl
  | some l =>
    cases l with
    | nil => exact absurd h (hwf key)
    | cons v vs => exact Or.inr ⟨v, vs, rfl⟩

/-- C14: on request parameters in which every present key has a value,
`GetTopicChannelArgs` returns, and it reports the first failing check in the order
topic absent (`MISSING_ARG_TOPIC`), topic invalid (`INVALID_ARG_TOPIC`), channel
absent (`MISSING_ARG_CHANNEL`), channel invalid (`INVALID_ARG_CHANNEL`); it returns
`(topic, channel, nil)` if and only if both keys are present and their first
values, which are then the topic and the channel, are valid; and on every error
both returned names are empty. -/
theorem GetTopicChannelArgs_contract (isValidTopicName isValidChannelName : String → Bool)
    (r : ReqParams) (hwf : r.WellFormed) :
    (r.Values "topic" = none →
      GetTopicChannelArgs isValidTopicName isValidChannelName r.Get =
        some ("", "", some "MISSING_ARG_TOPIC")) ∧
    (∀ t ts, r.Values "topic" = some (t :: ts) → isValidTopicName t = false →
      GetTopicChannelArgs isValidTopicName isValidChannelName r.Get =
        some ("", "", some "INVALID_ARG_TOPIC")) ∧
    (∀ t ts, r.Values "topic" = some (t :: ts) → isValidTopicName t = true →
      r.Values "channel" = none →
      GetTopicChannelArgs isValidTopicName isValidChannelName r.Get =
        some ("", "", some "MISSING_ARG_CHANNEL")) ∧
    (∀ t ts c cs, r.Values "topic" = some (t :: ts) → isValidTopicName t = true →
      r.Values "channel" = some (c :: cs) → isValidChannelName c = false →
      GetTopicChannelArgs isValidTopicName isValidChannelName r.Get =
        some ("", "", some "INVALID_ARG_CHANNEL")) ∧
    (∀ t c, GetTopicChannelArgs isValidTopicName isValidChannelName r.Get = some (t, c, none) ↔
      ∃ ts cs, r.Values "topic" = some (t :: ts) ∧ isValidTopicName t = true ∧
        r.Values "channel" = some (c :: cs) ∧ isValidChannelName c = true) ∧
    (∃ t c e, GetTopicChannelArgs isValidTopicName isValidChannelName r.Get = some (t, c, e) ∧
      (e ≠ none → t = "" ∧ c = "")) := by
  have hmt : r.Values "topic" = none →
      GetTopicChannelArgs isValidTopicName isValidChannelName r.Get =
        some ("", "", some "MISSING_ARG_TOPIC") := by
    intro h
    unfold GetTopicChannelArgs
    rw [Get_of_absent r _ h]
    rfl
  have hit : ∀ t ts, r.Values "topic" = some (t :: ts) → isValidTopicName t = false →
      GetTopicChannelArgs isValidTopicName isValidChannelName r.Get =
        some ("", "", some "INVALID_ARG_TOPIC") := by
    intro t ts h hv
    unfold GetTopicChannelArgs
    rw [Get_of_present r _ t ts h]
    simp [hv]
  have hmc : ∀ t ts, r.Values "topic" = some (t :: ts) → isValidTopicName t = true →
      r.Values "channel" = none →
      GetTopicChannelArgs isValidTopicName isValidChannelName r.Get =
        some ("", "", some "MISSING_ARG_CHANNEL") := by
    intro t ts h hv hc
    unfold GetTopicChannelArgs
    rw [Get_of_present r _ t ts h, Get_of_absent r _ hc]
    simp [hv]
  have hic : ∀ t ts c cs, r.Values "topic" = some (t :: ts) → isValidTopicName t = true →
      r.Values "channel" = some (c :: cs) → isValidChannelName c = false →
      GetTopicChannelArgs isValidTopicName isValidChannelName r.Get =
        some ("", "", some "INVALID_ARG_CHANNEL") := by
    intro t ts c cs h hv hc hvc
    unfold GetTopicChannelArgs
    rw [Get_of_present r _ t ts h, Get_of_present r _ c cs hc]
    simp [hv, hvc]
  have hok : ∀ t ts c cs, r.Values "topic" = some (t :: ts) → isValidTopicName t = true →
      r.Values "channel" = some (c :: cs) → isValidChannelName c = true →
      GetTopicChannelArgs isValidTopicName isValidChannelName r.Get = some (t, c, none) := by
    intro t ts c cs h hv hc hvc
    unfold GetTopicChannelArgs
    rw [Get_of_present r _ t ts h, Get_of_present r _ c cs hc]
    simp [hv, hvc]
  -- the five cases cover every well-formed request
  have hcases : ∀ P : Option (String × String × Option String) → Prop,
      P (some ("", "", some "MISSING_ARG_TOPIC")) → P (some ("", "", some "INVALID_ARG_TOPIC")) →
      P (some ("", "", some "MISSING_ARG_CHANNEL")) →
      P (some ("", "", some "INVALID_ARG_CHANNEL")) →
      (∀ t ts c cs, r.Values "topic" = some (t :: ts) → isValidTopicName t = true →
        r.Values "channel" = some (c :: cs) → isValidChannelName c = true →
        P (some (t, c, none))) →
      P (GetTopicChannelArgs isValidTopicName isValidChannelName r.Get) := by
    intro P p1 p2 p3 p4 p5
    rcases Values_cases r hwf "topic" with h | ⟨t, ts, h⟩
    · rw [hmt h]; exact p1
    · cases hv : isValidTopicName t with
      | false => rw [hit t ts h hv]; exact p2
      | true =>
        rcases Values_cases r hwf "channel" with hc | ⟨c, cs, hc⟩
        · rw [hmc t ts h hv hc]; exact p3
        · cases hvc : isValidChannelName c with
          | false => rw [hic t ts c cs h hv hc hvc]; exact p4
          | true => rw [hok t ts c cs h hv hc hvc]; exact p5 t ts c cs h hv hc hvc
  refine ⟨hmt, hit, hmc, hic, fun t c => ⟨?_, ?_⟩, ?_⟩
  · refine hcases (fun res => res = some (t, c, none) → ∃ ts cs, r.Values "topic" = some (t :: ts) ∧
      isValidTopicName t = true ∧ r.Values "channel" = some (c :: cs) ∧
      isValidChannelName c = true) ?_ ?_ ?_ ?_ ?_
    · intro h; simp at h
    · intro h; simp at h
    · intro h; simp at h
    · intro h; simp at h
    · intro t' ts c' cs h hv hc hvc e
      simp only [Option.some.injEq, Prod.mk.injEq, and_true] at e
      obtain ⟨rfl, rfl⟩ := e
      exact ⟨ts, cs, h, hv, hc, hvc⟩
  · rintro ⟨ts, cs, h, hv, hc, hvc⟩
    exact hok t ts c cs h hv hc hvc
  · refine hcases (fun res => ∃ t c e, res = some (t, c, e) ∧ (e ≠ none → t = "" ∧ c = ""))
      ?_ ?_ ?_ ?_ ?_
    · exact ⟨_, _, _, rfl, fun _ => ⟨rfl, rfl⟩⟩
    · exact ⟨_, _, _, rfl, fun _ => ⟨rfl, rfl⟩⟩
    · exact ⟨_, _, _, rfl, fun _ => ⟨rfl, rfl⟩⟩
    · exact ⟨_, _, _, rfl, fun _ => ⟨rfl, rfl⟩⟩
    · intro t ts c cs _ _ _ _
      exact ⟨t, c, none, rfl, fun h => absurd rfl h⟩

theorem exParams_wellFormed : exParams.WellFormed := by
  intro key
  unfold exParams
  simp only
  split
  · simp
  · split <;> simp

theorem GetTopicChannelArgs_contract_witness :
    exParams.WellFormed ∧
    GetTopicChannelArgs exValid exValid exParams.Get = some ("", "", some "INVALID_ARG_CHANNEL") :=
  ⟨exParams_wellFormed,
    (GetTopicChannelArgs_contract exValid exValid exParams exParams_wellFormed).2.2.2.1
      "orders" [] "bad$name" [] rfl (by decide) rfl (by decide)⟩

end http_api

/-! ## Properties of the handlers of the administration server -/

namespace admin

/-- A request is authorized exactly when no admin user is configured or the value
of the ACL header is one of the admin users. -/
theorem isAuthorizedAdminRequest_iff (opts : Options) (req : Request) :
    isAuthorizedAdminRequest opts req = true ↔
      opts.AdminUsers = [] ∨ req.Header opts.AclHttpHeader ∈ opts.AdminUsers := by
  unfold isAuthorizedAdminRequest
  by_cases h : opts.AdminUsers.length = 0
  · rw [if_pos h]
    simp [List.length_eq_zero.mp h]
  · rw [if_neg h]
    have hne : opts.AdminUsers ≠ [] := fun e => h (by rw [e]; rfl)
    simp only [List.any_eq_true, beq_iff_eq, hne, false_or]
    constructor
    · rintro ⟨v, hv, rfl⟩; exact hv
    · intro hv; exact ⟨_, hv, rfl⟩

/-- The handlers that ask `isAuthorizedAdminRequest` answer 403 FORBIDDEN, and do
nothing, to a request that it does not authorize; with no admin user every request
is authorized. -/
theorem guarded_handlers_forbidden (env : Env) (opts : Options) (req : Request)
    (topicName channelName : String) :
    (opts.AdminUsers = [] → isAuthorizedAdminRequest opts req = true) ∧
    (opts.AdminUsers ≠ [] → req.Header opts.AclHttpHeader ∉ opts.AdminUsers →
      createTopicChannelHandler env opts req = (.err 403 "FORBIDDEN", []) ∧
      deleteTopicHandler env opts req topicName = (.err 403 "FORBIDDEN", []) ∧
      deleteChannelHandler env opts req topicName channelName = (.err 403 "FORBIDDEN", []) ∧
      topicActionHandler env opts req topicName = (.err 403 "FORBIDDEN", []) ∧
      channelActionHandler env opts req topicName channelName = (.err 403 "FORBIDDEN", [])) := by
  refine ⟨fun h => (isAuthorizedAdminRequest_iff opts req).mpr (Or.inl h), fun h1 h2 => ?_⟩
  have hna : isAuthorizedAdminRequest opts req = false := by
    rw [← Bool.not_eq_true, isAuthorizedAdminRequest_iff]
    exact fun h => h.elim h1 h2
  refine ⟨?_, ?_, ?_, ?_, ?_⟩
  · unfold createTopicChannelHandler; simp [hna]
  · unfold deleteTopicHandler; simp [hna]
  · unfold deleteChannelHandler; simp [hna]
  · unfold topicActionHandler topicChannelAction; simp [hna]
  · unfold channelActionHandler topicChannelAction; simp [hna]

/-- C15, at a request that the claim has rejected: with the admin user "matt"
configured, a request of the user "eve" is not authorized, and yet
`tombstoneNodeForTopicHandler`, which does not ask `isAuthorizedAdminRequest`,
tombstones the node and returns a message instead of 403 FORBIDDEN. -/
theorem tombstone_not_guarded :
    exOpts.AdminUsers ≠ [] ∧ exRequest.Header exOpts.AclHttpHeader ∉ exOpts.AdminUsers ∧
    isAuthorizedAdminRequest exOpts exRequest = false ∧
    tombstoneNodeForTopicHandler exEnv exOpts exRequest "node1" =
      (.message "", [.call (.TombstoneNodeForTopic "orders" "node1")]) ∧
    deleteTopicHandler exEnv exOpts exRequest "orders" = (.err 403 "FORBIDDEN", []) := by
  refine ⟨by decide, by decide, by decide, by decide, by decide⟩

end admin

/-! ## Properties of the loop that keeps the lookup peers -/

namespace engine

theorem isIn_iff (s : String) (lst : List String) : isIn s lst = true ↔ s ∈ lst := by
  induction lst with
  | nil => simp [isIn]
  | cons v rest ih =>
    unfold isIn
    by_cases h : s = v
    · simp [h]
    · simp [h, ih]

theorem foldl_keepPeer (cfg : List String) (peers : List lookupPeer) :
    ∀ acc : List lookupPeer × List String × List lookupPeer,
      peers.foldl (keepPeer cfg) acc =
        (acc.1 ++ peers.filter (fun lp => isIn lp.addr cfg),
         acc.2.1 ++ (peers.filter (fun lp => isIn lp.addr cfg)).map lookupPeer.addr,
         acc.2.2 ++ peers.filter (fun lp => !isIn lp.addr cfg)) := by
  induction peers with
  | nil => intro acc; simp
  | cons lp peers ih =>
    intro acc
    rw [List.foldl_cons, ih]
    unfold keepPeer
    by_cases h : isIn lp.addr cfg = true
    · simp [h]
    · simp [h]

/-- What the connect loop does: it keeps the peers it has, in their order, and
adds one new peer for each address that it does not have yet. -/
theorem foldl_connectHost (cfg : List String) :
    ∀ st : LookupState, st.lookupAddrs = st.lookupPeers.map lookupPeer.addr →
      (st.lookupPeers.map lookupPeer.addr).Nodup →
      ∃ added : List lookupPeer,
        (cfg.foldl connectHost st).lookupPeers = st.lookupPeers ++ added ∧
        (cfg.foldl connectHost st).lookupAddrs =
          (cfg.foldl connectHost st).lookupPeers.map lookupPeer.addr ∧
        ((cfg.foldl connectHost st).lookupPeers.map lookupPeer.addr).Nodup ∧
        (∀ a, a ∈ (cfg.foldl connectHost st).lookupAddrs ↔ a ∈ st.lookupAddrs ∨ a ∈ cfg) ∧
        (∀ p, p ∈ added → st.made ≤ p.ref) ∧
        (cfg.foldl connectHost st).closed = st.closed ∧
        (cfg.foldl connectHost st).connect = st.connect := by
  induction cfg with
  | nil =>
    intro st h1 h2
    exact ⟨[], by simp, h1, h2, by simp, by simp, rfl, rfl⟩
  | cons host cfg ih =>
    intro st h1 h2
    rw [List.foldl_cons]
    by_cases hin : isIn host st.lookupAddrs = true
    · have e : connectHost st host = st := by unfold connectHost; rw [if_pos hin]
      rw [e]
      obtain ⟨added, a1, a2, a3, a4, a5, a6, a7⟩ := ih st h1 h2
      refine ⟨added, a1, a2, a3, fun a => ?_, a5, a6, a7⟩
      rw [a4 a, List.mem_cons]
      have := (isIn_iff host st.lookupAddrs).mp hin
      constructor
      · rintro (h | h)
        · exact Or.inl h
        · exact Or.inr (Or.inr h)
      · rintro (h | rfl | h)
        · exact Or.inl h
        · exact Or.inl this
        · exact Or.inr h
    · have hnot : host ∉ st.lookupAddrs := fun h => hin ((isIn_iff _ _).mpr h)
      have e : connectHost st host =
          { st with
            lookupPeers := st.lookupPeers ++ [newLookupPeer host st.made],
            lookupAddrs := st.lookupAddrs ++ [host],
            made := st.made + 1 } := by
        unfold connectHost; rw [if_neg hin]
      rw [e]
      obtain ⟨added, a1, a2, a3, a4, a5, a6, a7⟩ := ih
        { st with
          lookupPeers := st.lookupPeers ++ [newLookupPeer host st.made],
          lookupAddrs := st.lookupAddrs ++ [host],
          made := st.made + 1 }
        (by simp [h1, newLookupPeer])
        (by
          simp only [List.map_append, List.map_cons, List.map_nil, newLookupPeer]
          rw [List.nodup_append]
          refine ⟨h2, List.nodup_singleton _, ?_⟩
          intro a ha hb
          rw [List.mem_singleton] at hb
          subst hb
          exact hnot (h1 ▸ ha))
      refine ⟨newLookupPeer host st.made :: added, ?_, a2, a3, fun a => ?_, fun p hp => ?_, a6, a7⟩
      · rw [a1]; simp
      · rw [a4 a]
        simp only [List.mem_append, List.mem_singleton, List.mem_cons]
        tauto
      · rcases List.mem_cons.mp hp with rfl | h
        · exact le_refl _
        · have := a5 p h
          simp only at this
          omega

/-- C16: from a state of `lookupLoop` in which the peers have distinct addresses,
after the loop has processed the options-change notification and the connect step that
follows, with the configured addresses `cfg`: the addresses of the peers are
exactly the configured ones, each configured address being the address of exactly
one peer; and the peers whose address is still configured are the same objects as
before, in their order, before the new ones. -/
theorem lookupLoop_reconfigure (cfg : List String) (st : LookupState)
    (hnodup : (st.lookupPeers.map lookupPeer.addr).Nodup) :
    (∀ a, a ∈ (connectStep cfg (optsNotification cfg st)).lookupPeers.map lookupPeer.addr ↔
      a ∈ cfg) ∧
    (∀ a, a ∈ cfg →
      ((connectStep cfg (optsNotification cfg st)).lookupPeers.map lookupPeer.addr).count a = 1) ∧
    (∀ p, p ∈ st.lookupPeers → p.addr ∈ cfg →
      p ∈ (connectStep cfg (optsNotification cfg st)).lookupPeers) ∧
    (∃ added : List lookupPeer,
      (connectStep cfg (optsNotification cfg st)).lookupPeers =
        st.lookupPeers.filter (fun lp => decide (lp.addr ∈ cfg)) ++ added ∧
      (∀ p, p ∈ added → st.made ≤ p.ref ∧ p.addr ∉ st.lookupPeers.map lookupPeer.addr)) ∧
    (connectStep cfg (optsNotification cfg st)).lookupAddrs =
      (connectStep cfg (optsNotification cfg st)).lookupPeers.map lookupPeer.addr ∧
    (connectStep cfg (optsNotification cfg st)).connect = false := by
  have hfilter : (fun lp : lookupPeer => isIn lp.addr cfg) = fun lp => decide (lp.addr ∈ cfg) := by
    funext lp
    by_cases h : lp.addr ∈ cfg
    · simp [h, (isIn_iff _ _).mpr h]
    · have : isIn lp.addr cfg = false := by
        rw [← Bool.not_eq_true, isIn_iff]; exact h
      simp [h, this]
  -- the state after the notification
  have hopts : optsNotification cfg st =
      { st with
        lookupPeers := st.lookupPeers.filter (fun lp => decide (lp.addr ∈ cfg)),
        lookupAddrs := (st.lookupPeers.filter (fun lp => decide (lp.addr ∈ cfg))).map lookupPeer.addr,
        connect := true,
        closed := st.closed ++ st.lookupPeers.filter (fun lp => !isIn lp.addr cfg) } := by
    unfold optsNotification
    simp only [foldl_keepPeer, List.nil_append, hfilter]
  have hsub : ((st.lookupPeers.filter (fun lp => decide (lp.addr ∈ cfg))).map lookupPeer.addr).Nodup :=
    (List.Sublist.map _ (List.filter_sublist _)).nodup hnodup
  obtain ⟨added, a1, a2, a3, a4, a5, -, -⟩ := foldl_connectHost cfg (optsNotification cfg st)
    (by rw [hopts]) (by rw [hopts]; exact hsub)
  have hstep : connectStep cfg (optsNotification cfg st) =
      { cfg.foldl connectHost (optsNotification cfg st) with connect := false } := by
    unfold connectStep
    rw [if_pos (by rw [hopts])]
  have hpeers : (connectStep cfg (optsNotification cfg st)).lookupPeers =
      st.lookupPeers.filter (fun lp => decide (lp.addr ∈ cfg)) ++ added := by
    rw [hstep]
    show (cfg.foldl connectHost (optsNotification cfg st)).lookupPeers = _
    rw [a1, hopts]
  have hmem : ∀ a, a ∈ (connectStep cfg (optsNotification cfg st)).lookupPeers.map lookupPeer.addr ↔
      a ∈ cfg := by
    intro a
    rw [hstep]
    show a ∈ (cfg.foldl connectHost (optsNotification cfg st)).lookupPeers.map lookupPeer.addr ↔ _
    rw [← a2, a4 a, hopts]
    simp only [List.mem_map, List.mem_filter, decide_eq_true_eq]
    constructor
    · rintro (⟨p, ⟨-, hp⟩, rfl⟩ | h)
      · exact hp
      · exact h
    · exact fun h => Or.inr h
  have hnd : ((connectStep cfg (optsNotification cfg st)).lookupPeers.map lookupPeer.addr).Nodup := by
    rw [hstep]; exact a3
  refine ⟨hmem, fun a ha => ?_, fun p hp hcfg => ?_, ⟨added, hpeers, fun p hp => ⟨?_, ?_⟩⟩, ?_, ?_⟩
  · exact List.count_eq_one_of_mem hnd ((hmem a).mpr ha)
  · rw [hpeers]
    exact List.mem_append_left _ (List.mem_filter.mpr ⟨hp, by simpa using hcfg⟩)
  · have := a5 p hp
    rw [hopts] at this
    exact this
  · -- a new peer has an address that no peer had
    intro hold
    have hc : p.addr ∈ cfg := (hmem p.addr).mp (by
      rw [hpeers]; exact List.mem_map_of_mem _ (List.mem_append_right _ hp))
    obtain ⟨q, hq, hqa⟩ := List.mem_map.mp hold
    have hq' : q ∈ st.lookupPeers.filter (fun lp => decide (lp.addr ∈ cfg)) :=
      List.mem_filter.mpr ⟨hq, by simpa [hqa] using hc⟩
    rw [hpeers, List.map_append, List.nodup_append] at hnd
    exact hnd.2.2 (List.mem_map_of_mem _ hq') (hqa ▸ List.mem_map_of_mem _ hp)
  · rw [hstep]; exact a2
  · rw [hstep]

theorem lookupLoop_reconfigure_witness :
    (exLookup.lookupPeers.map lookupPeer.addr).Nodup ∧
    (connectStep ["b", "c", "c"] (optsNotification ["b", "c", "c"] exLookup)).lookupPeers =
      [newLookupPeer "b" 1, newLookupPeer "c" 2] ∧
    (∀ a, a ∈ ["b", "c", "c"] →
      ((connectStep ["b", "c", "c"] (optsNotification ["b", "c", "c"] exLookup)).lookupPeers.map
        lookupPeer.addr).count a = 1) :=
  ⟨by decide, by decide,
    (lookupLoop_reconfigure ["b", "c", "c"] exLookup (by decide)).2.1⟩

end engine

/-! ## Properties of the handler of the options -/

namespace admin

theorem getOptByCfgName_log_level (opts : Options) :
    getOptByCfgName opts "log_level" = some (.int opts.LogLevel) := rfl

theorem getOptByCfgName_addresses (opts : Options) :
    getOptByCfgName opts "emslookupd_http_addresses" = some (.strs opts.EMSLookupdHTTPAddresses) :=
  rfl

theorem doConfig_of_put (env : ConfigEnv) (stored : Options) (req : Request) (opt : String)
    (hput : req.Method = "PUT")
    (hallowed : stored.AllowConfigFromCIDR = "" ∨
      env.checkAddr stored.AllowConfigFromCIDR req.RemoteAddr = .inside) :
    doConfig env stored req opt =
      match doConfigPut env stored req opt with
      | (some e, stored1) => some (e, stored1)
      | (none, stored1) =>
        match getOptByCfgName stored1 opt with
        | none => some (.err 400 "INVALID_OPTION", stored1)
        | some v => some (.value v, stored1) := by
  have hcheck : (if stored.AllowConfigFromCIDR ≠ "" then
      env.checkAddr stored.AllowConfigFromCIDR req.RemoteAddr else AddrCheck.inside) = .inside := by
    rcases hallowed with h | h
    · rw [if_neg (by simp [h])]
    · split
      · exact h
      · rfl
  unfold doConfig
  simp only [hcheck, hput, if_true]

/-- What the part of `doConfig` for PUT does with a body that it can read. -/
theorem doConfigPut_cases (env : ConfigEnv) (stored : Options) (req : Request) (opt : String)
    (hread : req.BodyReadError = false) :
    ((req.Body.length = 0 ∨ readMax ≤ req.Body.length) →
      doConfigPut env stored req opt = (some (.err 413 "INVALID_VALUE"), stored)) ∧
    (0 < req.Body.length → req.Body.length < readMax →
      (opt ≠ "emslookupd_http_addresses" → opt ≠ "log_level" →
        doConfigPut env stored req opt = (some (.err 400 "INVALID_OPTION"), stored)) ∧
      (opt = "log_level" → env.ParseLogLevel req.Body = none →
        doConfigPut env stored req opt = (some (.err 400 "INVALID_VALUE"), stored)) ∧
      (∀ l, opt = "log_level" → env.ParseLogLevel req.Body = some l →
        doConfigPut env stored req opt = (none, { stored with LogLevel := l })) ∧
      (opt = "emslookupd_http_addresses" →
        (env.unmarshalAddresses req.Body stored.EMSLookupdHTTPAddresses).err = true →
        doConfigPut env stored req opt = (some (.err 400 "INVALID_VALUE"),
          { stored with EMSLookupdHTTPAddresses :=
              (env.unmarshalAddresses req.Body stored.EMSLookupdHTTPAddresses).stored })) ∧
      (opt = "emslookupd_http_addresses" →
        (env.unmarshalAddresses req.Body stored.EMSLookupdHTTPAddresses).err = false →
        doConfigPut env stored req opt = (none,
          { stored with EMSLookupdHTTPAddresses :=
              (env.unmarshalAddresses req.Body stored.EMSLookupdHTTPAddresses).value }))) := by
  have hlen : (req.Body.take readMax).length = min readMax req.Body.length := List.length_take _ _
  refine ⟨fun h => ?_, fun h0 h1 => ?_⟩
  · unfold doConfigPut
    rw [hread]
    simp only [Bool.false_eq_true, if_false]
    rw [if_pos (by rw [hlen]; omega)]
  · have htake : req.Body.take readMax = req.Body := List.take_of_length_le (by omega)
    have hsize : ¬ ((req.Body.take readMax).length = readMax ∨ (req.Body.take readMax).length = 0) := by
      rw [hlen]; omega
    refine ⟨fun h2 h3 => ?_, fun h2 h3 => ?_, fun l h2 h3 => ?_, fun h2 h3 => ?_, fun h2 h3 => ?_⟩
    · unfold doConfigPut
      rw [hread]
      simp only [Bool.false_eq_true, if_false]
      rw [if_neg hsize, if_neg h2, if_neg h3]
    · have hne : opt ≠ "emslookupd_http_addresses" := by rw [h2]; decide
      unfold doConfigPut
      rw [hread]
      simp only [Bool.false_eq_true, if_false]
      rw [if_neg hsize, if_neg hne, if_pos h2, htake, h3]
    · have hne : opt ≠ "emslookupd_http_addresses" := by rw [h2]; decide
      unfold doConfigPut
      rw [hread]
      simp only [Bool.false_eq_true, if_false]
      rw [if_neg hsize, if_neg hne, if_pos h2, htake, h3]
    · unfold doConfigPut
      rw [hread]
      simp only [Bool.false_eq_true, if_false]
      rw [if_neg hsize, if_pos h2, htake]
      simp only [h3, if_true]
    · unfold doConfigPut
      rw [hread]
      simp only [Bool.false_eq_true, if_false]
      rw [if_neg hsize, if_pos h2, htake]
      simp only [h3, Bool.false_eq_true, if_false]

/-- C17, as the code has it: for a PUT to `/config/<opt>` from an allowed address
with a body that can be read, `doConfig` returns.  It answers 413 to an empty body
and to a body of `1024*1024 + 1` bytes or more, whatever the option.  To another
body it answers 400 when the option name is neither `emslookupd_http_addresses`
nor `log_level`, when the option is `log_level` and the body is not a log level,
and when the option is `emslookupd_http_addresses` and `json.Unmarshal` returns an
error.  On the answer 413, on the unknown option and on the log level that does
not parse, the stored options are exactly what they were.  On the list of
addresses that does not decode the options are not swapped, and every stored
option other than that list is what it was.  Whenever the handler returns an
error, the same holds: the options are swapped only when the request is
accepted. -/
theorem doConfig_put_rejected (env : ConfigEnv) (stored : Options) (req : Request) (opt : String)
    (hput : req.Method = "PUT")
    (hallowed : stored.AllowConfigFromCIDR = "" ∨
      env.checkAddr stored.AllowConfigFromCIDR req.RemoteAddr = .inside)
    (hread : req.BodyReadError = false) :
    ∃ res stored', doConfig env stored req opt = some (res, stored') ∧
      ((req.Body.length = 0 ∨ 1024 * 1024 + 1 ≤ req.Body.length) →
        res = .err 413 "INVALID_VALUE" ∧ stored' = stored) ∧
      (0 < req.Body.length → req.Body.length < 1024 * 1024 + 1 →
        (opt ≠ "emslookupd_http_addresses" → opt ≠ "log_level" →
          res = .err 400 "INVALID_OPTION" ∧ stored' = stored) ∧
        (opt = "log_level" → env.ParseLogLevel req.Body = none →
          res = .err 400 "INVALID_VALUE" ∧ stored' = stored) ∧
        (opt = "emslookupd_http_addresses" →
          (env.unmarshalAddresses req.Body stored.EMSLookupdHTTPAddresses).err = true →
          res = .err 400 "INVALID_VALUE" ∧
          { stored' with EMSLookupdHTTPAddresses := stored.EMSLookupdHTTPAddresses } = stored)) ∧
      ((∃ code text, res = .err code text) →
        (opt ≠ "emslookupd_http_addresses" → stored' = stored) ∧
        { stored' with EMSLookupdHTTPAddresses := stored.EMSLookupdHTTPAddresses } = stored) := by
  obtain ⟨hbig, hmid⟩ := doConfigPut_cases env stored req opt hread
  have hdo := doConfig_of_put env stored req opt hput hallowed
  -- an early return of the part for PUT is the return of the handler
  have hearly : ∀ e s1, doConfigPut env stored req opt = (some e, s1) →
      doConfig env stored req opt = some (e, s1) := by
    intro e s1 h; rw [hdo, h]
  by_cases hsize : req.Body.length = 0 ∨ readMax ≤ req.Body.length
  · refine ⟨_, _, hearly _ _ (hbig hsize), fun _ => ⟨rfl, rfl⟩, fun h0 h1 => ?_,
      fun _ => ⟨fun _ => rfl, rfl⟩⟩
    exact absurd hsize (by unfold readMax; omega)
  · have h0 : 0 < req.Body.length := by omega
    have h1 : req.Body.length < readMax := by omega
    have hsize' : ¬ (req.Body.length = 0 ∨ 1024 * 1024 + 1 ≤ req.Body.length) := hsize
    obtain ⟨c1, c2, c3, c4, c5⟩ := hmid h0 h1
    by_cases ha : opt = "emslookupd_http_addresses"
    · have hnl : opt ≠ "log_level" := by rw [ha]; decide
      by_cases herr : (env.unmarshalAddresses req.Body stored.EMSLookupdHTTPAddresses).err = true
      · exact ⟨_, _, hearly _ _ (c4 ha herr), fun h => absurd h hsize', fun _ _ =>
          ⟨fun h => absurd ha h, fun h => absurd h hnl, fun _ _ => ⟨rfl, rfl⟩⟩,
          fun _ => ⟨fun h => absurd ha h, rfl⟩⟩
      · have herr' := Bool.eq_false_iff.mpr herr
        refine ⟨.value (.strs (env.unmarshalAddresses req.Body stored.EMSLookupdHTTPAddresses).value),
          { stored with EMSLookupdHTTPAddresses :=
              (env.unmarshalAddresses req.Body stored.EMSLookupdHTTPAddresses).value }, ?_, fun h => absurd h hsize', fun _ _ =>
          ⟨fun h => absurd ha h, fun h => absurd h hnl, fun _ h => absurd h herr⟩, ?_⟩
        · rw [hdo, c5 ha herr', ha]
          rfl
        · rintro ⟨code, text, h⟩; cases h
    · by_cases hl : opt = "log_level"
      · cases hp : env.ParseLogLevel req.Body with
        | none =>
          exact ⟨_, _, hearly _ _ (c2 hl hp), fun h => absurd h hsize', fun _ _ =>
            ⟨fun _ h => absurd hl h, fun _ _ => ⟨rfl, rfl⟩, fun h => absurd h ha⟩,
            fun _ => ⟨fun _ => rfl, rfl⟩⟩
        | some l =>
          refine ⟨.value (.int l), { stored with LogLevel := l }, ?_, fun h => absurd h hsize', fun _ _ =>
            ⟨fun _ h => absurd hl h, fun _ h => ?_, fun h => absurd h ha⟩, ?_⟩
          · rw [hdo, c3 l hl hp, hl]
            rfl
          · cases h
          · rintro ⟨code, text, h⟩; cases h
      · exact ⟨_, _, hearly _ _ (c1 ha hl), fun h => absurd h hsize', fun _ _ =>
          ⟨fun _ _ => ⟨rfl, rfl⟩, fun h => absurd h hl, fun h => absurd h ha⟩,
          fun _ => ⟨fun _ => rfl, rfl⟩⟩

theorem doConfig_put_rejected_witness :
    exPutBad.Method = "PUT" ∧
    (NewOptions.AllowConfigFromCIDR = "" ∨
      exConfigEnv.checkAddr NewOptions.AllowConfigFromCIDR exPutBad.RemoteAddr = .inside) ∧
    exPutBad.BodyReadError = false ∧
    ∃ res stored', doConfig exConfigEnv NewOptions exPutBad "log_level" = some (res, stored') ∧
      res = .err 400 "INVALID_VALUE" ∧ stored' = NewOptions :=
  ⟨rfl, Or.inr rfl, rfl,
    match doConfig_put_rejected exConfigEnv NewOptions exPutBad "log_level" rfl (Or.inr rfl) rfl with
    | ⟨res, stored', h1, _, h3, _⟩ =>
      ⟨res, stored', h1, (h3 (by decide) (by decide)).2.1 rfl (by decide)⟩⟩

/-- C17, as the claim has it, fails: a PUT to `/config/log_level` with an empty
body, which is not a log level, and a PUT with an empty body to an option name
that does not exist, are both answered by 413 and not by 400. -/
theorem doConfig_empty_body_413 :
    exConfigEnv.ParseLogLevel exPutEmpty.Body = none ∧
    doConfig exConfigEnv NewOptions exPutEmpty "log_level" =
      some (.err 413 "INVALID_VALUE", NewOptions) ∧
    getOptByCfgName NewOptions "no_such_option" = none ∧
    doConfig exConfigEnv NewOptions exPutEmpty "no_such_option" =
      some (.err 413 "INVALID_VALUE", NewOptions) := by
  refine ⟨by decide, by decide, by decide, by decide⟩

/-- The list of addresses that does not decode: `doConfig` decodes into a copy of
the options whose slice is that of the stored options, so that what
`json.Unmarshal` has written before it returns its error is written to the stored
list.  A PUT of `["zzz",5]` to `emslookupd_http_addresses` is answered by 400, and
the stored list `["x:1", "y:2"]` has become `["zzz", "y:2"]`; the other options
are what they were. -/
theorem doConfig_rejected_list_written :
    doConfig exSharedEnv exSharedOpts exPutList "emslookupd_http_addresses" =
      some (.err 400 "INVALID_VALUE",
        { exSharedOpts with EMSLookupdHTTPAddresses := ["zzz", "y:2"] }) ∧
    exSharedOpts.EMSLookupdHTTPAddresses = ["x:1", "y:2"] := by
  refine ⟨by decide, by decide⟩

end admin

/-! ## Properties of the start of the administration server -/

namespace admin

theorem prefix3_append (a b : String) (h : 3 ≤ a.length) : prefix3 (a ++ b) = prefix3 a := by
  unfold prefix3
  rw [String.data_append, List.take_append_of_le_length h]

theorem Later_ok {α : Type} (a : α) (calls : List NewCall) : Later (.ok a, calls) := by
  intro e h; cases h

theorem Later_error {α : Type} (p rest : String) (calls : List NewCall) (h3 : 3 ≤ p.length)
    (hp : prefix3 p = ['f', 'a', 'i'] ∨ prefix3 p = ['l', 'i', 's']) :
    Later ((.error (p ++ rest), calls) : Step α) := by
  intro e h
  cases h
  rw [prefix3_append p rest h3]
  exact hp

theorem Later_andThen {α β : Type} (r : Step α) (f : α → List NewCall → Step β)
    (hr : Later r) (hf : ∀ a calls, Later (f a calls)) : Later (andThen r f) := by
  obtain ⟨x, calls⟩ := r
  cases x with
  | error e =>
    intro e' h
    simp only [andThen] at h
    have he := Except.error.inj h
    subst he
    exact hr e rfl
  | ok a =>
    intro e' h
    simp only [andThen] at h
    exact hf a calls e' h

theorem Later_resolveAll (env : NewEnv) (flagName : String) (addresses : List String) :
    ∀ calls, Later (resolveAll env flagName addresses calls) := by
  induction addresses with
  | nil => intro calls; exact Later_ok _ _
  | cons address rest ih =>
    intro calls
    unfold resolveAll
    cases env.ResolveTCPAddr address with
    | some err => exact Later_error _ _ _ (by decide) (Or.inl (by decide))
    | none => exact ih _

theorem Later_newValidated (env : NewEnv) (opts : Options) : Later (newValidated env opts) := by
  unfold newValidated
  refine Later_andThen _ _ ?_ fun certificates calls => ?_
  · split
    · split
      · exact Later_error _ _ _ (by decide) (Or.inl (by decide))
      · exact Later_ok _ _
    · exact Later_ok _ _
  refine Later_andThen _ _ ?_ fun rootCAs calls => ?_
  · split
    · split
      · exact Later_error _ _ _ (by decide) (Or.inl (by decide))
      · split
        · exact Later_error _ _ _ (by decide) (Or.inl (by decide))
        · exact Later_ok _ _
    · exact Later_ok _ _
  refine Later_andThen _ _ (Later_resolveAll _ _ _ _) fun _ calls => ?_
  refine Later_andThen _ _ (Later_resolveAll _ _ _ _) fun _ calls => ?_
  refine Later_andThen _ _ ?_ fun graphiteURL calls => ?_
  · split
    · split
      · exact Later_error _ _ _ (by decide) (Or.inl (by decide))
      · exact Later_ok _ _
    · exact Later_ok _ _
  refine Later_andThen _ _ ?_ fun _ calls => ?_
  · split
    · split
      · exact Later_error _ _ _ (by decide) (Or.inl (by decide))
      · exact Later_ok _ _
    · exact Later_ok _ _
  simp only
  split
  · exact Later_error _ _ _ (by decide) (Or.inr (by decide))
  · exact Later_ok _ _

/-- C18: `New` fails with the error "--emsd-http-address or --lookupd-http-address
required" if and only if `EMSDHTTPAddresses` and `EMSLookupdHTTPAddresses` are both
empty, and with the error "use --emsd-http-address or --lookupd-http-address not
both" if and only if both are non-empty; in both cases no call that validates
another option has been made and no listener has been opened. -/
theorem New_address_checks (env : NewEnv) (opts : Options) :
    ((New env opts).1 = .error "--emsd-http-address or --lookupd-http-address required" ↔
      opts.EMSDHTTPAddresses = [] ∧ opts.EMSLookupdHTTPAddresses = []) ∧
    ((New env opts).1 = .error "use --emsd-http-address or --lookupd-http-address not both" ↔
      opts.EMSDHTTPAddresses ≠ [] ∧ opts.EMSLookupdHTTPAddresses ≠ []) ∧
    (opts.EMSDHTTPAddresses = [] ∧ opts.EMSLookupdHTTPAddresses = [] → (New env opts).2 = []) ∧
    (opts.EMSDHTTPAddresses ≠ [] ∧ opts.EMSLookupdHTTPAddresses ≠ [] → (New env opts).2 = []) := by
  -- the options after the logger has been set
  obtain ⟨o, ho, hd, hl⟩ : ∃ o : Options,
      o = (if opts.Logger = false then { opts with Logger := true } else opts) ∧
      o.EMSDHTTPAddresses = opts.EMSDHTTPAddresses ∧
      o.EMSLookupdHTTPAddresses = opts.EMSLookupdHTTPAddresses := by
    refine ⟨_, rfl, ?_, ?_⟩ <;> split <;> rfl
  have hnew : New env opts =
      if o.EMSDHTTPAddresses.length = 0 ∧ o.EMSLookupdHTTPAddresses.length = 0 then
        (.error "--emsd-http-address or --lookupd-http-address required", [])
      else if o.EMSDHTTPAddresses.length ≠ 0 ∧ o.EMSLookupdHTTPAddresses.length ≠ 0 then
        (.error "use --emsd-http-address or --lookupd-http-address not both", [])
      else if o.HTTPClientTLSCert ≠ "" ∧ o.HTTPClientTLSKey = "" then
        (.error "--http-client-tls-key must be specified with --http-client-tls-cert", [])
      else if o.HTTPClientTLSKey ≠ "" ∧ o.HTTPClientTLSCert = "" then
        (.error "--http-client-tls-cert must be specified with --http-client-tls-key", [])
      else newValidated env o := by
    rw [ho]; rfl
  rw [hnew, hd, hl]
  simp only [List.length_eq_zero, ne_eq]
  have hlater := Later_newValidated env o
  by_cases h1 : opts.EMSDHTTPAddresses = [] ∧ opts.EMSLookupdHTTPAddresses = []
  · rw [if_pos h1]
    refine ⟨⟨fun _ => h1, fun _ => rfl⟩, ⟨fun h => ?_, fun h => absurd h1.1 h.1⟩,
      fun _ => rfl, fun _ => rfl⟩
    exact absurd (Except.error.inj h) (by decide)
  · rw [if_neg h1]
    by_cases h2 : ¬ opts.EMSDHTTPAddresses = [] ∧ ¬ opts.EMSLookupdHTTPAddresses = []
    · rw [if_pos h2]
      refine ⟨⟨fun h => ?_, fun h => absurd h h1⟩, ⟨fun _ => h2, fun _ => rfl⟩,
        fun _ => rfl, fun _ => rfl⟩
      exact absurd (Except.error.inj h) (by decide)
    · rw [if_neg h2]
      refine ⟨⟨fun h => ?_, fun h => absurd h h1⟩, ⟨fun h => ?_, fun h => absurd h h2⟩,
        fun h => absurd h h1, fun h => absurd h h2⟩
      · exfalso
        split at h
        · exact absurd (Except.error.inj h) (by decide)
        · split at h
          · exact absurd (Except.error.inj h) (by decide)
          · rcases hlater _ h with h' | h' <;> exact absurd h' (by decide)
      · exfalso
        split at h
        · exact absurd (Except.error.inj h) (by decide)
        · split at h
          · exact absurd (Except.error.inj h) (by decide)
          · rcases hlater _ h with h' | h' <;> exact absurd h' (by decide)

theorem New_address_checks_witness :
    New exNewEnv NewOptions =
      (.error "--emsd-http-address or --lookupd-http-address required", []) ∧
    (New exNewEnv exBothOpts).1 =
      .error "use --emsd-http-address or --lookupd-http-address not both" ∧
    (New exNewEnv exBothOpts).2 = [] :=
  ⟨Prod.ext ((New_address_checks exNewEnv NewOptions).1.mpr ⟨rfl, rfl⟩)
      ((New_address_checks exNewEnv NewOptions).2.2.1 ⟨rfl, rfl⟩),
    (New_address_checks exNewEnv exBothOpts).2.1.mpr ⟨by decide, by decide⟩,
    (New_address_checks exNewEnv exBothOpts).2.2.2 ⟨by decide, by decide⟩⟩

end admin

/-! ## Properties of publishing the input -/

namespace to_ems

theorem ReadBytes_of_mem (r : client.Reader) (delim : client.Byte) (h : delim ∈ r) :
    ReadBytes r delim =
      (nextChunk r delim ++ [delim], none, (r.dropWhile fun b => b ≠ delim).drop 1) := by
  induction r with
  | nil => simp at h
  | cons b rest ih =>
    unfold ReadBytes nextChunk
    by_cases hb : b = delim
    · subst hb; simp
    · have hm : delim ∈ rest := by
        rcases List.mem_cons.mp h with h1 | h1
        · exact absurd h1.symm hb
        · exact h1
      rw [if_neg hb, ih hm]
      simp [hb, nextChunk]

theorem ReadBytes_of_not_mem (r : client.Reader) (delim : client.Byte) (h : delim ∉ r) :
    ReadBytes r delim = (r, some .EOF, []) ∧ nextChunk r delim = r := by
  induction r with
  | nil => exact ⟨rfl, rfl⟩
  | cons b rest ih =>
    have hb : b ≠ delim := fun e => h (e ▸ List.mem_cons_self _ _)
    have hm : delim ∉ rest := fun e => h (List.mem_cons_of_mem _ e)
    obtain ⟨i1, i2⟩ := ih hm
    constructor
    · unfold ReadBytes
      rw [if_neg hb, i1]
    · unfold nextChunk at i2 ⊢
      rw [List.takeWhile_cons_of_pos (by simpa using hb), i2]

theorem publishAll_ok (publish : String → List client.Byte → Option String)
    (line : List client.Byte) (producers : List String)
    (h : ∀ p, p ∈ producers → publish p line = none) :
    publishAll publish line producers = (none, producers.map fun p => (p, line)) := by
  induction producers with
  | nil => rfl
  | cons p rest ih =>
    unfold publishAll
    rw [h p (List.mem_cons_self _ _), ih fun q hq => h q (List.mem_cons_of_mem _ hq)]
    rfl

/-- What `readAndPublish` does when every producer accepts what it is given: on a
chunk that ends with the delimiter it gives the chunk, without the delimiter, to
every producer, and nothing when the chunk is empty; on a last chunk that the end
of the input ends, it gives the chunk without its last byte, and nothing when that
is empty. -/
theorem readAndPublish_effect (publish : String → List client.Byte → Option String)
    (r : client.Reader) (delim : client.Byte) (producers : List String)
    (hok : ∀ p line, publish p line = none) :
    (delim ∈ r →
      readAndPublish publish r delim producers =
        (none, (r.dropWhile fun b => b ≠ delim).drop 1,
          if nextChunk r delim = [] then []
          else producers.map fun p => (p, nextChunk r delim))) ∧
    (delim ∉ r →
      readAndPublish publish r delim producers =
        (some .EOF, [],
          if r.dropLast = [] then [] else producers.map fun p => (p, r.dropLast))) := by
  constructor
  · intro h
    unfold readAndPublish
    rw [ReadBytes_of_mem r delim h]
    have hd : (if (nextChunk r delim ++ [delim]).length > 0
        then (nextChunk r delim ++ [delim]).take ((nextChunk r delim ++ [delim]).length - 1)
        else nextChunk r delim ++ [delim]) = nextChunk r delim := by
      rw [if_pos (by simp)]
      simp
    simp only
    rw [hd]
    by_cases he : nextChunk r delim = []
    · simp [he]
    · have hl : ¬ (nextChunk r delim).length = 0 := fun e => he (List.length_eq_zero.mp e)
      rw [if_neg hl, if_neg he, publishAll_ok publish _ producers fun p _ => hok p _]
  · intro h
    unfold readAndPublish
    rw [(ReadBytes_of_not_mem r delim h).1]
    simp only
    have hd : (if r.length > 0 then r.take (r.length - 1) else r) = r.dropLast := by
      rw [List.dropLast_eq_take]
      split
      · rfl
      · have : r = [] := List.length_eq_zero.mp (by omega)
        rw [this]; rfl
    rw [hd]
    by_cases he : r.dropLast = []
    · simp [he]
    · have hl : ¬ r.dropLast.length = 0 := fun e => he (List.length_eq_zero.mp e)
      rw [if_neg hl, if_neg he, publishAll_ok publish _ producers fun p _ => hok p _]

/-- C19, at an input that the code handles otherwise than the claim says: the
input "abc" has no delimiter (the delimiter is the line feed), so its one chunk is
"abc"; `readAndPublish` gives the producer "ab", without the last byte, and on the
input "a" it gives nothing. -/
theorem readAndPublish_drops_last_byte :
    nextChunk [97, 98, 99] 10 = [97, 98, 99] ∧
    readAndPublish (fun _ _ => none) [97, 98, 99] 10 ["emsd1"] =
      (some .EOF, [], [("emsd1", [97, 98])]) ∧
    nextChunk [97] 10 = [97] ∧
    readAndPublish (fun _ _ => none) [97] 10 ["emsd1"] = (some .EOF, [], []) ∧
    readAndPublish (fun _ _ => none) [97, 98, 99, 10, 100] 10 ["emsd1"] =
      (none, [100], [("emsd1", [97, 98, 99])]) := by
  refine ⟨by decide, by decide, by decide, by decide, by decide⟩

end to_ems

/-! ## Properties of filtering messages by a JSON field -/

namespace ems_to_ems

/-- After the caching step the handler holds the conversion of a non-empty `V`. -/
theorem cacheConversion_holds {F : Type} (ParseFloat : String → F × Bool) (V : String)
    (ph : PublishHandler F) (hc : CacheOf ParseFloat V ph) (hV : V ≠ "") :
    (cacheConversion ParseFloat V ph).requireJSONValueIsNumber = (ParseFloat V).2 ∧
    (cacheConversion ParseFloat V ph).requireJSONNumber = (ParseFloat V).1 := by
  unfold cacheConversion
  by_cases hp : ph.requireJSONValueParsed = false
  · rw [if_pos ⟨hV, hp⟩]; exact ⟨rfl, rfl⟩
  · rw [if_neg fun h => hp h.2]
    rcases hc with h | h
    · exact absurd h hp
    · exact h

/-- The caching step keeps the cache that of `V`. -/
theorem cacheConversion_cacheOf {F : Type} (ParseFloat : String → F × Bool) (V : String)
    (ph : PublishHandler F) (hc : CacheOf ParseFloat V ph) :
    CacheOf ParseFloat V (cacheConversion ParseFloat V ph) := by
  unfold cacheConversion
  by_cases hp : V ≠ "" ∧ ph.requireJSONValueParsed = false
  · rw [if_pos hp]; exact Or.inr ⟨rfl, rfl⟩
  · rw [if_neg hp]; exact hc

/-- The handler after `shouldPassMessage` is the handler given, when the field
name is empty, and the handler after the caching step otherwise. -/
theorem shouldPassMessage_handler {F : Type} (feq : F → F → Bool)
    (ParseFloat : String → F × Bool) (Fd V : String) (ph : PublishHandler F)
    (js : String → Option (JSONValue F)) :
    (shouldPassMessage feq ParseFloat Fd V ph js).2 =
      if Fd = "" then ph else cacheConversion ParseFloat V ph := by
  unfold shouldPassMessage
  by_cases h : Fd = ""
  · rw [if_pos h, if_pos h]
  · rw [if_neg h, if_neg h]
    generalize cacheConversion ParseFloat V ph = ph1
    cases js Fd with
    | none => simp only; split <;> rfl
    | some v =>
      simp only
      split
      · cases v with
        | string s => simp only; split <;> rfl
        | number f =>
          simp only
          split
          · split <;> rfl
          · rfl
        | other => rfl
      · rfl

/-- C20: `shouldPassMessage`, on a handler that has cached nothing or the
conversion of the value `V` of the flag.  With an empty field name it passes every
object and asks for no backoff.  With a field name `Fd` the object passes exactly
when it has the field and `V` is empty or the value of the field equals `V` (as
strings for a string, as numbers for a number when `V` is a number, never for
another type); backoff is asked for exactly when the field is absent and `V` is
not empty.  The handler afterwards has again cached nothing or the conversion of
`V`. -/
theorem shouldPassMessage_contract {F : Type} (feq : F → F → Bool)
    (ParseFloat : String → F × Bool) (Fd V : String) (ph : PublishHandler F)
    (js : String → Option (JSONValue F)) (hc : CacheOf ParseFloat V ph) :
    (Fd = "" → (shouldPassMessage feq ParseFloat Fd V ph js).1 = (true, false)) ∧
    (Fd ≠ "" →
      ((shouldPassMessage feq ParseFloat Fd V ph js).1.1 = true ↔
        ∃ v, js Fd = some v ∧ (V = "" ∨ valueEquals feq ParseFloat V v)) ∧
      ((shouldPassMessage feq ParseFloat Fd V ph js).1.2 = true ↔
        js Fd = none ∧ V ≠ "")) ∧
    CacheOf ParseFloat V (shouldPassMessage feq ParseFloat Fd V ph js).2 := by
  refine ⟨?_, ?_, ?_⟩
  · intro h
    unfold shouldPassMessage
    rw [if_pos h]
  · intro h
    unfold shouldPassMessage
    rw [if_neg h]
    by_cases hV : V = ""
    · cases hj : js Fd with
      | none => simp [hV]
      | some v => simp [hV]
    · obtain ⟨c1, c2⟩ := cacheConversion_holds ParseFloat V ph hc hV
      generalize cacheConversion ParseFloat V ph = ph1 at c1 c2 ⊢
      cases hj : js Fd with
      | none => simp [hV]
      | some v =>
        cases v with
        | string s =>
          by_cases hs : s = V
          · simp [hs, hV, valueEquals]
          · simp [hs, hV, valueEquals]
        | number f =>
          by_cases hn : (ParseFloat V).2 = true
          · by_cases hf : feq f (ParseFloat V).1 = true
            · simp [hn, hf, hV, valueEquals, c1, c2]
            · simp [hn, hf, hV, valueEquals, c1, c2]
          · simp [hn, hV, valueEquals, c1, c2]
        | other => simp [hV, valueEquals]
  · rw [shouldPassMessage_handler]
    split
    · exact hc
    · exact cacheConversion_cacheOf ParseFloat V ph hc

theorem shouldPassMessage_contract_witness :
    CacheOf exParseFloat "5" exHandler ∧
    ((shouldPassMessage (fun a b => a == b) exParseFloat "n" "5" exHandler exObject).1.1 = true ↔
      ∃ v, exObject "n" = some v ∧
        ("5" = "" ∨ valueEquals (fun a b => a == b) exParseFloat "5" v)) ∧
    (shouldPassMessage (fun a b => a == b) exParseFloat "n" "5" exHandler exObject).1 =
      (true, false) ∧
    (shouldPassMessage (fun a b => a == b) exParseFloat "s" "5" exHandler exObject).1 =
      (false, false) ∧
    (shouldPassMessage (fun a b => a == b) exParseFloat "x" "5" exHandler exObject).1 =
      (false, true) :=
  ⟨Or.inl rfl,
    ((shouldPassMessage_contract (fun a b => a == b) exParseFloat "n" "5" exHandler exObject
      (Or.inl rfl)).2.1 (by decide)).1,
    by decide, by decide, by decide⟩

end ems_to_ems

/-! ## Properties of the queues reachable from a given capacity -/

namespace engine

/-- A call of `Push` that returns keeps the capacity invariant. -/
theorem CapInv.of_Push {mem mem' : Memory} {pq pq' : inFlightPqueue} {x : MsgRef}
    (h : CapInv pq) (e : Push mem pq x = some (mem', pq')) : CapInv pq' := by
  obtain ⟨h1, h2⟩ := h
  obtain ⟨m1, q1, e1, l1, -, -, -, -, -, c1⟩ := Push_spec mem pq x (by omega)
  rw [e1] at e
  simp only [Option.some.injEq, Prod.mk.injEq] at e
  obtain ⟨rfl, rfl⟩ := e
  unfold CapInv
  rw [c1, l1]
  split <;> omega

/-- A call of `Pop` that returns keeps the capacity invariant. -/
theorem CapInv.of_Pop {mem mem' : Memory} {pq pq' : inFlightPqueue} {x : MsgRef}
    (h : CapInv pq) (e : Pop mem pq = some (mem', pq', x)) : CapInv pq' := by
  obtain ⟨h1, h2⟩ := h
  obtain ⟨m1, q1, e1, l1, -, -, -, -, -, -, c1⟩ := Pop_spec mem pq (Pop_some_ne e)
  rw [e1] at e
  simp only [Option.some.injEq, Prod.mk.injEq] at e
  obtain ⟨rfl, rfl, rfl⟩ := e
  unfold CapInv
  rw [c1]
  split <;> omega

/-- A call of `Remove` that returns keeps the capacity invariant. -/
theorem CapInv.of_Remove {mem mem' : Memory} {pq pq' : inFlightPqueue} {i : Int} {x : MsgRef}
    (h : CapInv pq) (e : Remove mem pq i = some (mem', pq', x)) : CapInv pq' := by
  obtain ⟨h1, h2⟩ := h
  obtain ⟨h0, hlt⟩ := Remove_some_lt e
  obtain ⟨n, rfl⟩ := Int.eq_ofNat_of_zero_le h0
  obtain ⟨m1, q1, e1, l1, -, -, -, -, -, -, c1⟩ := Remove_spec mem pq n (by exact_mod_cast hlt)
  rw [e1] at e
  simp only [Option.some.injEq, Prod.mk.injEq] at e
  obtain ⟨rfl, rfl, rfl⟩ := e
  unfold CapInv
  rw [c1]
  omega

/-- The method `PeekAndShift` returns on every queue; the queue afterwards is the
queue given or the one that `Pop` leaves. -/
theorem PeekAndShift_total (mem : Memory) (pq : inFlightPqueue) (max : Int) :
    ∃ mem' pq' r d, PeekAndShift mem pq max = some (mem', pq', r, d) ∧
      (pq' = pq ∨ ∃ x, Pop mem pq = some (mem', pq', x)) := by
  by_cases he : pq.items = []
  · exact ⟨mem, pq, none, 0, PeekAndShift_empty mem pq max he, Or.inl rfl⟩
  · by_cases hgt : (mem (pq.items.getD 0 0)).pri > max
    · exact ⟨mem, pq, none, _, PeekAndShift_wait mem pq max he hgt, Or.inl rfl⟩
    · obtain ⟨m1, q1, e1, -⟩ := Pop_spec mem pq he
      refine ⟨m1, q1, some (pq.items.getD 0 0), 0, ?_, Or.inr ⟨_, e1⟩⟩
      rw [PeekAndShift_shift mem pq max he hgt, e1]
      rfl

/-- A call of `PeekAndShift` keeps the capacity invariant. -/
theorem CapInv.of_PeekAndShift {mem mem' : Memory} {pq pq' : inFlightPqueue} {max : Int}
    {r : Option MsgRef} {d : Int} (h : CapInv pq)
    (e : PeekAndShift mem pq max = some (mem', pq', r, d)) : CapInv pq' := by
  obtain ⟨m1, q1, r1, d1, e1, hq⟩ := PeekAndShift_total mem pq max
  rw [e1] at e
  simp only [Option.some.injEq, Prod.mk.injEq] at e
  obtain ⟨rfl, rfl, rfl, rfl⟩ := e
  rcases hq with rfl | ⟨x, ex⟩
  · exact h
  · exact h.of_Pop ex

/-- Every queue reachable from a capacity of at least 1 has the capacity
invariant. -/
theorem ReachableFrom.capInv {c : Nat} (hc : 1 ≤ c) {mem : Memory} {pq : inFlightPqueue}
    (h : ReachableFrom c mem pq) : CapInv pq := by
  induction h with
  | init mem => exact ⟨hc, Nat.zero_le _⟩
  | push x _ e ih => exact ih.of_Push e
  | pop x _ e ih => exact ih.of_Pop e
  | remove i x _ e ih => exact ih.of_Remove e
  | peekAndShift max r d _ e ih => exact ih.of_PeekAndShift e
  | write mem' _ ih => exact ih

/-- C22: for an initial capacity `c >= 1`, every queue reachable from
`newInFlightPqueue(c)` by `Push`, `Pop` on a non-empty queue, `Remove` with a
valid index and `PeekAndShift` has a capacity of at least 1 and of at least its
length; on such a queue `Push` of any message returns, and so do `PeekAndShift`,
the empty queue included, `Pop` when the queue is not empty and `Remove` of an
index in range, and the queues they leave are reachable again. -/
theorem reachable_capacity (c : Nat) (hc : 1 ≤ c) (mem : Memory) (pq : inFlightPqueue)
    (h : ReachableFrom c mem pq) :
    1 ≤ pq.cap ∧ pq.items.length ≤ pq.cap ∧
    (∀ x, ∃ mem' pq', Push mem pq x = some (mem', pq') ∧ ReachableFrom c mem' pq') ∧
    (∀ max, ∃ mem' pq' r d, PeekAndShift mem pq max = some (mem', pq', r, d) ∧
      ReachableFrom c mem' pq') ∧
    (pq.items ≠ [] → ∃ mem' pq' x, Pop mem pq = some (mem', pq', x) ∧
      ReachableFrom c mem' pq') ∧
    (∀ i : Nat, i < pq.items.length → ∃ mem' pq' x, Remove mem pq i = some (mem', pq', x) ∧
      ReachableFrom c mem' pq') := by
  obtain ⟨h1, h2⟩ := h.capInv hc
  refine ⟨h1, h2, fun x => ?_, fun max => ?_, fun hne => ?_, fun i hi => ?_⟩
  · obtain ⟨m1, q1, e1, -⟩ := Push_spec mem pq x (by omega)
    exact ⟨m1, q1, e1, h.push x e1⟩
  · obtain ⟨m1, q1, r1, d1, e1, -⟩ := PeekAndShift_total mem pq max
    exact ⟨m1, q1, r1, d1, e1, h.peekAndShift max r1 d1 e1⟩
  · obtain ⟨m1, q1, e1, -⟩ := Pop_spec mem pq hne
    exact ⟨m1, q1, _, e1, h.pop _ e1⟩
  · obtain ⟨m1, q1, e1, -⟩ := Remove_spec mem pq i hi
    exact ⟨m1, q1, _, e1, h.remove _ _ e1⟩

theorem reachable_capacity_witness :
    1 ≤ 1 ∧ ReachableFrom 1 twoMem twoQueue ∧
    1 ≤ twoQueue.cap ∧ twoQueue.items.length ≤ twoQueue.cap ∧
    (∀ x, ∃ mem' pq', Push twoMem twoQueue x = some (mem', pq') ∧ ReachableFrom 1 mem' pq') ∧
    (∀ max, ∃ mem' pq' r d, PeekAndShift twoMem twoQueue max = some (mem', pq', r, d) ∧
      ReachableFrom 1 mem' pq') ∧
    (twoQueue.items ≠ [] → ∃ mem' pq' x, Pop twoMem twoQueue = some (mem', pq', x) ∧
      ReachableFrom 1 mem' pq') ∧
    (∀ i : Nat, i < twoQueue.items.length →
      ∃ mem' pq' x, Remove twoMem twoQueue i = some (mem', pq', x) ∧
        ReachableFrom 1 mem' pq') :=
  have h0 : ReachableFrom 1 exMem (newInFlightPqueue 1) := ReachableFrom.init exMem
  have h1 : ReachableFrom 1 (setIndex exMem 0 0) { items := [0], cap := 1 } :=
    ReachableFrom.push 0 h0 rfl
  have h2 : ReachableFrom 1 twoMem twoQueue := ReachableFrom.push 1 h1 rfl
  ⟨le_refl 1, h2, reachable_capacity 1 (le_refl 1) twoMem twoQueue h2⟩

/-- With the initial capacity 0 the first `Push` fails: the slice of capacity
`0 * 2` cannot be extended to length 1. -/
theorem Push_capacity_zero (mem : Memory) (x : MsgRef) :
    Push mem (newInFlightPqueue 0) x = none := by
  have h := Push_isSome_iff mem (newInFlightPqueue 0) x
  cases e : Push mem (newInFlightPqueue 0) x with
  | none => rfl
  | some r =>
    rw [e] at h
    have := h.mp rfl
    simp [newInFlightPqueue] at this

end engine

/-! ## Properties of the authorizations -/

namespace auth

theorem channelsAllow_spec (re : Regexp) (channel : String) (cs : List String)
    (hc : ∀ c, c ∈ cs → (re.Compile c).isSome = true) :
    ∃ b, channelsAllow re channel cs = some b ∧
      (b = true ↔ ∃ c, c ∈ cs ∧ Matches re c channel) := by
  induction cs with
  | nil => exact ⟨false, rfl, by simp⟩
  | cons c rest ih =>
    obtain ⟨b, hb, hiff⟩ := ih fun d hd => hc d (List.mem_cons_of_mem _ hd)
    obtain ⟨r, hr⟩ := Option.isSome_iff_exists.mp (hc c (List.mem_cons_self _ _))
    unfold channelsAllow
    rw [hr]
    by_cases hm : r channel = true
    · refine ⟨true, by simp only [hm, if_true], ?_⟩
      simp only [true_iff]
      exact ⟨c, List.mem_cons_self _ _, r, hr, hm⟩
    · refine ⟨b, by simp only [hm, hb]; rfl, ?_⟩
      rw [hiff]
      constructor
      · rintro ⟨d, hd, hmd⟩
        exact ⟨d, List.mem_cons_of_mem _ hd, hmd⟩
      · rintro ⟨d, hd, hmd⟩
        rcases List.mem_cons.mp hd with rfl | hd
        · obtain ⟨r', hr', hm'⟩ := hmd
          rw [hr] at hr'
          cases hr'
          exact absurd hm' hm
        · exact ⟨d, hd, hmd⟩

theorem Authorization.IsAllowed_spec (re : Regexp) (a : Authorization) (topic channel : String)
    (ht : (re.Compile a.Topic).isSome = true)
    (hc : ∀ c, c ∈ a.Channels → (re.Compile c).isSome = true) :
    ∃ b, a.IsAllowed re topic channel = some b ∧
      (b = true ↔ a.HasPermission (requiredPermission channel) = true ∧
        Matches re a.Topic topic ∧ ∃ c, c ∈ a.Channels ∧ Matches re c channel) := by
  obtain ⟨b, hb, hiff⟩ := channelsAllow_spec re channel a.Channels hc
  obtain ⟨r, hr⟩ := Option.isSome_iff_exists.mp ht
  have hperm : (if channel ≠ "" then !a.HasPermission "subscribe" else !a.HasPermission "publish")
      = !a.HasPermission (requiredPermission channel) := by
    unfold requiredPermission
    split <;> rfl
  unfold Authorization.IsAllowed
  rw [hperm, hr]
  by_cases hp : a.HasPermission (requiredPermission channel) = true
  · by_cases hm : r topic = true
    · refine ⟨b, by simp only [hp, hm, hb]; rfl, ?_⟩
      rw [hiff]
      constructor
      · intro h; exact ⟨hp, ⟨r, hr, hm⟩, h⟩
      · intro h; exact h.2.2
    · refine ⟨false, by simp [hp, hm], ?_⟩
      constructor
      · intro h; cases h
      · rintro ⟨-, ⟨r', hr', hm'⟩, -⟩
        rw [hr] at hr'
        cases hr'
        exact absurd hm' hm
  · refine ⟨false, by simp [hp], ?_⟩
    constructor
    · intro h; cases h
    · intro h; exact absurd h.1 hp

theorem anyAllowed_spec (re : Regexp) (topic channel : String) (auths : List Authorization)
    (hc : Compiles re auths) :
    ∃ b, anyAllowed re topic channel auths = some b ∧
      (b = true ↔ ∃ a, a ∈ auths ∧ a.HasPermission (requiredPermission channel) = true ∧
        Matches re a.Topic topic ∧ ∃ c, c ∈ a.Channels ∧ Matches re c channel) := by
  induction auths with
  | nil => exact ⟨false, rfl, by simp⟩
  | cons a rest ih =>
    obtain ⟨b, hb, hiff⟩ := ih fun d hd => hc d (List.mem_cons_of_mem _ hd)
    obtain ⟨h1, h2⟩ := hc a (List.mem_cons_self _ _)
    obtain ⟨b0, hb0, hiff0⟩ := Authorization.IsAllowed_spec re a topic channel h1 h2
    unfold anyAllowed
    rw [hb0]
    cases b0 with
    | true =>
      refine ⟨true, rfl, ?_⟩
      simp only [true_iff]
      exact ⟨a, List.mem_cons_self _ _, hiff0.mp rfl⟩
    | false =>
      refine ⟨b, hb, ?_⟩
      rw [hiff]
      constructor
      · rintro ⟨d, hd, h⟩
        exact ⟨d, List.mem_cons_of_mem _ hd, h⟩
      · rintro ⟨d, hd, h⟩
        rcases List.mem_cons.mp hd with rfl | hd
        · exact absurd (hiff0.mpr h) (by simp)
        · exact ⟨d, hd, h⟩

/-- The method `HasPermission` tells whether the permission is among the
permissions of the authorization. -/
theorem HasPermission_iff (a : Authorization) (permission : String) :
    a.HasPermission permission = true ↔ permission ∈ a.Permissions := by
  unfold Authorization.HasPermission
  rw [List.any_eq_true]
  constructor
  · rintro ⟨p, hp, he⟩
    have : permission = p := by simpa using he
    rw [this]
    exact hp
  · intro h
    exact ⟨permission, h, by simp⟩

/-- C23: on a state whose patterns all compile, `State.IsAllowed(topic, channel)`
returns, and it returns true if and only if some authorization of the state lists
the required permission among its permissions ("subscribe" for a non-empty
channel, "publish" for the empty one), its topic pattern matches the topic and one
of its channel patterns matches the channel.  So a publish check, with the empty
channel, needs a channel pattern that matches the empty string, and a state whose
authorizations have no channel patterns allows nothing. -/
theorem State_IsAllowed_iff (re : Regexp) (s : State) (topic channel : String)
    (hc : Compiles re s.Authorizations) :
    ∃ b, s.IsAllowed re topic channel = some b ∧
      (b = true ↔ ∃ a, a ∈ s.Authorizations ∧
        (if channel ≠ "" then "subscribe" else "publish") ∈ a.Permissions ∧
        Matches re a.Topic topic ∧ ∃ c, c ∈ a.Channels ∧ Matches re c channel) ∧
      (channel = "" → b = true →
        ∃ a, a ∈ s.Authorizations ∧ "publish" ∈ a.Permissions ∧
          ∃ c, c ∈ a.Channels ∧ Matches re c "") ∧
      ((∀ a, a ∈ s.Authorizations → a.Channels = []) → b = false) := by
  obtain ⟨b, hb, hiff0⟩ := anyAllowed_spec re topic channel s.Authorizations hc
  have hiff : b = true ↔ ∃ a, a ∈ s.Authorizations ∧
      (if channel ≠ "" then "subscribe" else "publish") ∈ a.Permissions ∧
      Matches re a.Topic topic ∧ ∃ c, c ∈ a.Channels ∧ Matches re c channel := by
    rw [hiff0]
    constructor
    · rintro ⟨a, ha, hp, h⟩
      exact ⟨a, ha, (HasPermission_iff a _).mp hp, h⟩
    · rintro ⟨a, ha, hp, h⟩
      exact ⟨a, ha, (HasPermission_iff a _).mpr hp, h⟩
  refine ⟨b, hb, hiff, ?_, ?_⟩
  · intro he ht
    subst he
    obtain ⟨a, ha, hp, -, hch⟩ := hiff.mp ht
    exact ⟨a, ha, hp, hch⟩
  · intro hno
    cases b with
    | false => rfl
    | true =>
      obtain ⟨a, ha, -, -, c, hcm, -⟩ := hiff.mp rfl
      rw [hno a ha] at hcm
      cases hcm

theorem exState_compiles : Compiles exRegexp exState.Authorizations := by
  decide

theorem State_IsAllowed_iff_witness :
    Compiles exRegexp exState.Authorizations ∧
    exState.IsAllowed exRegexp "orders" "billing" = some true ∧
    exState.IsAllowed exRegexp "orders" "" = some true ∧
    exState.IsAllowed exRegexp "audit" "billing" = some false ∧
    exState.IsAllowed exRegexp "metrics" "billing" = some true ∧
    ∃ b, exState.IsAllowed exRegexp "audit" "billing" = some b ∧
      (b = true ↔ ∃ a, a ∈ exState.Authorizations ∧
        (if "billing" ≠ "" then "subscribe" else "publish") ∈ a.Permissions ∧
        Matches exRegexp a.Topic "audit" ∧ ∃ c, c ∈ a.Channels ∧ Matches exRegexp c "billing") ∧
      ("billing" = "" → b = true →
        ∃ a, a ∈ exState.Authorizations ∧ "publish" ∈ a.Permissions ∧
          ∃ c, c ∈ a.Channels ∧ Matches exRegexp c "") ∧
      ((∀ a, a ∈ exState.Authorizations → a.Channels = []) → b = false) :=
  ⟨exState_compiles, by decide, by decide, by decide, by decide,
    State_IsAllowed_iff exRegexp exState "audit" "billing" exState_compiles⟩

theorem checkPermissions_cases (ps : List String) :
    (checkPermissions ps = .ok () ∧ ∀ p, p ∈ ps → p = "subscribe" ∨ p = "publish") ∨
    (∃ e, checkPermissions ps = .error e ∧ ∃ p, p ∈ ps ∧ ¬ (p = "subscribe" ∨ p = "publish")) := by
  induction ps with
  | nil => exact Or.inl ⟨rfl, by simp⟩
  | cons p rest ih =>
    unfold checkPermissions
    by_cases hp : p = "subscribe" ∨ p = "publish"
    · rw [if_pos hp]
      rcases ih with ⟨h1, h2⟩ | ⟨e, h1, q, hq, hn⟩
      · refine Or.inl ⟨h1, fun q hq => ?_⟩
        rcases List.mem_cons.mp hq with rfl | hq
        · exact hp
        · exact h2 q hq
      · exact Or.inr ⟨e, h1, q, List.mem_cons_of_mem _ hq, hn⟩
    · rw [if_neg hp]
      exact Or.inr ⟨_, rfl, p, List.mem_cons_self _ _, hp⟩

theorem checkChannels_cases (re : Regexp) (cs : List String) :
    (checkChannels re cs = .ok () ∧ ∀ c, c ∈ cs → (re.Compile c).isSome = true) ∨
    (∃ e, checkChannels re cs = .error e ∧ ∃ c, c ∈ cs ∧ re.Compile c = none) := by
  induction cs with
  | nil => exact Or.inl ⟨rfl, by simp⟩
  | cons c rest ih =>
    unfold checkChannels
    cases hc : re.Compile c with
    | none => exact Or.inr ⟨_, rfl, c, List.mem_cons_self _ _, hc⟩
    | some r =>
      rcases ih with ⟨h1, h2⟩ | ⟨e, h1, d, hd, hn⟩
      · refine Or.inl ⟨h1, fun d hd => ?_⟩
        rcases List.mem_cons.mp hd with rfl | hd
        · rw [hc]; rfl
        · exact h2 d hd
      · exact Or.inr ⟨e, h1, d, List.mem_cons_of_mem _ hd, hn⟩

theorem checkAuthorizations_cases (re : Regexp) (auths : List Authorization) :
    (checkAuthorizations re auths = .ok () ∧ Valid re auths) ∨
    (∃ e, checkAuthorizations re auths = .error e ∧
      ((∃ a, a ∈ auths ∧ ∃ p, p ∈ a.Permissions ∧ p ≠ "subscribe" ∧ p ≠ "publish") ∨
       (∃ a, a ∈ auths ∧ (re.Compile a.Topic = none ∨
          ∃ c, c ∈ a.Channels ∧ re.Compile c = none)))) := by
  induction auths with
  | nil => exact Or.inl ⟨rfl, fun a ha => by cases ha⟩
  | cons a rest ih =>
    unfold checkAuthorizations
    rcases checkPermissions_cases a.Permissions with ⟨p1, p2⟩ | ⟨e, p1, q, hq, hn⟩
    · rw [p1]
      cases ht : re.Compile a.Topic with
      | none =>
        exact Or.inr ⟨_, rfl, Or.inr ⟨a, List.mem_cons_self _ _, Or.inl ht⟩⟩
      | some r =>
        rcases checkChannels_cases re a.Channels with ⟨c1, c2⟩ | ⟨e, c1, d, hd, hn⟩
        · simp only [c1]
          rcases ih with ⟨h1, h2⟩ | ⟨e, h1, hbad⟩
          · refine Or.inl ⟨h1, fun b hb => ?_⟩
            rcases List.mem_cons.mp hb with rfl | hb
            · exact ⟨p2, by rw [ht]; rfl, c2⟩
            · exact h2 b hb
          · refine Or.inr ⟨e, h1, ?_⟩
            rcases hbad with ⟨b, hb, h⟩ | ⟨b, hb, h⟩
            · exact Or.inl ⟨b, List.mem_cons_of_mem _ hb, h⟩
            · exact Or.inr ⟨b, List.mem_cons_of_mem _ hb, h⟩
        · simp only [c1]
          exact Or.inr ⟨e, rfl, Or.inr ⟨a, List.mem_cons_self _ _, Or.inr ⟨d, hd, hn⟩⟩⟩
    · rw [p1]
      refine Or.inr ⟨e, rfl, Or.inl ⟨a, List.mem_cons_self _ _, q, hq, ?_⟩⟩
      exact not_or.mp hn

/-- A valid list of authorizations has none of the defects that the validation
looks for. -/
theorem Valid.not_bad {re : Regexp} {auths : List Authorization} (h : Valid re auths) :
    ¬ ((∃ a, a ∈ auths ∧ ∃ p, p ∈ a.Permissions ∧ p ≠ "subscribe" ∧ p ≠ "publish") ∨
       (∃ a, a ∈ auths ∧ (re.Compile a.Topic = none ∨
          ∃ c, c ∈ a.Channels ∧ re.Compile c = none))) := by
  rintro (⟨a, ha, p, hp, h1, h2⟩ | ⟨a, ha, ht | ⟨c, hc, hn⟩⟩)
  · rcases (h a ha).1 p hp with e | e
    · exact h1 e
    · exact h2 e
  · have := (h a ha).2.1
    rw [ht] at this
    cases this
  · have := (h a ha).2.2 c hc
    rw [hn] at this
    cases this

/-- C24, as the code has it: when the request of `QueryAuthd` has succeeded and
decoded the state `st`, `QueryAuthd` returns an error, and no state, if and only
if some authorization lists a permission other than "subscribe" and "publish", or
some topic or channel pattern does not compile, or `TTL <= 0`.  In every other
case it returns `st` with `Expires` set to the current time plus the int64 product
`time.Duration(TTL) * time.Second`; this is the current time plus TTL seconds
provided that the TTL in nanoseconds is below 2^63, that is for a TTL of at most
9223372036 seconds.  Every pattern of the state returned compiles. -/
theorem QueryAuthd_contract (env : Env) (authd remoteIP : String) (tlsEnabled : Bool)
    (commonName authSecret : String) (st : State)
    (hfetch : env.GETV1 (endpointOf env authd remoteIP tlsEnabled commonName authSecret) =
      .ok st) :
    ((∃ e, QueryAuthd env authd remoteIP tlsEnabled commonName authSecret = .error e) ↔
      ((∃ a, a ∈ st.Authorizations ∧
          ∃ p, p ∈ a.Permissions ∧ p ≠ "subscribe" ∧ p ≠ "publish") ∨
       (∃ a, a ∈ st.Authorizations ∧ (env.re.Compile a.Topic = none ∨
          ∃ c, c ∈ a.Channels ∧ env.re.Compile c = none)) ∨
       st.TTL ≤ 0)) ∧
    ((¬ ∃ e, QueryAuthd env authd remoteIP tlsEnabled commonName authSecret = .error e) →
      QueryAuthd env authd remoteIP tlsEnabled commonName authSecret =
        .ok { st with Expires := env.Now + engine.wrapInt64 (st.TTL * Second) } ∧
      (st.TTL * Second < 2 ^ 63 →
        QueryAuthd env authd remoteIP tlsEnabled commonName authSecret =
          .ok { st with Expires := env.Now + st.TTL * 1000000000 }) ∧
      Compiles env.re st.Authorizations) := by
  have hq : QueryAuthd env authd remoteIP tlsEnabled commonName authSecret =
      match checkAuthorizations env.re st.Authorizations with
      | .error e => .error e
      | .ok _ =>
        if st.TTL ≤ 0 then .error (.invalidTTL st.TTL)
        else .ok { st with Expires := env.Now + engine.wrapInt64 (st.TTL * Second) } := by
    unfold QueryAuthd
    rw [hfetch]
  rw [hq]
  rcases checkAuthorizations_cases env.re st.Authorizations with ⟨h1, hv⟩ | ⟨e, h1, hbad⟩
  · rw [h1]
    simp only
    by_cases httl : st.TTL ≤ 0
    · rw [if_pos httl]
      refine ⟨⟨fun _ => Or.inr (Or.inr httl), fun _ => ⟨_, rfl⟩⟩, fun h => absurd ⟨_, rfl⟩ h⟩
    · rw [if_neg httl]
      constructor
      · constructor
        · rintro ⟨e, he⟩
          cases he
        · intro h
          rcases h with h | h | h
          · exact absurd (Or.inl h) hv.not_bad
          · exact absurd (Or.inr h) hv.not_bad
          · exact absurd h httl
      · intro _
        refine ⟨rfl, ?_, fun a ha => (hv a ha).2⟩
        intro hlt
        rw [engine.wrapInt64_eq_self _ (by unfold Second at hlt ⊢; omega)
          (by unfold Second at hlt ⊢; omega)]
        rfl
  · rw [h1]
    simp only
    refine ⟨⟨fun _ => ?_, fun _ => ⟨e, rfl⟩⟩, fun h => absurd ⟨e, rfl⟩ h⟩
    rcases hbad with h | h
    · exact Or.inl h
    · exact Or.inr (Or.inl h)

/-- C24, as the claim has it, fails: for a decoded state with a TTL of 9223372037
seconds the product `time.Duration(TTL) * time.Second` wraps in int64, and
`QueryAuthd` returns the state with `Expires` 9223372036709551616 nanoseconds
before the current time, not 9223372037 seconds after it: the state has expired
when it is returned. -/
theorem QueryAuthd_ttl_wraps :
    exLongEnv.GETV1 (endpointOf exLongEnv "127.0.0.1:4181" "127.0.0.1" false "" "secret") =
      .ok exLongState ∧
    QueryAuthd exLongEnv "127.0.0.1:4181" "127.0.0.1" false "" "secret" =
      .ok { exLongState with Expires := exLongEnv.Now - 9223372036709551616 } ∧
    QueryAuthd exLongEnv "127.0.0.1:4181" "127.0.0.1" false "" "secret" ≠
      .ok { exLongState with Expires := exLongEnv.Now + 9223372037 * 1000000000 } ∧
    exLongEnv.Now - 9223372036709551616 < exLongEnv.Now := by
  have h1 : QueryAuthd exLongEnv "127.0.0.1:4181" "127.0.0.1" false "" "secret" =
      .ok { exLongState with Expires := exLongEnv.Now - 9223372036709551616 } := rfl
  refine ⟨rfl, h1, ?_, by decide⟩
  intro h
  rw [h1] at h
  exact absurd (Except.ok.inj h) (by decide)

theorem QueryAuthd_contract_witness :
    exEnv.GETV1 (endpointOf exEnv "127.0.0.1:4181" "127.0.0.1" false "" "secret") =
      .ok exState ∧
    QueryAuthd exEnv "127.0.0.1:4181" "127.0.0.1" false "" "secret" =
      .ok { exState with Expires := 1700000060000000000 } ∧
    ((∃ e, QueryAuthd exEnv "127.0.0.1:4181" "127.0.0.1" false "" "secret" = .error e) ↔
      ((∃ a, a ∈ exState.Authorizations ∧
          ∃ p, p ∈ a.Permissions ∧ p ≠ "subscribe" ∧ p ≠ "publish") ∨
       (∃ a, a ∈ exState.Authorizations ∧ (exEnv.re.Compile a.Topic = none ∨
          ∃ c, c ∈ a.Channels ∧ exEnv.re.Compile c = none)) ∨
       exState.TTL ≤ 0)) :=
  ⟨rfl, rfl,
    (QueryAuthd_contract exEnv "127.0.0.1:4181" "127.0.0.1" false "" "secret" exState rfl).1⟩

end auth

/-! ## Properties of sending the notifications -/

namespace admin

/-- An iteration of `handleAdminActions` posts the content of the action, and it
panics exactly when the POST returns a nil response. -/
theorem handleAdminAction_outcome (env : NotifyEnv) (opts : Options) (action : AdminAction) :
    (handleAdminAction env opts action).2 =
      (if (env.Post opts.NotificationHTTPEndpoint (contentOf env action)).1 = none
        then .panicked else .returned) ∧
    NotifyEvent.post opts.NotificationHTTPEndpoint (contentOf env action) ∈
      (handleAdminAction env opts action).1 := by
  unfold handleAdminAction contentOf
  cases env.Marshal action with
  | error err =>
    simp only
    cases (env.Post opts.NotificationHTTPEndpoint []).1 <;>
      cases (env.Post opts.NotificationHTTPEndpoint []).2 <;> simp
  | ok content =>
    simp only
    cases (env.Post opts.NotificationHTTPEndpoint content).1 <;>
      cases (env.Post opts.NotificationHTTPEndpoint content).2 <;> simp

/-- When every POST returns a response, `handleAdminActions` handles every action
and returns. -/
theorem handleAdminActions_returns (env : NotifyEnv) (opts : Options)
    (hresp : ∀ endpoint content, (env.Post endpoint content).1 ≠ none)
    (actions : List AdminAction) :
    (handleAdminActions env opts actions).2 = .returned ∧
    ∀ a, a ∈ actions →
      NotifyEvent.post opts.NotificationHTTPEndpoint (contentOf env a) ∈
        (handleAdminActions env opts actions).1 := by
  induction actions with
  | nil => exact ⟨rfl, fun a ha => by cases ha⟩
  | cons a rest ih =>
    obtain ⟨h1, hc1⟩ := handleAdminAction_outcome env opts a
    rw [if_neg (hresp _ _)] at h1
    unfold handleAdminActions
    rcases hA : handleAdminAction env opts a with ⟨ev, o⟩
    rw [hA] at h1 hc1
    simp only at h1 hc1
    subst h1
    simp only
    refine ⟨ih.1, fun b hb => ?_⟩
    rcases List.mem_cons.mp hb with rfl | hb
    · exact List.mem_append_left _ hc1
    · exact List.mem_append_right _ (ih.2 b hb)

/-- When the POST of the first action returns a nil response, as it does on a
network error, `handleAdminActions` panics in this iteration. -/
theorem handleAdminActions_panics (env : NotifyEnv) (opts : Options) (action : AdminAction)
    (rest : List AdminAction)
    (hnil : (env.Post opts.NotificationHTTPEndpoint (contentOf env action)).1 = none) :
    (handleAdminActions env opts (action :: rest)).2 = .panicked := by
  obtain ⟨h1, -⟩ := handleAdminAction_outcome env opts action
  rw [if_pos hnil] at h1
  unfold handleAdminActions
  rcases hA : handleAdminAction env opts action with ⟨ev, o⟩
  rw [hA] at h1
  simp only at h1
  subst h1
  rfl

/-- C25, at an input on which the code fails: with nothing listening at the
notification endpoint the POST returns a nil response and an error;
`handleAdminActions` logs the error and then panics when it closes the body of the
nil response, so the second action that is queued is never sent.  With an
endpoint that answers, both actions are sent. -/
theorem handleAdminActions_failed_post :
    handleAdminActions exNotifyDown exNotifyOpts [exAction "orders", exAction "audit"] =
      ([.logInfo "POSTing notification to http://127.0.0.1:9/notify",
        .post "http://127.0.0.1:9/notify" (client.ascii "orders"),
        .logError "failed to POST notification - connection refused"], .panicked) ∧
    handleAdminActions exNotifyUp exNotifyOpts [exAction "orders", exAction "audit"] =
      ([.logInfo "POSTing notification to http://127.0.0.1:9/notify",
        .post "http://127.0.0.1:9/notify" (client.ascii "orders"),
        .closeBody { StatusCode := 200 },
        .logInfo "POSTing notification to http://127.0.0.1:9/notify",
        .post "http://127.0.0.1:9/notify" (client.ascii "audit"),
        .closeBody { StatusCode := 200 }], .returned) := by
  constructor <;> decide

end admin
